import Mathlib

/-!
Verification of the krpsim search engine and its supporting tools.

The C++ sources are embedded shallowly:
* machine integers (`int`, `long`) become `Int` (no overflow is exercised by the
  claims considered here);
* `double` values (stock-cap factors, scores, distances) become `ℚ`; the
  distance field only ever holds whole numbers and is embedded as `Nat`;
* `std::priority_queue` ordered by ascending finish time becomes a list kept
  sorted by finish time (`pqPush` inserts in order, popping takes the head);
* `std::vector` becomes `List` with `List.set` / `List.getD`;
* `std::unordered_map<std::string, int>` becomes an association list.
-/

namespace Krpsim

/-- An item of a process description: a name together with a quantity
(`Item` in `krpsim.hpp`). -/
structure Item where
  name : String
  qty : Int
deriving Repr, DecidableEq

/-- A launch event `(cycle, process id)` (`TraceEntry` in `genetic_algo.hpp`). -/
structure TraceEntry where
  cycle : Int
  procId : Int
deriving Repr, DecidableEq

/-- An in-flight process completion (`RunningProcess` in `genetic_algo.hpp`). -/
structure RunningProcess where
  finish : Int
  id : Nat
deriving Repr, DecidableEq

/-- A process of the configuration (`Process` in `krpsim.hpp`): name, needs and
results both by name and by item id, a delay, and the analyzer cycle mark. -/
structure Process where
  name : String
  needs : List Item
  results : List Item
  delay : Int
  in_cycle : Bool
  needs_by_id : List (Nat × Int)
  results_by_id : List (Nat × Int)
deriving Repr, DecidableEq

instance : Inhabited Process :=
  ⟨⟨"", [], [], 0, false, [], []⟩⟩

/-- The cap policy (`MaxStocks` in `krpsim.hpp`); factors are `double` in the
source and are embedded as rationals. -/
structure MaxStocks where
  limiting_item : String
  limiting_initial_stock : Int
  abs_cap_by_id : List Int
  factor_by_id : List ℚ
deriving Repr, DecidableEq

/-- The configuration handed to the search (`Config` in `krpsim.hpp`). -/
structure Config where
  initialStocks : List (String × Int)
  processes : List Process
  optimizeKeys : List String
  dist : List (String × Nat)
  maxStocks : MaxStocks
  item_to_id : List (String × Nat)
  id_to_item : List String
  needers_by_item : List (List (Nat × Int))
deriving Repr, DecidableEq

/-- Association-list lookup used for the `unordered_map` fields. -/
def alookup {β : Type} : List (String × β) → String → Option β
  | [], _ => none
  | kv :: rest, k => if kv.1 = k then some kv.2 else alookup rest k

/-- Push onto the completion queue: insert keeping the list sorted by
ascending finish time (the behaviour of the `RunPQ` min-heap). -/
def pqPush : List RunningProcess → RunningProcess → List RunningProcess
  | [], rp => [rp]
  | x :: xs, rp => if rp.finish < x.finish then rp :: x :: xs else x :: pqPush xs rp

/-- A search individual (`Candidate` in `genetic_algo.hpp`). -/
structure Candidate where
  cycle : Int
  stocks_by_id : List Int
  running : List RunningProcess
  trace : List TraceEntry
deriving Repr, DecidableEq

/-- The mutable state of `generate_child`: the candidate plus the runnable-set
bookkeeping vectors threaded through `apply_process`. -/
structure GenState where
  child : Candidate
  missing : List Int
  runnable : List Int
  is_runnable : List Bool
deriving Repr, DecidableEq

/-- The `add_runnable` helper lambda of `apply_process`. -/
def add_runnable (pid : Nat) (s : GenState) : GenState :=
  if ¬ s.is_runnable.getD pid false ∧ s.missing.getD pid 0 = 0 then
    { s with is_runnable := s.is_runnable.set pid true,
             runnable := s.runnable ++ [(pid : Int)] }
  else s

/-- The `remove_runnable` helper lambda of `apply_process`. -/
def remove_runnable (pid : Nat) (s : GenState) : GenState :=
  if s.is_runnable.getD pid false then
    { s with is_runnable := s.is_runnable.set pid false,
             runnable := s.runnable.filter (fun p => p ≠ (pid : Int)) }
  else s

/-- One iteration of the needers walk of `on_stock_increase`. -/
def incNeederStep (v_old v_new : Int) (s : GenState) (pq : Nat × Int) : GenState :=
  if v_old < pq.2 ∧ pq.2 ≤ v_new then
    let m := s.missing.getD pq.1 0 - 1
    let s := { s with missing := s.missing.set pq.1 m }
    if m = 0 then add_runnable pq.1 s else s
  else s

/-- The `on_stock_increase` helper lambda of `apply_process`: walk the needers
of the item and decrement the missing counters across the threshold. -/
def on_stock_increase (cfg : Config) (item_id : Nat) (v_old v_new : Int)
    (s : GenState) : GenState :=
  if v_new ≤ v_old then s
  else (cfg.needers_by_item.getD item_id []).foldl (incNeederStep v_old v_new) s

/-- One iteration of the needers walk of `on_stock_decrease`. -/
def decNeederStep (v_old v_new : Int) (s : GenState) (pq : Nat × Int) : GenState :=
  if pq.2 ≤ v_old ∧ v_new < pq.2 then
    let m0 := s.missing.getD pq.1 0
    let s := { s with missing := s.missing.set pq.1 (m0 + 1) }
    if m0 = 0 then remove_runnable pq.1 s else s
  else s

/-- The `on_stock_decrease` helper lambda of `apply_process`. -/
def on_stock_decrease (cfg : Config) (item_id : Nat) (v_old v_new : Int)
    (s : GenState) : GenState :=
  if v_old ≤ v_new then s
  else (cfg.needers_by_item.getD item_id []).foldl (decNeederStep v_old v_new) s

/-- One result increment of the wait branch of `apply_process`: bump the stock
of one result item, then notify `on_stock_increase`. -/
def resultStep (cfg : Config) (s : GenState) (iq : Nat × Int) : GenState :=
  let before := s.child.stocks_by_id.getD iq.1 0
  let after := before + iq.2
  let s := { s with child :=
    { s.child with stocks_by_id := s.child.stocks_by_id.set iq.1 after } }
  on_stock_increase cfg iq.1 before after s

/-- Add the results of process `pid` to the stocks, notifying the runnable-set
maintenance after each increment (the body of the pop loop of the wait
branch of `apply_process`). -/
def addResultsOf (cfg : Config) (pid : Nat) (s : GenState) : GenState :=
  (cfg.processes.getD pid default).results_by_id.foldl (resultStep cfg) s

/-- The pop loop of the wait branch of `apply_process`: pop every completion
whose finish time is at most `cyc`, adding its results. The queue is passed
as the explicit list argument; the state carries the remainder at the end. -/
def waitLoop (cfg : Config) (cyc : Int) :
    List RunningProcess → GenState → GenState
  | [], s => s
  | rp :: rest, s =>
    if rp.finish ≤ cyc then
      waitLoop cfg cyc rest (addResultsOf cfg rp.id s)
    else { s with child := { s.child with running := rp :: rest } }

/-- One need decrement of the launch branch of `apply_process`: lower the stock
of one need item, then notify `on_stock_decrease`. -/
def needStep (cfg : Config) (s : GenState) (iq : Nat × Int) : GenState :=
  let before := s.child.stocks_by_id.getD iq.1 0
  let after := before - iq.2
  let s := { s with child :=
    { s.child with stocks_by_id := s.child.stocks_by_id.set iq.1 after } }
  on_stock_decrease cfg iq.1 before after s

/-- `apply_process` from `genetic_algo.cpp`: wait for the next completion
(`proc_id = -1`) or launch the process `proc_id`. -/
def apply_process (cfg : Config) (proc_id : Int) (s : GenState) : GenState :=
  if proc_id = -1 then
    match s.child.running with
    | [] => s
    | rp :: rest =>
      waitLoop cfg rp.finish (rp :: rest)
        { s with child := { s.child with cycle := rp.finish, running := [] } }
  else
    let pid := proc_id.toNat
    let proc := cfg.processes.getD pid default
    let newRunning := pqPush s.child.running ⟨s.child.cycle + proc.delay, pid⟩
    let s := { s with child := { s.child with running := newRunning } }
    let s := proc.needs_by_id.foldl (needStep cfg) s
    { s with child :=
      { s.child with trace := s.child.trace ++ [⟨s.child.cycle, proc_id⟩] } }

/-- Whether an item id is currently over its cap, as computed by the
`over` vector of `delete_high_stock_processes`. -/
def overCap (cfg : Config) (cand : Candidate) (factors_mode : Bool)
    (limiting_stock : Int) (i : Nat) : Bool :=
  let current := cand.stocks_by_id.getD i 0
  let cap := cfg.maxStocks.abs_cap_by_id.getD i (-1)
  let fac := cfg.maxStocks.factor_by_id.getD i (-1)
  (¬ factors_mode = true ∧ 0 ≤ cap ∧ cap < current) ∨
    (factors_mode = true ∧ 0 ≤ fac ∧ (limiting_stock : ℚ) * fac < (current : ℚ))

/-- The `drop` lambda of `delete_high_stock_processes`: a non-wait choice is
dropped when it has results and every result item is over cap. -/
def dropHigh (cfg : Config) (over : Nat → Bool) (p : Int) : Bool :=
  if p < 0 then false
  else
    let proc := cfg.processes.getD p.toNat default
    if proc.results_by_id = [] then false
    else proc.results_by_id.all (fun iq => over iq.1)

/-- The erase loop of `delete_high_stock_processes`: filter the runnable list,
clearing the flag of every dropped process and remembering the first non-wait
entry whose flag was set (`non_wait_runnable`). -/
def dhsScan (cfg : Config) (over : Nat → Bool) :
    List Int → List Bool → Int → List Int × List Bool × Int
  | [], fl, nw => ([], fl, nw)
  | p :: rest, fl, nw =>
    if p < 0 then
      let r := dhsScan cfg over rest fl nw
      (p :: r.1, r.2)
    else
      let nw := if nw = -1 ∧ fl.getD p.toNat false then p else nw
      if dropHigh cfg over p then dhsScan cfg over rest (fl.set p.toNat false) nw
      else
        let r := dhsScan cfg over rest fl nw
        (p :: r.1, r.2)

/-- The `limiting_stock` value of `delete_high_stock_processes`: the static
initial stock in the absolute regime, the current stock of the limiting item
in the factor regime. -/
def dhsLimitingStock (cfg : Config) (cand : Candidate) : Int :=
  if cfg.maxStocks.limiting_initial_stock ≠ -1 then
    cfg.maxStocks.limiting_initial_stock
  else if cfg.maxStocks.limiting_item ≠ "" then
    cand.stocks_by_id.getD
      ((alookup cfg.item_to_id cfg.maxStocks.limiting_item).getD 0) 0
  else 0

/-- The `over` vector of `delete_high_stock_processes`, as a function of the
item id. -/
def dhsOver (cfg : Config) (cand : Candidate) : Nat → Bool :=
  overCap cfg cand (cfg.maxStocks.limiting_initial_stock = -1)
    (dhsLimitingStock cfg cand)

/-- `delete_high_stock_processes` from `genetic_algo.cpp`. -/
def delete_high_stock_processes (cfg : Config) (cand : Candidate)
    (runnable : List Int) (is_runnable : List Bool) : List Int × List Bool :=
  if cfg.maxStocks.limiting_item = "" then (runnable, is_runnable)
  else if runnable = [] ∨ runnable = [-1] then (runnable, is_runnable)
  else
    let over := dhsOver cfg cand
    let r := dhsScan cfg over runnable is_runnable (-1)
    let lst := r.1
    let fl := r.2.1
    let nw := r.2.2
    if cand.running = [] ∧ nw ≠ -1 ∧ (lst = [] ∨ lst = [-1]) then
      if ¬ fl.getD nw.toNat false then (lst ++ [nw], fl.set nw.toNat true)
      else (lst, fl)
    else (lst, fl)

/-- The in-cycle erase loop at the top of each `generate_child` iteration:
remove every choice whose process carries the `in_cycle` mark, remembering the
first removed one (`first_cycle_process`). -/
def cycleScan (cfg : Config) :
    List Int → List Bool → Int → List Int × List Bool × Int
  | [], fl, fc => ([], fl, fc)
  | p :: rest, fl, fc =>
    if p ≠ -1 ∧ (cfg.processes.getD p.toNat default).in_cycle = true then
      cycleScan cfg rest (fl.set p.toNat false) (if fc = -1 then p else fc)
    else
      let r := cycleScan cfg rest fl fc
      (p :: r.1, r.2)

/-- The in-cycle filtering step of `generate_child` (erase loop plus the
reinstate-one-if-empty rule). -/
def cycleFilter (cfg : Config) (s : GenState) : GenState :=
  let r := cycleScan cfg s.runnable s.is_runnable (-1)
  let lst := r.1
  let fl := r.2.1
  let fc := r.2.2
  if fc ≠ -1 ∧ (lst = [] ∨ (lst = [-1] ∧ s.child.running = [])) then
    { s with runnable := lst ++ [fc], is_runnable := fl.set fc.toNat true }
  else { s with runnable := lst, is_runnable := fl }

/-- One iteration of the reconciliation scan of `generate_child`. -/
def reconcileStep (s : GenState) (j : Nat) : GenState :=
  if ¬ s.is_runnable.getD j false ∧ s.missing.getD j 0 = 0 then
    { s with is_runnable := s.is_runnable.set j true,
             runnable := s.runnable ++ [(j : Int)] }
  else s

/-- The defensive reconciliation scan after each apply in `generate_child`:
re-add every process whose missing count is zero but whose flag is unset. -/
def reconcile (s : GenState) : GenState :=
  (List.range s.missing.length).foldl reconcileStep s

/-- Apply the cap filter of `delete_high_stock_processes` to a generator
state. -/
def capFilter (cfg : Config) (s : GenState) : GenState :=
  let r := delete_high_stock_processes cfg s.child s.runnable s.is_runnable
  { s with runnable := r.1, is_runnable := r.2 }

/-- The number of distinct need items of `needs` whose stock is strictly below
the required quantity (the quantity maintained in `missing`). -/
def countMissing (stocks : List Int) (needs : List (Nat × Int)) : Int :=
  ((needs.filter (fun iq => stocks.getD iq.1 0 < iq.2)).length : Int)

/-- The initial stock vector of a fresh candidate: zeros, then each initial
stock written at its item id (`generate_child`, also `solve_with_ga`). -/
def mkInitialStocks (cfg : Config) : List Int :=
  cfg.initialStocks.foldl
    (fun st nq =>
      match alookup cfg.item_to_id nq.1 with
      | some id => st.set id nq.2
      | none => st)
    (List.replicate cfg.item_to_id.length 0)

/-- The generator state of `generate_child` just before the initial cap-filter
pass: fresh candidate, missing counts computed from scratch, runnable list
with the wait sentinel appended. -/
def genInitPre (cfg : Config) : GenState :=
  let stocks0 := mkInitialStocks cfg
  let missing0 : List Int := cfg.processes.map (fun p => countMissing stocks0 p.needs_by_id)
  let n := cfg.processes.length
  let runnable0 : List Int :=
    ((List.range n).filter (fun pid => missing0.getD pid 0 = 0)).map
      (fun (pid : Nat) => (pid : Int))
  let flags0 : List Bool := (List.range n).map (fun pid => missing0.getD pid 0 = 0)
  { child := { cycle := 0, stocks_by_id := stocks0, running := [], trace := [] },
    missing := missing0,
    runnable := runnable0 ++ [-1],
    is_runnable := flags0 }

/-- The initial generator state of `generate_child`: the fresh state followed
by one cap-filter pass. -/
def genInit (cfg : Config) : GenState :=
  capFilter cfg (genInitPre cfg)

/-- One iteration of the `generate_child` loop for a given choice `c`: cycle
filter, apply, reconciliation scan, cap filter. -/
def genStep (cfg : Config) (c : Int) (s : GenState) : GenState :=
  capFilter cfg (reconcile (apply_process cfg c (cycleFilter cfg s)))

/-- A candidate-generation run: the initial state followed by one `genStep` per
choice of the sequence. -/
def genRun (cfg : Config) (cs : List Int) : GenState :=
  cs.foldl (fun s c => genStep cfg c s) (genInit cfg)

/-- A choice is one the `generate_child` loop can take from state `s`: the wait
sentinel, or a process whose runnable flag is set after the cycle filter (both
the parent branches and the mutation branch only launch such processes). -/
def validChoiceB (cfg : Config) (s : GenState) (c : Int) : Bool :=
  c = -1 ∨ (0 ≤ c ∧ (cycleFilter cfg s).is_runnable.getD c.toNat false)

/-- Validity of a whole choice sequence, step by step. -/
def validChoicesB (cfg : Config) (s : GenState) : List Int → Bool
  | [] => true
  | c :: cs => validChoiceB cfg s c && validChoicesB cfg (genStep cfg c s) cs

/-- Modelled from the spec: the needers of item `i` among `procs`, starting the
process numbering at `k`. The inverted index `needers_by_item` is built by
`parse_config_for_simulation`, which is absent from the sources (only its
caller `krpsim.cpp` remains); the spec defines it as
`needers_by_item[i] = \x7b (pid, qty) : process pid has need (i, qty) \x7d`. -/
def needersAux (i : Nat) : Nat → List Process → List (Nat × Int)
  | _, [] => []
  | k, p :: rest =>
    (p.needs_by_id.filterMap
      (fun iq => if iq.1 = i then some (k, iq.2) else none)) ++
      needersAux i (k + 1) rest

/-- Modelled from the spec: the full inverted needers index over all item
ids. -/
def specNeeders (procs : List Process) (itemCount : Nat) : List (List (Nat × Int)) :=
  (List.range itemCount).map (fun i => needersAux i 0 procs)

/-- Well-formedness of a configuration for the generator claims: the needers
index is the spec inverted index, every process has pairwise-distinct need
items and positive need and result quantities with in-range item ids, and the
initial stocks are nonnegative. The spec data model requires `qty > 0` for
needs and results and initial stocks are parsed from `\d+`. -/
def ConfigWF (cfg : Config) : Prop :=
  cfg.needers_by_item = specNeeders cfg.processes cfg.item_to_id.length ∧
  (∀ p ∈ cfg.processes,
    (p.needs_by_id.map Prod.fst).Nodup ∧
    (∀ iq ∈ p.needs_by_id, 0 < iq.2 ∧ iq.1 < cfg.item_to_id.length) ∧
    (∀ iq ∈ p.results_by_id, 0 < iq.2 ∧ iq.1 < cfg.item_to_id.length)) ∧
  (∀ nq ∈ cfg.initialStocks, 0 ≤ nq.2)

instance (cfg : Config) : Decidable (ConfigWF cfg) := by
  unfold ConfigWF
  infer_instance

/-- Total quantity attached to item id `i` in an `(id, qty)` list. -/
def qtySum (l : List (Nat × Int)) (i : Nat) : Int :=
  ((l.filter (fun iq => iq.1 = i)).map Prod.snd).sum

/-- Total quantity of item `i` produced by the results of the popped
completions `pops`. -/
def qtySumPop (cfg : Config) (pops : List RunningProcess) (i : Nat) : Int :=
  (pops.map (fun rp => qtySum (cfg.processes.getD rp.id default).results_by_id i)).sum

/-- All stocks are nonnegative. -/
def StocksNonneg (st : List Int) : Prop :=
  ∀ i, 0 ≤ st.getD i 0

/-- The missing counters agree with the actual number of unsatisfied needs. -/
def MissingExact (cfg : Config) (s : GenState) : Prop :=
  ∀ pid, pid < cfg.processes.length →
    s.missing.getD pid 0 =
      countMissing s.child.stocks_by_id (cfg.processes.getD pid default).needs_by_id

/-- A set runnable flag means a zero missing counter. -/
def FlagImpliesZero (s : GenState) : Prop :=
  ∀ pid, s.is_runnable.getD pid false = true → s.missing.getD pid 0 = 0

/-- Every entry of the runnable list is the wait sentinel or an in-range
process whose flag is set. -/
def RunnableFlagged (cfg : Config) (s : GenState) : Prop :=
  ∀ p ∈ s.runnable,
    p = -1 ∨ (0 ≤ p ∧ p.toNat < cfg.processes.length ∧
      s.is_runnable.getD p.toNat false = true)

/-- Every process whose flag is set appears in the runnable list. -/
def FlaggedRunnable (s : GenState) : Prop :=
  ∀ pid, s.is_runnable.getD pid false = true → (pid : Int) ∈ s.runnable

/-- The bookkeeping invariant of the `generate_child` loop. -/
structure Inv (cfg : Config) (s : GenState) : Prop where
  missing_len : s.missing.length = cfg.processes.length
  flags_len : s.is_runnable.length = cfg.processes.length
  stocks_len : s.child.stocks_by_id.length = cfg.item_to_id.length
  running_ids : ∀ rp ∈ s.child.running, rp.id < cfg.processes.length
  nonneg : StocksNonneg s.child.stocks_by_id
  miss_exact : MissingExact cfg s
  flag_zero : FlagImpliesZero s
  run_flag : RunnableFlagged cfg s
  flag_run : FlaggedRunnable s

/-- Some entry of `L` for process `pid` crosses the satisfaction threshold
upward when the stock moves from `vo` to `vn`. -/
def crossedUp (L : List (Nat × Int)) (vo vn : Int) (pid : Nat) : Prop :=
  ∃ q, (pid, q) ∈ L ∧ vo < q ∧ q ≤ vn

/-- Some entry of `L` for process `pid` crosses the satisfaction threshold
downward when the stock moves from `vo` to `vn`. -/
def crossedDown (L : List (Nat × Int)) (vo vn : Int) (pid : Nat) : Prop :=
  ∃ q, (pid, q) ∈ L ∧ q ≤ vo ∧ vn < q

instance (L : List (Nat × Int)) (vo vn : Int) (pid : Nat) :
    Decidable (crossedUp L vo vn pid) :=
  decidable_of_iff (∃ pq ∈ L, pq.1 = pid ∧ vo < pq.2 ∧ pq.2 ≤ vn) (by
    constructor
    · rintro ⟨⟨a, b⟩, hm, rfl, h1, h2⟩
      exact ⟨b, hm, h1, h2⟩
    · rintro ⟨q, hm, h1, h2⟩
      exact ⟨(pid, q), hm, rfl, h1, h2⟩)

instance (L : List (Nat × Int)) (vo vn : Int) (pid : Nat) :
    Decidable (crossedDown L vo vn pid) :=
  decidable_of_iff (∃ pq ∈ L, pq.1 = pid ∧ pq.2 ≤ vo ∧ vn < pq.2) (by
    constructor
    · rintro ⟨⟨a, b⟩, hm, rfl, h1, h2⟩
      exact ⟨b, hm, h1, h2⟩
    · rintro ⟨q, hm, h1, h2⟩
      exact ⟨(pid, q), hm, rfl, h1, h2⟩)

/-- The erase condition of the in-cycle filtering step. -/
def dropCycle (cfg : Config) (p : Int) : Prop :=
  p ≠ -1 ∧ (cfg.processes.getD p.toNat default).in_cycle = true

instance (cfg : Config) (p : Int) : Decidable (dropCycle cfg p) := by
  unfold dropCycle
  infer_instance

/-- A small well-formed example process used by witnesses. -/
def exProcess : Process :=
  { name := "p", needs := [⟨"a", 1⟩], results := [⟨"b", 1⟩], delay := 2,
    in_cycle := false, needs_by_id := [(0, 1)], results_by_id := [(1, 1)] }

/-- A small well-formed example configuration used by witnesses. -/
def exConfig : Config :=
  { initialStocks := [("a", 3)], processes := [exProcess],
    optimizeKeys := ["time"], dist := [],
    maxStocks := ⟨"", 0, [], []⟩,
    item_to_id := [("a", 0), ("b", 1)], id_to_item := ["a", "b"],
    needers_by_item := specNeeders [exProcess] 2 }

/-- A generator state with one due completion, used by the wait witness. -/
def exStateWait : GenState :=
  { child := { cycle := 0, stocks_by_id := [2, 0], running := [⟨2, 0⟩], trace := [] },
    missing := [0], runnable := [0, -1], is_runnable := [true] }

/-- The process of the claim C1 counterexample: it lists the same need item
twice; the configuration is accepted by the parser grammar. -/
def procC1 : Process :=
  { name := "p", needs := [⟨"a", 3⟩, ⟨"a", 3⟩], results := [], delay := 1,
    in_cycle := false, needs_by_id := [(0, 3), (0, 3)], results_by_id := [] }

/-- The configuration of the claim C1 counterexample (time objective, so the
cap policy is absent, as `parse_config` leaves it for `optimize:(time)`). -/
def cfgC1 : Config :=
  { initialStocks := [("a", 4)], processes := [procC1],
    optimizeKeys := ["time"], dist := [],
    maxStocks := ⟨"", 0, [], []⟩,
    item_to_id := [("a", 0)], id_to_item := ["a"],
    needers_by_item := specNeeders [procC1] 1 }

/-- The first process of the claim C4 counterexample. -/
def buyP : Process :=
  { name := "buy", needs := [⟨"euro", 2⟩], results := [⟨"mat", 2⟩], delay := 1,
    in_cycle := false, needs_by_id := [(0, 2)], results_by_id := [(1, 2)] }

/-- The second process of the claim C4 counterexample. -/
def makeP : Process :=
  { name := "make", needs := [⟨"mat", 1⟩], results := [⟨"euro", 2⟩, ⟨"g", 1⟩],
    delay := 1, in_cycle := false, needs_by_id := [(1, 1)],
    results_by_id := [(0, 2), (2, 1)] }

/-- The configuration of the claim C4 counterexample: absolute-cap regime with
limiting item `euro` (net 0, initial stock 10) and `abs_cap[mat] = 5`, as
`build_max_stocks` derives for this catalogue. -/
def cfgC4 : Config :=
  { initialStocks := [("euro", 10)], processes := [buyP, makeP],
    optimizeKeys := ["g"], dist := [("g", 0), ("mat", 1), ("euro", 2)],
    maxStocks := { limiting_item := "euro", limiting_initial_stock := 10,
                   abs_cap_by_id := [10, 5, 2147483647],
                   factor_by_id := [-1, -1, -1] },
    item_to_id := [("euro", 0), ("mat", 1), ("g", 2)],
    id_to_item := ["euro", "mat", "g"],
    needers_by_item := specNeeders [buyP, makeP] 3 }

/-- The entries the erase loop of the cap filter keeps: those the `drop`
predicate rejects. -/
def dhsKept (cfg : Config) (cand : Candidate) (runnable : List Int) : List Int :=
  runnable.filter (fun p => ! dropHigh cfg (dhsOver cfg cand) p)

/-- The first non-wait entry of a choice list, `-1` if none: the value the
erase loop records in `non_wait_runnable` when every non-wait entry is
flagged. -/
def firstNonWait : List Int → Int
  | [] => -1
  | p :: rest => if p < 0 then firstNonWait rest else p

/-- Over cap as claim C5 words it, without the sign guards of the code: in
the factor regime `stocks[i] > limiting * factor[i]`, in the absolute regime
`stocks[i] > abs_cap[i]`. -/
def specOverCap (cfg : Config) (cand : Candidate) (i : Nat) : Bool :=
  if cfg.maxStocks.limiting_initial_stock = -1 then
    decide ((dhsLimitingStock cfg cand : ℚ) * cfg.maxStocks.factor_by_id.getD i (-1) <
      (cand.stocks_by_id.getD i 0 : ℚ))
  else
    decide (cfg.maxStocks.abs_cap_by_id.getD i (-1) < cand.stocks_by_id.getD i 0)

/-- First process of the claim C5 counterexample: consumes `a`, produces
`b`. -/
def p1C5 : Process :=
  { name := "mkb", needs := [⟨"a", 1⟩], results := [⟨"b", 1⟩], delay := 1,
    in_cycle := false, needs_by_id := [(0, 1)], results_by_id := [(1, 1)] }

/-- Second process of the claim C5 counterexample: consumes `b`, produces the
goal `g`. -/
def p2C5 : Process :=
  { name := "mkg", needs := [⟨"b", 3⟩], results := [⟨"g", 1⟩], delay := 1,
    in_cycle := false, needs_by_id := [(1, 3)], results_by_id := [(2, 1)] }

/-- The configuration of the claim C5 counterexample: factor regime with
limiting item `g`; item `b` has net production 1 - 3 = -2 per `g`, so its cap
factor is negative, which the code treats as no cap. -/
def cfgC5 : Config :=
  { initialStocks := [("a", 5)], processes := [p1C5, p2C5],
    optimizeKeys := ["g"], dist := [("g", 0), ("b", 1), ("a", 2)],
    maxStocks := { limiting_item := "g", limiting_initial_stock := -1,
                   abs_cap_by_id := [-1, -1, 2147483647],
                   factor_by_id := [-1, -2, -1] },
    item_to_id := [("a", 0), ("b", 1), ("g", 2)],
    id_to_item := ["a", "b", "g"],
    needers_by_item := specNeeders [p1C5, p2C5] 3 }

/-- The candidate state of the claim C5 counterexample. -/
def candC5 : Candidate :=
  { cycle := 2, stocks_by_id := [5, 1, 0], running := [], trace := [] }

/-- A candidate state used by the cap-filter witness. -/
def candW : Candidate :=
  { cycle := 0, stocks_by_id := [10, 0, 0], running := [], trace := [] }

/-- Truncation toward zero of a rational, as the C++ `double`-to-`int`
conversion rounds (`score_candidate` returns `int`). -/
def truncQ (q : ℚ) : Int := if q < 0 then -((-q).floor) else q.floor

/-- The weighted sum over non-target stocks of `score_candidate`
(`interm`), with `score_decay = 0.7` and the unreachable-distance cutoff
1000000. -/
def scoreInterm (cfg : Config) (cand : Candidate) (target : String) : ℚ :=
  (List.range cand.stocks_by_id.length).foldl
    (fun acc i =>
      let s := cfg.id_to_item.getD i ""
      let qty := cand.stocks_by_id.getD i 0
      if s = target ∨ qty ≤ 0 then acc
      else
        match alookup cfg.dist s with
        | none => acc
        | some d =>
          if 1000000 ≤ d then acc
          else acc + (7 / 10 : ℚ) ^ d * (qty : ℚ))
    0

/-- `score_candidate` from `genetic_algo.cpp`, with `score_alpha = 1.0` and
`score_beta = 0.1`; the `time` objective scores `100000 / cycle` with C-style
truncated division. -/
def score_candidate (cfg : Config) (cand : Candidate) : Int :=
  if cfg.optimizeKeys = ["time"] then
    if cand.cycle = 0 then 100000 else Int.div 100000 cand.cycle
  else
    let target := (cfg.optimizeKeys.find? (fun k => k ≠ "time")).getD ""
    let targetQty : Int :=
      cand.stocks_by_id.getD ((alookup cfg.item_to_id target).getD 0) 0
    truncQ ((1 : ℚ) * (targetQty : ℚ) +
      (1 / 10 : ℚ) * scoreInterm cfg cand target)

/-- The strict-weak-order comparator `solve_with_ga` sorts with: higher score
first, ties broken by smaller cycle. -/
def candLess (cfg : Config) (a b : Candidate) : Bool :=
  let sa := score_candidate cfg a
  let sb := score_candidate cfg b
  if sa = sb then decide (a.cycle < b.cycle) else decide (sb < sa)

/-- Ordered insertion by a comparator. -/
def insertComp (comp : Candidate → Candidate → Bool) (c : Candidate) :
    List Candidate → List Candidate
  | [] => [c]
  | x :: xs => if comp c x then c :: x :: xs else x :: insertComp comp c xs

/-- The `std::sort` call of `solve_with_ga`, modelled as a comparison sort by
the same comparator. -/
def sortPop (comp : Candidate → Candidate → Bool) (l : List Candidate) :
    List Candidate :=
  l.foldr (insertComp comp) []

/-- The result of a run of the genetic driver: the returned candidate plus
counters for executed main-loop iterations, crossover children, and random
candidates generated in the main loop. -/
structure GARun where
  best : Candidate
  iters : Nat
  childGens : Nat
  randGens : Nat
deriving Repr, DecidableEq

/-- The population-initialization loop of `solve_with_ga` (100 iterations,
each first reading the elapsed-time stream `els` and breaking when it exceeds
the budget). Candidate generation (`generate_candidate`, driven by `rand`) is
abstracted as the oracle stream `gen`, consumed at index `g`; the tick `t`
indexes successive clock readings. Returns the population, the next tick and
the next oracle index. -/
def gaInitLoop (els : Nat → Int) (budget : Int) (gen : Nat → Candidate) :
    Nat → List Candidate → Nat → Nat → List Candidate × Nat × Nat
  | 0, acc, t, g => (acc, t, g)
  | fuel + 1, acc, t, g =>
    if budget < els t then (acc, t + 1, g)
    else gaInitLoop els budget gen fuel (acc ++ [gen g]) (t + 1) (g + 1)

/-- One refill loop of `solve_with_ga` (`while candidates.size() < target`):
read the clock, break over budget, else append a generated candidate. -/
def gaFillLoop (els : Nat → Int) (budget : Int) (gen : Nat → Candidate)
    (target : Nat) : Nat → List Candidate → Nat → Nat →
      List Candidate × Nat × Nat
  | 0, acc, t, g => (acc, t, g)
  | fuel + 1, acc, t, g =>
    if acc.length < target then
      if budget < els t then (acc, t + 1, g)
      else gaFillLoop els budget gen target fuel (acc ++ [gen g]) (t + 1) (g + 1)
    else (acc, t, g)

/-- The main loop of `solve_with_ga` (up to 1000 iterations): read the clock
and break over budget; sort the population; read `candidates[0]` and
`candidates[1]` as parents — modelled as `none` when fewer than two exist,
since the C++ reads are then out of range; update the best candidate; refill
the population to 50 with crossover children, then to 100 with random
candidates. -/
def gaMainLoop (cfg : Config) (els : Nat → Int) (budget : Int)
    (gen : Nat → Candidate) :
    Nat → List Candidate → Candidate → Nat → Nat → Nat → Nat → Nat →
      Option GARun
  | 0, _, best, _, _, iters, ch, rd => some ⟨best, iters, ch, rd⟩
  | fuel + 1, cands, best, t, g, iters, ch, rd =>
    if budget < els t then some ⟨best, iters, ch, rd⟩
    else
      match sortPop (candLess cfg) cands with
      | p1 :: _ :: _ =>
        let best' := if score_candidate cfg best < score_candidate cfg p1
          then p1 else best
        let r1 := gaFillLoop els budget gen 50 50 [] (t + 1) g
        let r2 := gaFillLoop els budget gen 100 100 r1.1 r1.2.1 r1.2.2
        gaMainLoop cfg els budget gen fuel r2.1 best' r2.2.1 r2.2.2
          (iters + 1) (ch + r1.1.length) (rd + (r2.1.length - r1.1.length))
      | _ => none

/-- `solve_with_ga` from `genetic_algo.cpp`: the best candidate starts from
the initial stocks at cycle 0; the population is initialized, then the main
loop runs. Clock readings are the monotone stream `els` of elapsed times and
generated candidates come from the oracle stream `gen`. -/
def solve_with_ga (cfg : Config) (els : Nat → Int) (gen : Nat → Candidate)
    (budget : Int) : Option GARun :=
  let best0 : Candidate := ⟨0, mkInitialStocks cfg, [], []⟩
  let ri := gaInitLoop els budget gen 100 [] 0 0
  gaMainLoop cfg els budget gen 1000 ri.1 best0 ri.2.1 ri.2.2 0 0 0

instance : Inhabited Item := ⟨⟨"", 0⟩⟩

/-- The whitespace class of `\s` in the verifier's trace-line regex. -/
def isWS (c : Char) : Bool :=
  c = ' ' ∨ c = '\t' ∨ c = '\n' ∨ c = '\r' ∨ c = '\x0b' ∨ c = '\x0c'

/-- The name class `[^:#\s]` of the verifier's trace-line regex. -/
def isNameChar (c : Char) : Bool :=
  ¬ (c = ':' ∨ c = '#' ∨ isWS c = true)

/-- Numeric value of a digit string, as `std::stoi` reads the first capture
group (overflow, which would throw, is not modelled). -/
def digitsToNat (ds : List Char) : Nat :=
  ds.foldl (fun n c => 10 * n + (c.toNat - 48)) 0

/-- The verifier's trace-line regex `^\s*(\d+)\s*:\s*([^:#\s]+)\s*$` as a
deterministic matcher: the character classes are disjoint at every boundary,
so the greedy match never needs backtracking. Returns the cycle and the
process name on a match. -/
def matchTraceLine (l : List Char) : Option (Nat × String) :=
  let s1 := l.dropWhile isWS
  let ds := s1.takeWhile Char.isDigit
  let s2 := s1.dropWhile Char.isDigit
  if ds = [] then none
  else
    match s2.dropWhile isWS with
    | ':' :: s4 =>
      let s5 := s4.dropWhile isWS
      let nm := s5.takeWhile isNameChar
      let s6 := s5.dropWhile isNameChar
      if nm = [] then none
      else if s6.dropWhile isWS = [] then some (digitsToNat ds, String.mk nm)
      else none
    | _ => none

/-- The skip test of the verifier's read loop: empty line or leading `#`. -/
def isSkipLine (l : List Char) : Bool :=
  l = [] ∨ l.headD ' ' = '#'

/-- Stock lookup in the verifier's `unordered_map` (default 0, as
`operator[]` value-initializes). -/
def sget (st : List (String × Int)) (k : String) : Int :=
  (alookup st k).getD 0

/-- Stock write in the verifier's `unordered_map`. -/
def sset : List (String × Int) → String → Int → List (String × Int)
  | [], k, v => [(k, v)]
  | kv :: rest, k, v =>
    if kv.1 = k then (k, v) :: rest else kv :: sset rest k v

/-- The verifier's loop state: current cycle, whether a launch line has been
seen, the in-flight queue and the stocks. -/
structure VerifState where
  cycle : Int
  sim_started : Bool
  running : List RunningProcess
  stocks : List (String × Int)
deriving Repr, DecidableEq

/-- The verifier's initial state. -/
def initVState (cfg : Config) : VerifState :=
  ⟨0, false, [], cfg.initialStocks⟩

/-- `resolve_finished_processes` from `krpsim_verif.cpp`: pop every running
process with finish time at most `cycle`, adding its results to the stocks. -/
def resolve_finished_processes (cfg : Config) (cycle : Int) :
    List RunningProcess → List (String × Int) →
      List RunningProcess × List (String × Int)
  | [], st => ([], st)
  | rp :: rest, st =>
    if rp.finish ≤ cycle then
      resolve_finished_processes cfg cycle rest
        ((cfg.processes.getD rp.id default).results.foldl
          (fun acc r => sset acc r.name (sget acc r.name + r.qty)) st)
    else (rp :: rest, st)

/-- The `proc_name_to_id` map of the verifier, built by overwriting inserts:
the id of the last process bearing the name. -/
def findProcId (cfg : Config) (nm : String) : Option Nat :=
  (List.range cfg.processes.length).foldl
    (fun acc i => if (cfg.processes.getD i default).name = nm then some i
      else acc) none

/-- The need-subtraction loop of a verifier launch: subtract each need in
order, failing as soon as a stock goes negative. -/
def needsLoop (st : List (String × Int)) : List Item → Option (List (String × Int))
  | [] => some st
  | n :: rest =>
    let v := sget st n.name - n.qty
    if v < 0 then none else needsLoop (sset st n.name v) rest

/-- The stocks after blindly applying the first `k` need subtractions. -/
def needsPartial (st : List (String × Int)) (needs : List Item) (k : Nat) :
    List (String × Int) :=
  (needs.take k).foldl (fun acc n => sset acc n.name (sget acc n.name - n.qty)) st

/-- One launch line of the verifier: set the cycle, resolve due completions,
look the process up (failing when absent), enqueue its completion, then
subtract its needs (failing on a negative stock). -/
def processLaunch (cfg : Config) (st : VerifState) (c : Nat) (nm : String) :
    Option VerifState :=
  let cycle : Int := (c : Int)
  let r := resolve_finished_processes cfg cycle st.running st.stocks
  match findProcId cfg nm with
  | none => none
  | some pid =>
    let proc := cfg.processes.getD pid default
    match needsLoop r.2 proc.needs with
    | none => none
    | some st2 => some ⟨cycle, true, pqPush r.1 ⟨cycle + proc.delay, pid⟩, st2⟩

/-- The verifier's line loop: skip blank and comment lines; process matching
lines (failure is `none`); on a non-matching line, stop silently if a launch
was already seen, else skip it. -/
def verifLines (cfg : Config) : List (List Char) → VerifState → Option VerifState
  | [], st => some st
  | l :: ls, st =>
    if isSkipLine l then verifLines cfg ls st
    else
      match matchTraceLine l with
      | some cn =>
        match processLaunch cfg st cn.1 cn.2 with
        | none => none
        | some st2 => verifLines cfg ls st2
      | none => if st.sim_started then some st else verifLines cfg ls st

/-- The verifier's drain loop after the file ends: repeatedly advance the
cycle to the earliest remaining finish time and resolve. Fuel, taken as the
queue length, bounds the iterations (each pops at least one entry). -/
def verifFinish (cfg : Config) :
    Nat → Int → List RunningProcess → List (String × Int) →
      Int × List (String × Int)
  | 0, cycle, _, st => (cycle, st)
  | fuel + 1, cycle, running, st =>
    match running with
    | [] => (cycle, st)
    | rp :: _ =>
      let c2 := if cycle < rp.finish then rp.finish else cycle
      let r := resolve_finished_processes cfg c2 running st
      verifFinish cfg fuel c2 r.1 r.2

/-- The verifier `main` after both files are read: run the line loop, then on
success drain the queue and report the final cycle and stocks; `none` is a
non-zero exit. -/
def krpsim_verif (cfg : Config) (lines : List (List Char)) :
    Option (Int × List (String × Int)) :=
  match verifLines cfg lines (initVState cfg) with
  | none => none
  | some st => some (verifFinish cfg st.running.length st.cycle st.running st.stocks)

/-- One replayed launch, `none`-absorbing. -/
def vstep (cfg : Config) (os : Option VerifState) (l : Nat × String) :
    Option VerifState :=
  os.bind (fun s => processLaunch cfg s l.1 l.2)

/-- Replay of a launch list from a state. -/
def vreplay (cfg : Config) (st : VerifState) (L : List (Nat × String)) :
    Option VerifState :=
  L.foldl (vstep cfg) (some st)

/-- The processes and configuration of the claim C10 counterexample are those
of `exConfig`; the trace first launches `p` (well-formed and satisfiable),
hits a garbage line, and then carries a line the verifier never reads. -/
def exGoodLine : List Char := "0:p".toList

/-- A line matching no case of the verifier loop: not blank, no `#`, and not
of the trace-line shape. -/
def exGarbageLine : List Char := "garbage!".toList

/-- A well-formed launch line naming a process absent from `exConfig`. -/
def exUnknownLine : List Char := "1:unknown".toList

/-- All need names occurring in a process list. -/
def needNames : List Process → List String
  | [] => []
  | p :: rest => p.needs.map Item.name ++ needNames rest

/-- Fuel for the distance analysis: one more than the number of distinct need
names. A nested `build_dist_map` recursion only happens after a fresh
insertion into the map, and every inserted key is a need name, so the C++
recursion never nests deeper than this bound and the fuel truncation never
fires. -/
def distFuel (procs : List Process) : Nat :=
  (needNames procs).dedup.length + 1

/-- The number of distinct need names still absent from the map. -/
def newCount (procs : List Process) (d : List (String × Nat)) : Nat :=
  ((needNames procs).dedup.filter (fun n => alookup d n = none)).length

/-- One step of the need loop of `build_dist_map`: insert the need at
`depth + 1` when absent (clearing the deadend flag), then recurse — through
the abstracted recursive call `B` — whenever the flag is clear. -/
def bdmNeedStep (B : String → List (String × Nat) → List (String × Nat))
    (depth : Nat) (st : List (String × Nat) × Bool) (nd : Item) :
    List (String × Nat) × Bool :=
  if alookup st.1 nd.name = none then
    (B nd.name (st.1 ++ [(nd.name, depth + 1)]), false)
  else if st.2 = false then (B nd.name st.1, false)
  else (st.1, st.2)

/-- The result loop of `build_dist_map` for one process: each result item
equal to the goal runs the need loop with a fresh deadend flag. -/
def bdmProc (B : String → List (String × Nat) → List (String × Nat))
    (goal : String) (depth : Nat) (p : Process)
    (dist : List (String × Nat)) : List (String × Nat) :=
  p.results.foldl
    (fun d item => if item.name = goal
      then (p.needs.foldl (bdmNeedStep B depth) (d, true)).1 else d) dist

/-- `build_dist_map` from `parsing.cpp`, fuel-bounded (see `distFuel`):
for every process producing the goal, walk its needs, inserting absent ones
at `depth + 1` and recursing once the process is known not to be a dead
end. -/
def build_dist_map (procs : List Process) :
    Nat → String → Nat → List (String × Nat) → List (String × Nat)
  | 0, _, _, dist => dist
  | fuel + 1, goal, depth, dist =>
    procs.foldl
      (fun d p => bdmProc
        (fun g d2 => build_dist_map procs fuel g (depth + 1) d2)
        goal depth p d) dist

/-- The distance analysis of `parse_config`: seed the first non-`time`
optimization key at distance 0 and run `build_dist_map` from it. -/
def build_dist_for_config (cfg : Config) : List (String × Nat) :=
  match cfg.optimizeKeys.find? (fun k => k ≠ "time") with
  | none => []
  | some goal =>
    build_dist_map cfg.processes (distFuel cfg.processes) goal 0 [(goal, 0)]

/-- An entry of the distance map is sound: it is the seeded goal, or a need
(with value at least 1) of some process producing an already-mapped item. -/
def distEntryOk (procs : List Process) (goal0 : String)
    (d : List (String × Nat)) (kv : String × Nat) : Prop :=
  kv.1 = goal0 ∨ (1 ≤ kv.2 ∧ ∃ p ∈ procs,
    (∃ r ∈ p.results, alookup d r.name ≠ none) ∧ ∃ nd ∈ p.needs, nd.name = kv.1)

/-- Every entry of the distance map is sound. -/
def distJustified (procs : List Process) (goal0 : String)
    (d : List (String × Nat)) : Prop :=
  ∀ kv ∈ d, distEntryOk procs goal0 d kv

/-- Every producer of `n` has all its needs in the map. -/
def processedIn (procs : List Process) (d : List (String × Nat)) (n : String) :
    Prop :=
  ∀ p ∈ procs, (∃ r ∈ p.results, r.name = n) →
    ∀ nd ∈ p.needs, alookup d nd.name ≠ none

/-- First process of the claim C8 counterexample: `G` from `x`. -/
def pC8a : Process :=
  { name := "mkg", needs := [⟨"x", 1⟩], results := [⟨"G", 1⟩], delay := 1,
    in_cycle := false, needs_by_id := [], results_by_id := [] }

/-- Second process of the claim C8 counterexample: `x` from `y`. -/
def pC8b : Process :=
  { name := "mkx", needs := [⟨"y", 1⟩], results := [⟨"x", 1⟩], delay := 1,
    in_cycle := false, needs_by_id := [], results_by_id := [] }

/-- Third process of the claim C8 counterexample: `G` directly from `y`. -/
def pC8c : Process :=
  { name := "mkg2", needs := [⟨"y", 1⟩], results := [⟨"G", 1⟩], delay := 1,
    in_cycle := false, needs_by_id := [], results_by_id := [] }

/-- The configuration of the claim C8 counterexample (the distance analysis
runs on names only, before item ids exist, so the id fields are empty). -/
def cfgC8 : Config :=
  { initialStocks := [], processes := [pC8a, pC8b, pC8c], optimizeKeys := ["G"],
    dist := [], maxStocks := ⟨"", 0, [], []⟩, item_to_id := [], id_to_item := [],
    needers_by_item := [] }

theorem getD_set_self {α : Type} (l : List α) (i : Nat) (a d : α)
    (h : i < l.length) : (l.set i a).getD i d = a := by
  simp [List.getD_eq_getElem?_getD, List.getElem?_set, h]

theorem getD_set_ne {α : Type} (l : List α) (i j : Nat) (a d : α)
    (h : i ≠ j) : (l.set i a).getD j d = l.getD j d := by
  simp [List.getD_eq_getElem?_getD, List.getElem?_set, h]

theorem qtySum_nil (i : Nat) : qtySum [] i = 0 := rfl

theorem qtySum_cons (j : Nat) (q : Int) (L : List (Nat × Int)) (i : Nat) :
    qtySum ((j, q) :: L) i = (if j = i then q else 0) + qtySum L i := by
  by_cases h : j = i <;> simp [qtySum, List.filter_cons, h]

theorem add_runnable_child (pid : Nat) (s : GenState) :
    (add_runnable pid s).child = s.child := by
  unfold add_runnable
  split <;> rfl

theorem remove_runnable_child (pid : Nat) (s : GenState) :
    (remove_runnable pid s).child = s.child := by
  unfold remove_runnable
  split <;> rfl

theorem incNeederStep_child (vo vn : Int) (s : GenState) (pq : Nat × Int) :
    (incNeederStep vo vn s pq).child = s.child := by
  unfold incNeederStep
  split
  · dsimp only
    split
    · rw [add_runnable_child]
    · rfl
  · rfl

theorem decNeederStep_child (vo vn : Int) (s : GenState) (pq : Nat × Int) :
    (decNeederStep vo vn s pq).child = s.child := by
  unfold decNeederStep
  split
  · dsimp only
    split
    · rw [remove_runnable_child]
    · rfl
  · rfl

theorem foldl_child {α : Type} (f : GenState → α → GenState)
    (h : ∀ s a, (f s a).child = s.child) :
    ∀ (l : List α) (s : GenState), (l.foldl f s).child = s.child
  | [], _ => rfl
  | a :: l, s => by rw [List.foldl_cons, foldl_child f h l, h]

theorem on_stock_increase_child (cfg : Config) (item_id : Nat) (vo vn : Int)
    (s : GenState) : (on_stock_increase cfg item_id vo vn s).child = s.child := by
  unfold on_stock_increase
  split
  · rfl
  · exact foldl_child _ (incNeederStep_child vo vn) _ s

theorem on_stock_decrease_child (cfg : Config) (item_id : Nat) (vo vn : Int)
    (s : GenState) : (on_stock_decrease cfg item_id vo vn s).child = s.child := by
  unfold on_stock_decrease
  split
  · rfl
  · exact foldl_child _ (decNeederStep_child vo vn) _ s

theorem needStep_child (cfg : Config) (s : GenState) (iq : Nat × Int) :
    (needStep cfg s iq).child =
      { s.child with stocks_by_id :=
          s.child.stocks_by_id.set iq.1 (s.child.stocks_by_id.getD iq.1 0 - iq.2) } := by
  unfold needStep
  rw [on_stock_decrease_child]

theorem needStep_cycle (cfg : Config) (s : GenState) (iq : Nat × Int) :
    (needStep cfg s iq).child.cycle = s.child.cycle := by rw [needStep_child]

theorem needStep_running (cfg : Config) (s : GenState) (iq : Nat × Int) :
    (needStep cfg s iq).child.running = s.child.running := by rw [needStep_child]

theorem needStep_trace (cfg : Config) (s : GenState) (iq : Nat × Int) :
    (needStep cfg s iq).child.trace = s.child.trace := by rw [needStep_child]

theorem needStep_stocks (cfg : Config) (s : GenState) (iq : Nat × Int) :
    (needStep cfg s iq).child.stocks_by_id =
      s.child.stocks_by_id.set iq.1 (s.child.stocks_by_id.getD iq.1 0 - iq.2) := by
  rw [needStep_child]

theorem resultStep_child (cfg : Config) (s : GenState) (iq : Nat × Int) :
    (resultStep cfg s iq).child =
      { s.child with stocks_by_id :=
          s.child.stocks_by_id.set iq.1 (s.child.stocks_by_id.getD iq.1 0 + iq.2) } := by
  unfold resultStep
  rw [on_stock_increase_child]

theorem resultStep_cycle (cfg : Config) (s : GenState) (iq : Nat × Int) :
    (resultStep cfg s iq).child.cycle = s.child.cycle := by rw [resultStep_child]

theorem resultStep_running (cfg : Config) (s : GenState) (iq : Nat × Int) :
    (resultStep cfg s iq).child.running = s.child.running := by rw [resultStep_child]

theorem resultStep_trace (cfg : Config) (s : GenState) (iq : Nat × Int) :
    (resultStep cfg s iq).child.trace = s.child.trace := by rw [resultStep_child]

theorem resultStep_stocks (cfg : Config) (s : GenState) (iq : Nat × Int) :
    (resultStep cfg s iq).child.stocks_by_id =
      s.child.stocks_by_id.set iq.1 (s.child.stocks_by_id.getD iq.1 0 + iq.2) := by
  rw [resultStep_child]

theorem needsFold_spec (cfg : Config) :
    ∀ (L : List (Nat × Int)) (s : GenState),
      (∀ iq ∈ L, iq.1 < s.child.stocks_by_id.length) →
      (L.foldl (needStep cfg) s).child.cycle = s.child.cycle ∧
      (L.foldl (needStep cfg) s).child.running = s.child.running ∧
      (L.foldl (needStep cfg) s).child.trace = s.child.trace ∧
      (L.foldl (needStep cfg) s).child.stocks_by_id.length = s.child.stocks_by_id.length ∧
      ∀ i, (L.foldl (needStep cfg) s).child.stocks_by_id.getD i 0 =
        s.child.stocks_by_id.getD i 0 - qtySum L i
  | [], s, _ => by
    refine ⟨rfl, rfl, rfl, rfl, fun i => ?_⟩
    rw [List.foldl_nil, qtySum_nil, sub_zero]
  | (j, q) :: L, s, h => by
    have hj : j < s.child.stocks_by_id.length := h (j, q) (by simp)
    have hlen : (needStep cfg s (j, q)).child.stocks_by_id.length =
        s.child.stocks_by_id.length := by rw [needStep_stocks]; simp
    have ih := needsFold_spec cfg L (needStep cfg s (j, q))
      (fun iq hiq => by rw [hlen]; exact h iq (List.mem_cons_of_mem _ hiq))
    rw [List.foldl_cons]
    refine ⟨?_, ?_, ?_, ?_, fun i => ?_⟩
    · rw [ih.1, needStep_cycle]
    · rw [ih.2.1, needStep_running]
    · rw [ih.2.2.1, needStep_trace]
    · rw [ih.2.2.2.1, hlen]
    · rw [ih.2.2.2.2 i, qtySum_cons, needStep_stocks]
      by_cases hij : j = i
      · subst hij
        rw [getD_set_self _ _ _ _ hj, if_pos rfl]
        ring
      · rw [getD_set_ne _ _ _ _ _ hij, if_neg hij]
        ring

theorem resultsFold_spec (cfg : Config) :
    ∀ (L : List (Nat × Int)) (s : GenState),
      (∀ iq ∈ L, iq.1 < s.child.stocks_by_id.length) →
      (L.foldl (resultStep cfg) s).child.cycle = s.child.cycle ∧
      (L.foldl (resultStep cfg) s).child.running = s.child.running ∧
      (L.foldl (resultStep cfg) s).child.trace = s.child.trace ∧
      (L.foldl (resultStep cfg) s).child.stocks_by_id.length = s.child.stocks_by_id.length ∧
      ∀ i, (L.foldl (resultStep cfg) s).child.stocks_by_id.getD i 0 =
        s.child.stocks_by_id.getD i 0 + qtySum L i
  | [], s, _ => by
    refine ⟨rfl, rfl, rfl, rfl, fun i => ?_⟩
    rw [List.foldl_nil, qtySum_nil, add_zero]
  | (j, q) :: L, s, h => by
    have hj : j < s.child.stocks_by_id.length := h (j, q) (by simp)
    have hlen : (resultStep cfg s (j, q)).child.stocks_by_id.length =
        s.child.stocks_by_id.length := by rw [resultStep_stocks]; simp
    have ih := resultsFold_spec cfg L (resultStep cfg s (j, q))
      (fun iq hiq => by rw [hlen]; exact h iq (List.mem_cons_of_mem _ hiq))
    rw [List.foldl_cons]
    refine ⟨?_, ?_, ?_, ?_, fun i => ?_⟩
    · rw [ih.1, resultStep_cycle]
    · rw [ih.2.1, resultStep_running]
    · rw [ih.2.2.1, resultStep_trace]
    · rw [ih.2.2.2.1, hlen]
    · rw [ih.2.2.2.2 i, qtySum_cons, resultStep_stocks]
      by_cases hij : j = i
      · subst hij
        rw [getD_set_self _ _ _ _ hj, if_pos rfl]
        ring
      · rw [getD_set_ne _ _ _ _ _ hij, if_neg hij]
        ring

theorem pqPush_perm (l : List RunningProcess) (rp : RunningProcess) :
    (pqPush l rp).Perm (rp :: l) := by
  induction l with
  | nil => exact List.Perm.refl _
  | cons x xs ih =>
    unfold pqPush
    split
    · exact List.Perm.refl _
    · exact (ih.cons x).trans (List.Perm.swap rp x xs)

theorem addResultsOf_spec (cfg : Config) (pid : Nat) (s : GenState)
    (h : ∀ iq ∈ (cfg.processes.getD pid default).results_by_id,
        iq.1 < s.child.stocks_by_id.length) :
    (addResultsOf cfg pid s).child.cycle = s.child.cycle ∧
    (addResultsOf cfg pid s).child.running = s.child.running ∧
    (addResultsOf cfg pid s).child.trace = s.child.trace ∧
    (addResultsOf cfg pid s).child.stocks_by_id.length = s.child.stocks_by_id.length ∧
    ∀ i, (addResultsOf cfg pid s).child.stocks_by_id.getD i 0 =
      s.child.stocks_by_id.getD i 0 +
        qtySum (cfg.processes.getD pid default).results_by_id i :=
  resultsFold_spec cfg (cfg.processes.getD pid default).results_by_id s h

theorem waitLoop_spec (cfg : Config) (cyc : Int) :
    ∀ (L : List RunningProcess) (s : GenState),
      L.Pairwise (fun a b => a.finish ≤ b.finish) →
      (∀ rp ∈ L, ∀ iq ∈ (cfg.processes.getD rp.id default).results_by_id,
          iq.1 < s.child.stocks_by_id.length) →
      s.child.running = [] →
      (waitLoop cfg cyc L s).child.cycle = s.child.cycle ∧
      (waitLoop cfg cyc L s).child.trace = s.child.trace ∧
      (waitLoop cfg cyc L s).child.running = L.filter (fun rp => cyc < rp.finish) ∧
      (waitLoop cfg cyc L s).child.stocks_by_id.length = s.child.stocks_by_id.length ∧
      ∀ i, (waitLoop cfg cyc L s).child.stocks_by_id.getD i 0 =
        s.child.stocks_by_id.getD i 0 +
          qtySumPop cfg (L.filter (fun rp => rp.finish ≤ cyc)) i
  | [], s, _, _, hrun => by
    refine ⟨rfl, rfl, ?_, rfl, fun i => ?_⟩
    · rw [waitLoop, hrun, List.filter_nil]
    · rw [waitLoop]
      simp [qtySumPop]
  | rp :: rest, s, hsorted, hrange, hrun => by
    rw [waitLoop]
    by_cases hle : rp.finish ≤ cyc
    · rw [if_pos hle]
      have hres := addResultsOf_spec cfg rp.id s (hrange rp (by simp))
      have hlen := hres.2.2.2.1
      have ih := waitLoop_spec cfg cyc rest (addResultsOf cfg rp.id s)
        (List.pairwise_cons.mp hsorted).2
        (fun q hq iq hiq => by
          rw [hlen]; exact hrange q (List.mem_cons_of_mem _ hq) iq hiq)
        (by rw [hres.2.1, hrun])
      refine ⟨?_, ?_, ?_, ?_, fun i => ?_⟩
      · rw [ih.1, hres.1]
      · rw [ih.2.1, hres.2.2.1]
      · rw [ih.2.2.1, List.filter_cons, if_neg (by simpa using hle)]
      · rw [ih.2.2.2.1, hlen]
      · rw [ih.2.2.2.2 i, hres.2.2.2.2 i, List.filter_cons, if_pos (by simpa using hle)]
        simp only [qtySumPop, List.map_cons, List.sum_cons]
        ring
    · rw [if_neg hle]
      have hall : ∀ q ∈ rp :: rest, cyc < q.finish := by
        intro q hq
        rcases List.mem_cons.mp hq with h | h
        · subst h; omega
        · exact lt_of_lt_of_le (by omega) ((List.pairwise_cons.mp hsorted).1 q h)
      refine ⟨rfl, rfl, ?_, rfl, fun i => ?_⟩
      · rw [List.filter_eq_self.mpr (fun q hq => by simpa using hall q hq)]
      · have : (rp :: rest).filter (fun q => q.finish ≤ cyc) = [] := by
          rw [List.filter_eq_nil_iff]
          intro q hq
          have := hall q hq
          simp only [decide_eq_true_eq]
          omega
        rw [this]
        simp [qtySumPop]

/-- Claim C9: with an empty completion queue, the wait choice is a total no-op
on the generator state. -/
theorem wait_on_empty_running_is_noop (cfg : Config) (s : GenState)
    (h : s.child.running = []) : apply_process cfg (-1) s = s := by
  unfold apply_process
  rw [if_pos rfl]
  split
  · rfl
  · next rp rest heq => rw [h] at heq; cases heq

/-- Witness for claim C9 at a concrete state. -/
theorem wait_on_empty_running_is_noop_witness :
    ({ child := { cycle := 0, stocks_by_id := [3], running := [], trace := [] },
       missing := [0], runnable := [0, -1],
       is_runnable := [true] } : GenState).child.running = [] ∧
    apply_process
      { initialStocks := [("a", 3)], processes := [], optimizeKeys := ["time"],
        dist := [], maxStocks := ⟨"", 0, [], []⟩, item_to_id := [("a", 0)],
        id_to_item := ["a"], needers_by_item := [[]] } (-1)
      { child := { cycle := 0, stocks_by_id := [3], running := [], trace := [] },
        missing := [0], runnable := [0, -1], is_runnable := [true] } =
      { child := { cycle := 0, stocks_by_id := [3], running := [], trace := [] },
        missing := [0], runnable := [0, -1], is_runnable := [true] } :=
  ⟨rfl, wait_on_empty_running_is_noop _ _ rfl⟩

/-- Claim C2: launching a process whose needs are satisfied pushes its
completion at `cycle + delay`, lowers each need stock by its quantity, appends
the launch to the trace, and leaves the cycle unchanged. -/
theorem launch_effect (cfg : Config) (s : GenState) (pid : Nat)
    (hpid : pid < cfg.processes.length)
    (hrange : ∀ iq ∈ (cfg.processes.getD pid default).needs_by_id,
        iq.1 < s.child.stocks_by_id.length)
    (hsat : ∀ iq ∈ (cfg.processes.getD pid default).needs_by_id,
        iq.2 ≤ s.child.stocks_by_id.getD iq.1 0) :
    (apply_process cfg (pid : Int) s).child.cycle = s.child.cycle ∧
    (apply_process cfg (pid : Int) s).child.trace =
      s.child.trace ++ [⟨s.child.cycle, (pid : Int)⟩] ∧
    ((apply_process cfg (pid : Int) s).child.running).Perm
      (⟨s.child.cycle + (cfg.processes.getD pid default).delay, pid⟩ :: s.child.running) ∧
    ∀ i, (apply_process cfg (pid : Int) s).child.stocks_by_id.getD i 0 =
      s.child.stocks_by_id.getD i 0 -
        qtySum (cfg.processes.getD pid default).needs_by_id i := by
  have hne : ¬ ((pid : Int) = -1) := by omega
  unfold apply_process
  rw [if_neg hne]
  simp only [Int.toNat_natCast]
  set proc := cfg.processes.getD pid default with hproc
  set s1 : GenState := { s with child :=
    { s.child with running := pqPush s.child.running ⟨s.child.cycle + proc.delay, pid⟩ } }
    with hs1
  have hfold := needsFold_spec cfg proc.needs_by_id s1 (by
    intro iq hiq
    have : s1.child.stocks_by_id = s.child.stocks_by_id := rfl
    rw [this]
    exact hrange iq hiq)
  refine ⟨?_, ?_, ?_, fun i => ?_⟩
  · rw [hfold.1]
  · rw [hfold.1, hfold.2.2.1]
  · rw [hfold.2.1]
    exact pqPush_perm s.child.running _
  · exact hfold.2.2.2.2 i

/-- Claim C3: the wait choice on a nonempty queue advances the cycle to the
smallest finish time, pops exactly the completions due by then, adds their
results to the stocks, and leaves the trace unchanged. -/
theorem wait_effect (cfg : Config) (s : GenState) (rp : RunningProcess)
    (rest : List RunningProcess)
    (hrun : s.child.running = rp :: rest)
    (hsorted : s.child.running.Pairwise (fun a b => a.finish ≤ b.finish))
    (hrange : ∀ q ∈ s.child.running,
        ∀ iq ∈ (cfg.processes.getD q.id default).results_by_id,
          iq.1 < s.child.stocks_by_id.length) :
    (apply_process cfg (-1) s).child.cycle = rp.finish ∧
    (∀ q ∈ s.child.running, rp.finish ≤ q.finish) ∧
    (apply_process cfg (-1) s).child.trace = s.child.trace ∧
    (apply_process cfg (-1) s).child.running =
      s.child.running.filter (fun q => rp.finish < q.finish) ∧
    ∀ i, (apply_process cfg (-1) s).child.stocks_by_id.getD i 0 =
      s.child.stocks_by_id.getD i 0 +
        qtySumPop cfg (s.child.running.filter (fun q => q.finish ≤ rp.finish)) i := by
  have happ : apply_process cfg (-1) s =
      waitLoop cfg rp.finish (rp :: rest)
        { s with child := { s.child with cycle := rp.finish, running := [] } } := by
    unfold apply_process
    rw [if_pos rfl]
    split
    · next heq => rw [hrun] at heq; cases heq
    · next a l heq =>
      rw [hrun] at heq
      cases heq
      rfl
  have hspec := waitLoop_spec cfg rp.finish (rp :: rest)
    { s with child := { s.child with cycle := rp.finish, running := [] } }
    (hrun ▸ hsorted)
    (fun q hq iq hiq => hrange q (hrun ▸ hq) iq hiq)
    rfl
  rw [hrun]
  refine ⟨?_, ?_, ?_, ?_, fun i => ?_⟩
  · rw [happ, hspec.1]
  · intro q hq
    rcases List.mem_cons.mp hq with h | h
    · subst h; exact le_refl _
    · exact (List.pairwise_cons.mp (hrun ▸ hsorted)).1 q h
  · rw [happ, hspec.2.1]
  · rw [happ, hspec.2.2.1]
  · rw [happ, hspec.2.2.2.2 i]

theorem getD_true_lt (l : List Bool) (i : Nat) (h : l.getD i false = true) :
    i < l.length := by
  by_contra hc
  push_neg at hc
  simp [List.getD_eq_getElem?_getD, List.getElem?_eq_none hc] at h

/-- `add_runnable` leaves the candidate and the missing counters untouched and
preserves the flag and list invariants. -/
theorem add_runnable_inv (cfg : Config) (pid : Nat) (s : GenState)
    (hpid : pid < cfg.processes.length)
    (hflen : s.is_runnable.length = cfg.processes.length)
    (h0 : FlagImpliesZero s) (h1 : RunnableFlagged cfg s)
    (h2 : FlaggedRunnable s) :
    (add_runnable pid s).child = s.child ∧
    (add_runnable pid s).missing = s.missing ∧
    (add_runnable pid s).is_runnable.length = s.is_runnable.length ∧
    FlagImpliesZero (add_runnable pid s) ∧
    RunnableFlagged cfg (add_runnable pid s) ∧
    FlaggedRunnable (add_runnable pid s) := by
  unfold add_runnable
  split
  · next hcond =>
    refine ⟨rfl, rfl, by simp, ?_, ?_, ?_⟩
    · intro pid' hflag
      by_cases hpp : pid = pid'
      · subst hpp
        exact hcond.2
      · rw [getD_set_ne _ _ _ _ _ hpp] at hflag
        exact h0 pid' hflag
    · intro p hp
      rcases List.mem_append.mp hp with hpl | hpr
      · rcases h1 p hpl with h | ⟨hge, hlt, hflag⟩
        · exact Or.inl h
        · refine Or.inr ⟨hge, hlt, ?_⟩
          by_cases hpp : pid = p.toNat
          · rw [← hpp]
            rw [getD_set_self _ _ _ _ (hflen ▸ hpid)]
          · rw [getD_set_ne _ _ _ _ _ hpp]
            exact hflag
      · have hp1 : p = (pid : Int) := by simpa using hpr
        subst hp1
        refine Or.inr ⟨by omega, by simpa using hpid, ?_⟩
        rw [Int.toNat_natCast]
        rw [getD_set_self _ _ _ _ (hflen ▸ hpid)]
    · intro pid' hflag
      by_cases hpp : pid = pid'
      · subst hpp
        exact List.mem_append.mpr (Or.inr (by simp))
      · rw [getD_set_ne _ _ _ _ _ hpp] at hflag
        exact List.mem_append.mpr (Or.inl (h2 pid' hflag))
  · exact ⟨rfl, rfl, rfl, h0, h1, h2⟩

/-- `remove_runnable` leaves the candidate and the missing counters untouched
and preserves the flag and list invariants. -/
theorem remove_runnable_inv (cfg : Config) (pid : Nat) (s : GenState)
    (h0 : ∀ pid', pid' ≠ pid → s.is_runnable.getD pid' false = true →
      s.missing.getD pid' 0 = 0)
    (h1 : RunnableFlagged cfg s) (h2 : FlaggedRunnable s) :
    (remove_runnable pid s).child = s.child ∧
    (remove_runnable pid s).missing = s.missing ∧
    (remove_runnable pid s).is_runnable.length = s.is_runnable.length ∧
    FlagImpliesZero (remove_runnable pid s) ∧
    RunnableFlagged cfg (remove_runnable pid s) ∧
    FlaggedRunnable (remove_runnable pid s) := by
  unfold remove_runnable
  split
  · have hmono : ∀ pid', (s.is_runnable.set pid false).getD pid' false = true →
        s.is_runnable.getD pid' false = true ∧ pid' ≠ pid := by
      intro pid' hflag
      by_cases hpp : pid = pid'
      · subst hpp
        have hlt := getD_true_lt _ _ hflag
        rw [List.length_set] at hlt
        rw [getD_set_self _ _ _ _ hlt] at hflag
        cases hflag
      · rw [getD_set_ne _ _ _ _ _ hpp] at hflag
        exact ⟨hflag, fun hc => hpp hc.symm⟩
    refine ⟨rfl, rfl, by simp, ?_, ?_, ?_⟩
    · intro pid' hflag
      exact h0 pid' (hmono pid' hflag).2 (hmono pid' hflag).1
    · intro p hp
      have hp' := List.mem_filter.mp hp
      have hne : p ≠ (pid : Int) := by simpa using hp'.2
      rcases h1 p hp'.1 with h | ⟨hge, hlt, hflag⟩
      · exact Or.inl h
      · refine Or.inr ⟨hge, hlt, ?_⟩
        have : p.toNat ≠ pid := by
          intro hc
          exact hne (by omega)
        rw [getD_set_ne _ _ _ _ _ (fun hc => this hc.symm)]
        exact hflag
    · intro pid' hflag
      have h' := hmono pid' hflag
      refine List.mem_filter.mpr ⟨h2 pid' h'.1, ?_⟩
      have : (pid' : Int) ≠ (pid : Int) := by
        have := h'.2
        omega
      simpa using this
  · next hflag =>
    refine ⟨rfl, rfl, rfl, ?_, h1, h2⟩
    intro pid' hf
    by_cases hpp : pid' = pid
    · subst hpp
      rw [eq_false hflag] at hf
      cases hf
    · exact h0 pid' hpp hf

theorem incFold_inv (cfg : Config) (vo vn : Int) (target : Nat → Int)
    (htgt : ∀ pid, 0 ≤ target pid) :
    ∀ (L : List (Nat × Int)) (s : GenState),
      L.Pairwise (fun a b => a.1 ≠ b.1) →
      (∀ pq ∈ L, pq.1 < cfg.processes.length) →
      s.missing.length = cfg.processes.length →
      s.is_runnable.length = cfg.processes.length →
      (∀ pid, pid < cfg.processes.length →
        s.missing.getD pid 0 = target pid + (if crossedUp L vo vn pid then 1 else 0)) →
      FlagImpliesZero s →
      RunnableFlagged cfg s →
      FlaggedRunnable s →
      (L.foldl (incNeederStep vo vn) s).child = s.child ∧
      (L.foldl (incNeederStep vo vn) s).missing.length = cfg.processes.length ∧
      (L.foldl (incNeederStep vo vn) s).is_runnable.length = cfg.processes.length ∧
      (∀ pid, pid < cfg.processes.length →
        (L.foldl (incNeederStep vo vn) s).missing.getD pid 0 = target pid) ∧
      FlagImpliesZero (L.foldl (incNeederStep vo vn) s) ∧
      RunnableFlagged cfg (L.foldl (incNeederStep vo vn) s) ∧
      FlaggedRunnable (L.foldl (incNeederStep vo vn) s)
  | [], s, _, _, hmlen, hflen, hpre, h0, h1, h2 => by
    refine ⟨rfl, hmlen, hflen, fun pid hpid => ?_, h0, h1, h2⟩
    have := hpre pid hpid
    rw [if_neg (by rintro ⟨q, hq, _⟩; cases hq)] at this
    simp only [List.foldl_nil]
    omega
  | pq :: L, s, hpair, hmem, hmlen, hflen, hpre, h0, h1, h2 => by
    rw [List.foldl_cons]
    have hhead := (List.pairwise_cons.mp hpair).1
    have htail := (List.pairwise_cons.mp hpair).2
    have hpqn : pq.1 < cfg.processes.length := hmem pq (by simp)
    by_cases hc : vo < pq.2 ∧ pq.2 ≤ vn
    · have hcrossL : crossedUp (pq :: L) vo vn pq.1 :=
        ⟨pq.2, by simp, hc.1, hc.2⟩
      have hnocrossL : ¬ crossedUp L vo vn pq.1 := by
        rintro ⟨q, hq, _⟩
        exact hhead (pq.1, q) hq rfl
      have hmv : s.missing.getD pq.1 0 = target pq.1 + 1 := by
        have := hpre pq.1 hpqn
        rw [if_pos hcrossL] at this
        exact this
      have hstep : incNeederStep vo vn s pq =
          (let m := s.missing.getD pq.1 0 - 1
           let s' : GenState := { s with missing := s.missing.set pq.1 m }
           if m = 0 then add_runnable pq.1 s' else s') := by
        unfold incNeederStep
        rw [if_pos hc]
      rw [hstep]
      set m := s.missing.getD pq.1 0 - 1 with hmdef
      have hmtgt : m = target pq.1 := by omega
      set s' : GenState := { s with missing := s.missing.set pq.1 m } with hs'
      have hflag1 : s.is_runnable.getD pq.1 false = true → False := by
        intro hf
        have := h0 pq.1 hf
        have := htgt pq.1
        omega
      have hpre' : ∀ pid, pid < cfg.processes.length →
          s'.missing.getD pid 0 = target pid + (if crossedUp L vo vn pid then 1 else 0) := by
        intro pid hpid
        by_cases hpp : pq.1 = pid
        · subst hpp
          rw [hs']
          simp only
          rw [getD_set_self _ _ _ _ (hmlen ▸ hpqn), if_neg hnocrossL, hmtgt, add_zero]
        · rw [hs']
          simp only
          rw [getD_set_ne _ _ _ _ _ hpp]
          have := hpre pid hpid
          have hiff : crossedUp (pq :: L) vo vn pid ↔ crossedUp L vo vn pid := by
            constructor
            · rintro ⟨q, hq, hq1, hq2⟩
              rcases List.mem_cons.mp hq with h | h
              · exfalso
                apply hpp
                have : pq.1 = (pid, q).1 := by rw [← h]
                simpa using this
              · exact ⟨q, h, hq1, hq2⟩
            · rintro ⟨q, hq, hq1, hq2⟩
              exact ⟨q, List.mem_cons_of_mem _ hq, hq1, hq2⟩
          simp only [hiff] at this
          exact this
      have h0' : FlagImpliesZero s' := by
        intro pid hf
        by_cases hpp : pq.1 = pid
        · subst hpp
          exact absurd hf (fun hf => hflag1 hf)
        · rw [hs']
          simp only
          rw [getD_set_ne _ _ _ _ _ hpp]
          exact h0 pid hf
      have h1' : RunnableFlagged cfg s' := h1
      have h2' : FlaggedRunnable s' := h2
      have hmlen' : s'.missing.length = cfg.processes.length := by
        rw [hs']
        simpa using hmlen
      have hflen' : s'.is_runnable.length = cfg.processes.length := hflen
      by_cases hm0 : m = 0
      · rw [if_pos hm0]
        have hadd := add_runnable_inv cfg pq.1 s' hpqn hflen' h0' h1' h2'
        have ih := incFold_inv cfg vo vn target htgt L (add_runnable pq.1 s')
          htail (fun x hx => hmem x (List.mem_cons_of_mem _ hx))
          (by rw [hadd.2.1]; exact hmlen')
          (by rw [hadd.2.2.1]; exact hflen')
          (by rw [hadd.2.1]; exact hpre')
          hadd.2.2.2.1 hadd.2.2.2.2.1 hadd.2.2.2.2.2
        refine ⟨?_, ih.2.1, ih.2.2.1, ?_, ih.2.2.2.2.1, ih.2.2.2.2.2.1, ih.2.2.2.2.2.2⟩
        · rw [ih.1, hadd.1]
        · intro pid hpid
          exact ih.2.2.2.1 pid hpid
      · rw [if_neg hm0]
        exact incFold_inv cfg vo vn target htgt L s'
          htail (fun x hx => hmem x (List.mem_cons_of_mem _ hx))
          hmlen' hflen' hpre' h0' h1' h2'
    · have hstep : incNeederStep vo vn s pq = s := by
        unfold incNeederStep
        rw [if_neg hc]
      rw [hstep]
      have hiff : ∀ pid, crossedUp (pq :: L) vo vn pid ↔ crossedUp L vo vn pid := by
        intro pid
        constructor
        · rintro ⟨q, hq, hq1, hq2⟩
          rcases List.mem_cons.mp hq with h | h
          · exfalso
            apply hc
            have h2' : q = pq.2 := by
              have : (pid, q).2 = pq.2 := by rw [h]
              simpa using this
            rw [h2'] at hq1 hq2
            exact ⟨hq1, hq2⟩
          · exact ⟨q, h, hq1, hq2⟩
        · rintro ⟨q, hq, hq1, hq2⟩
          exact ⟨q, List.mem_cons_of_mem _ hq, hq1, hq2⟩
      exact incFold_inv cfg vo vn target htgt L s
        htail (fun x hx => hmem x (List.mem_cons_of_mem _ hx))
        hmlen hflen
        (fun pid hpid => by simp only [← hiff pid]; exact hpre pid hpid)
        h0 h1 h2

theorem decFold_inv (cfg : Config) (vo vn : Int) (target : Nat → Int) :
    ∀ (L : List (Nat × Int)) (s : GenState),
      L.Pairwise (fun a b => a.1 ≠ b.1) →
      (∀ pq ∈ L, pq.1 < cfg.processes.length) →
      s.missing.length = cfg.processes.length →
      s.is_runnable.length = cfg.processes.length →
      (∀ pid, pid < cfg.processes.length →
        s.missing.getD pid 0 = target pid - (if crossedDown L vo vn pid then 1 else 0)) →
      FlagImpliesZero s →
      RunnableFlagged cfg s →
      FlaggedRunnable s →
      (L.foldl (decNeederStep vo vn) s).child = s.child ∧
      (L.foldl (decNeederStep vo vn) s).missing.length = cfg.processes.length ∧
      (L.foldl (decNeederStep vo vn) s).is_runnable.length = cfg.processes.length ∧
      (∀ pid, pid < cfg.processes.length →
        (L.foldl (decNeederStep vo vn) s).missing.getD pid 0 = target pid) ∧
      FlagImpliesZero (L.foldl (decNeederStep vo vn) s) ∧
      RunnableFlagged cfg (L.foldl (decNeederStep vo vn) s) ∧
      FlaggedRunnable (L.foldl (decNeederStep vo vn) s)
  | [], s, _, _, hmlen, hflen, hpre, h0, h1, h2 => by
    refine ⟨rfl, hmlen, hflen, fun pid hpid => ?_, h0, h1, h2⟩
    have := hpre pid hpid
    rw [if_neg (by rintro ⟨q, hq, _⟩; cases hq)] at this
    simp only [List.foldl_nil]
    omega
  | pq :: L, s, hpair, hmem, hmlen, hflen, hpre, h0, h1, h2 => by
    rw [List.foldl_cons]
    have hhead := (List.pairwise_cons.mp hpair).1
    have htail := (List.pairwise_cons.mp hpair).2
    have hpqn : pq.1 < cfg.processes.length := hmem pq (by simp)
    by_cases hc : pq.2 ≤ vo ∧ vn < pq.2
    · have hcrossL : crossedDown (pq :: L) vo vn pq.1 :=
        ⟨pq.2, by simp, hc.1, hc.2⟩
      have hnocrossL : ¬ crossedDown L vo vn pq.1 := by
        rintro ⟨q, hq, _⟩
        exact hhead (pq.1, q) hq rfl
      have hmv : s.missing.getD pq.1 0 = target pq.1 - 1 := by
        have := hpre pq.1 hpqn
        rw [if_pos hcrossL] at this
        exact this
      have hstep : decNeederStep vo vn s pq =
          (let m0 := s.missing.getD pq.1 0
           let s' : GenState := { s with missing := s.missing.set pq.1 (m0 + 1) }
           if m0 = 0 then remove_runnable pq.1 s' else s') := by
        unfold decNeederStep
        rw [if_pos hc]
      rw [hstep]
      set m0 := s.missing.getD pq.1 0 with hm0def
      set s' : GenState := { s with missing := s.missing.set pq.1 (m0 + 1) } with hs'
      have hpre' : ∀ pid, pid < cfg.processes.length →
          s'.missing.getD pid 0 = target pid - (if crossedDown L vo vn pid then 1 else 0) := by
        intro pid hpid
        by_cases hpp : pq.1 = pid
        · subst hpp
          rw [hs']
          simp only
          rw [getD_set_self _ _ _ _ (hmlen ▸ hpqn), if_neg hnocrossL]
          omega
        · rw [hs']
          simp only
          rw [getD_set_ne _ _ _ _ _ hpp]
          have := hpre pid hpid
          have hiff : crossedDown (pq :: L) vo vn pid ↔ crossedDown L vo vn pid := by
            constructor
            · rintro ⟨q, hq, hq1, hq2⟩
              rcases List.mem_cons.mp hq with h | h
              · exfalso
                apply hpp
                have : pq.1 = (pid, q).1 := by rw [← h]
                simpa using this
              · exact ⟨q, h, hq1, hq2⟩
            · rintro ⟨q, hq, hq1, hq2⟩
              exact ⟨q, List.mem_cons_of_mem _ hq, hq1, hq2⟩
          simp only [hiff] at this
          exact this
      have h0' : ∀ pid', pid' ≠ pq.1 → s'.is_runnable.getD pid' false = true →
          s'.missing.getD pid' 0 = 0 := by
        intro pid' hne hf
        rw [hs']
        simp only
        rw [getD_set_ne _ _ _ _ _ (fun hc' => hne hc'.symm)]
        exact h0 pid' hf
      have hmlen' : s'.missing.length = cfg.processes.length := by
        rw [hs']
        simpa using hmlen
      have hflen' : s'.is_runnable.length = cfg.processes.length := hflen
      by_cases hm00 : m0 = 0
      · rw [if_pos hm00]
        have hrem := remove_runnable_inv cfg pq.1 s' h0' h1 h2
        have ih := decFold_inv cfg vo vn target L (remove_runnable pq.1 s')
          htail (fun x hx => hmem x (List.mem_cons_of_mem _ hx))
          (by rw [hrem.2.1]; exact hmlen')
          (by rw [hrem.2.2.1]; exact hflen')
          (by rw [hrem.2.1]; exact hpre')
          hrem.2.2.2.1 hrem.2.2.2.2.1 hrem.2.2.2.2.2
        refine ⟨?_, ih.2.1, ih.2.2.1, ih.2.2.2.1, ih.2.2.2.2.1, ih.2.2.2.2.2.1,
          ih.2.2.2.2.2.2⟩
        rw [ih.1, hrem.1]
      · rw [if_neg hm00]
        have h0'' : FlagImpliesZero s' := by
          intro pid' hf
          by_cases hpp : pid' = pq.1
          · subst hpp
            exact absurd (h0 pq.1 hf) hm00
          · exact h0' pid' hpp hf
        exact decFold_inv cfg vo vn target L s'
          htail (fun x hx => hmem x (List.mem_cons_of_mem _ hx))
          hmlen' hflen' hpre' h0'' h1 h2
    · have hstep : decNeederStep vo vn s pq = s := by
        unfold decNeederStep
        rw [if_neg hc]
      rw [hstep]
      have hiff : ∀ pid, crossedDown (pq :: L) vo vn pid ↔ crossedDown L vo vn pid := by
        intro pid
        constructor
        · rintro ⟨q, hq, hq1, hq2⟩
          rcases List.mem_cons.mp hq with h | h
          · exfalso
            apply hc
            have h2' : q = pq.2 := by
              have : (pid, q).2 = pq.2 := by rw [h]
              simpa using this
            rw [h2'] at hq1 hq2
            exact ⟨hq1, hq2⟩
          · exact ⟨q, h, hq1, hq2⟩
        · rintro ⟨q, hq, hq1, hq2⟩
          exact ⟨q, List.mem_cons_of_mem _ hq, hq1, hq2⟩
      exact decFold_inv cfg vo vn target L s
        htail (fun x hx => hmem x (List.mem_cons_of_mem _ hx))
        hmlen hflen
        (fun pid hpid => by simp only [← hiff pid]; exact hpre pid hpid)
        h0 h1 h2

theorem countMissing_nonneg (st : List Int) (needs : List (Nat × Int)) :
    0 ≤ countMissing st needs := by
  unfold countMissing
  positivity

theorem countMissing_cons (st : List Int) (j : Nat) (q : Int)
    (needs : List (Nat × Int)) :
    countMissing st ((j, q) :: needs) =
      (if st.getD j 0 < q then 1 else 0) + countMissing st needs := by
  unfold countMissing
  rw [List.filter_cons]
  by_cases h : st.getD j 0 < q
  · rw [if_pos (by simpa using h), if_pos h]
    simp only [List.length_cons]
    omega
  · rw [if_neg (by simpa using h), if_neg h]
    omega

theorem countMissing_eq_zero_iff (st : List Int) (needs : List (Nat × Int)) :
    countMissing st needs = 0 ↔ ∀ iq ∈ needs, iq.2 ≤ st.getD iq.1 0 := by
  induction needs with
  | nil => simp [countMissing]
  | cons iq needs ih =>
    rcases iq with ⟨j, q⟩
    rw [countMissing_cons]
    constructor
    · intro h
      have hc := countMissing_nonneg st needs
      have hhead : ¬ st.getD j 0 < q := by
        by_contra hlt
        rw [if_pos hlt] at h
        omega
      intro iq hiq
      rcases List.mem_cons.mp hiq with h' | h'
      · rw [h']
        simpa using le_of_not_lt hhead
      · have : countMissing st needs = 0 := by
          rw [if_neg hhead] at h
          omega
        exact ih.mp this iq h'
    · intro h
      rw [if_neg (not_lt.mpr (by simpa using h (j, q) (by simp)))]
      have : countMissing st needs = 0 :=
        ih.mpr (fun iq hiq => h iq (List.mem_cons_of_mem _ hiq))
      omega

theorem countMissing_set_of_ne (st : List Int) (it : Nat) (v : Int)
    (needs : List (Nat × Int)) (h : ∀ iq ∈ needs, iq.1 ≠ it) :
    countMissing (st.set it v) needs = countMissing st needs := by
  unfold countMissing
  have heq : needs.filter (fun iq => decide ((st.set it v).getD iq.1 0 < iq.2)) =
      needs.filter (fun iq => decide (st.getD iq.1 0 < iq.2)) :=
    List.filter_congr (fun iq hiq => by
      rw [getD_set_ne _ _ _ _ _ (fun hc => (h iq hiq) hc.symm)])
  rw [heq]

theorem countMissing_set_up (st : List Int) (it : Nat) (vn : Int)
    (needs : List (Nat × Int)) (hit : it < st.length)
    (hnodup : (needs.map Prod.fst).Nodup) (hup : st.getD it 0 < vn) :
    countMissing st needs =
      countMissing (st.set it vn) needs +
        (if crossedUp needs (st.getD it 0) vn it then 1 else 0) := by
  induction needs with
  | nil =>
    rw [if_neg (by rintro ⟨q, hq, _⟩; cases hq)]
    rfl
  | cons iq needs ih =>
    rcases iq with ⟨j, q⟩
    have hnodup' : j ∉ needs.map Prod.fst ∧ (needs.map Prod.fst).Nodup := by
      rw [List.map_cons, List.nodup_cons] at hnodup
      exact ⟨hnodup.1, hnodup.2⟩
    have hnd := hnodup'
    have ihv := ih hnd.2
    rw [countMissing_cons, countMissing_cons]
    by_cases hji : j = it
    · subst hji
      have hnomem : ∀ iq ∈ needs, iq.1 ≠ j := by
        intro iq hiq hc
        exact hnd.1 (hc ▸ List.mem_map_of_mem Prod.fst hiq)
      have htail : countMissing (st.set j vn) needs = countMissing st needs :=
        countMissing_set_of_ne st j vn needs hnomem
      have hcu : crossedUp ((j, q) :: needs) (st.getD j 0) vn j ↔
          (st.getD j 0 < q ∧ q ≤ vn) := by
        constructor
        · rintro ⟨q', hq', h1, h2⟩
          rcases List.mem_cons.mp hq' with h' | h'
          · have : q' = q := by
              have := congrArg Prod.snd h'
              simpa using this
            subst this
            exact ⟨h1, h2⟩
          · exact absurd rfl (hnomem (j, q') h')
        · rintro ⟨h1, h2⟩
          exact ⟨q, by simp, h1, h2⟩
      rw [htail, getD_set_self _ _ _ _ hit]
      by_cases h1 : st.getD j 0 < q
      · by_cases h2 : q ≤ vn
        · rw [if_pos h1, if_neg (by omega), if_pos (hcu.mpr ⟨h1, h2⟩)]
          omega
        · rw [if_pos h1, if_pos (by omega),
            if_neg (fun hc => by have := hcu.mp hc; omega)]
          omega
      · rw [if_neg h1, if_neg (by omega),
          if_neg (fun hc => by have := hcu.mp hc; omega)]
        omega
    · have hcu : crossedUp ((j, q) :: needs) (st.getD it 0) vn it ↔
          crossedUp needs (st.getD it 0) vn it := by
        constructor
        · rintro ⟨q', hq', h1, h2⟩
          rcases List.mem_cons.mp hq' with h' | h'
          · exfalso
            apply hji
            have := congrArg Prod.fst h'
            simpa using this.symm
          · exact ⟨q', h', h1, h2⟩
        · rintro ⟨q', hq', h1, h2⟩
          exact ⟨q', List.mem_cons_of_mem _ hq', h1, h2⟩
      rw [getD_set_ne _ _ _ _ _ (fun hc => hji hc.symm)]
      simp only [hcu]
      omega

theorem countMissing_set_down (st : List Int) (it : Nat) (vn : Int)
    (needs : List (Nat × Int)) (hit : it < st.length)
    (hnodup : (needs.map Prod.fst).Nodup) (hdown : vn < st.getD it 0) :
    countMissing (st.set it vn) needs =
      countMissing st needs +
        (if crossedDown needs (st.getD it 0) vn it then 1 else 0) := by
  induction needs with
  | nil =>
    rw [if_neg (by rintro ⟨q, hq, _⟩; cases hq)]
    rfl
  | cons iq needs ih =>
    rcases iq with ⟨j, q⟩
    have hnodup' : j ∉ needs.map Prod.fst ∧ (needs.map Prod.fst).Nodup := by
      rw [List.map_cons, List.nodup_cons] at hnodup
      exact ⟨hnodup.1, hnodup.2⟩
    have hnd := hnodup'
    have ihv := ih hnd.2
    rw [countMissing_cons, countMissing_cons]
    by_cases hji : j = it
    · subst hji
      have hnomem : ∀ iq ∈ needs, iq.1 ≠ j := by
        intro iq hiq hc
        exact hnd.1 (hc ▸ List.mem_map_of_mem Prod.fst hiq)
      have htail : countMissing (st.set j vn) needs = countMissing st needs :=
        countMissing_set_of_ne st j vn needs hnomem
      have hcd : crossedDown ((j, q) :: needs) (st.getD j 0) vn j ↔
          (q ≤ st.getD j 0 ∧ vn < q) := by
        constructor
        · rintro ⟨q', hq', h1, h2⟩
          rcases List.mem_cons.mp hq' with h' | h'
          · have : q' = q := by
              have := congrArg Prod.snd h'
              simpa using this
            subst this
            exact ⟨h1, h2⟩
          · exact absurd rfl (hnomem (j, q') h')
        · rintro ⟨h1, h2⟩
          exact ⟨q, by simp, h1, h2⟩
      rw [htail, getD_set_self _ _ _ _ hit]
      by_cases h1 : vn < q
      · by_cases h2 : q ≤ st.getD j 0
        · rw [if_pos h1, if_neg (by omega), if_pos (hcd.mpr ⟨h2, h1⟩)]
          omega
        · rw [if_pos h1, if_pos (by omega),
            if_neg (fun hc => by have := hcd.mp hc; omega)]
          omega
      · rw [if_neg h1, if_neg (by omega),
          if_neg (fun hc => by have := hcd.mp hc; omega)]
        omega
    · have hcd : crossedDown ((j, q) :: needs) (st.getD it 0) vn it ↔
          crossedDown needs (st.getD it 0) vn it := by
        constructor
        · rintro ⟨q', hq', h1, h2⟩
          rcases List.mem_cons.mp hq' with h' | h'
          · exfalso
            apply hji
            have := congrArg Prod.fst h'
            simpa using this.symm
          · exact ⟨q', h', h1, h2⟩
        · rintro ⟨q', hq', h1, h2⟩
          exact ⟨q', List.mem_cons_of_mem _ hq', h1, h2⟩
      rw [getD_set_ne _ _ _ _ _ (fun hc => hji hc.symm)]
      simp only [hcd]
      omega

theorem needersAux_mem (i : Nat) :
    ∀ (k : Nat) (procs : List Process) (pid : Nat) (q : Int),
      (pid, q) ∈ needersAux i k procs ↔
        (k ≤ pid ∧ pid - k < procs.length ∧
          (i, q) ∈ (procs.getD (pid - k) default).needs_by_id)
  | k, [], pid, q => by
    constructor
    · intro h
      cases h
    · rintro ⟨_, h, _⟩
      simp at h
  | k, p :: procs, pid, q => by
    rw [needersAux, List.mem_append]
    constructor
    · rintro (hblk | hrec)
      · rcases List.mem_filterMap.mp hblk with ⟨iq, hiq, hify⟩
        by_cases hi : iq.1 = i
        · rw [if_pos hi] at hify
          have hify' := Option.some.inj hify
          have hk : k = pid := congrArg Prod.fst hify'
          have hq : iq.2 = q := congrArg Prod.snd hify' 
          subst hk
          refine ⟨le_refl _, by simp, ?_⟩
          simp only [Nat.sub_self, List.getD_cons_zero]
          have : iq = (i, q) := by
            rcases iq with ⟨a, b⟩
            simp only at hi hq
            rw [hi, hq]
          rw [← this]
          exact hiq
        · rw [if_neg hi] at hify
          cases hify
      · have h := (needersAux_mem i (k + 1) procs pid q).mp hrec
        refine ⟨by omega, by simp; omega, ?_⟩
        have harith : pid - k = (pid - (k + 1)) + 1 := by omega
        rw [harith, List.getD_cons_succ]
        exact h.2.2
    · rintro ⟨hk, hlt, hmem⟩
      by_cases hkp : pid = k
      · subst hkp
        left
        apply List.mem_filterMap.mpr
        refine ⟨(i, q), ?_, ?_⟩
        · simpa using hmem
        · rw [if_pos rfl]
      · right
        apply (needersAux_mem i (k + 1) procs pid q).mpr
        refine ⟨by omega, by simp at hlt; omega, ?_⟩
        have harith : pid - k = (pid - (k + 1)) + 1 := by omega
        rw [harith, List.getD_cons_succ] at hmem
        exact hmem

theorem needersAux_fst_ge (i : Nat) :
    ∀ (k : Nat) (procs : List Process), ∀ pq ∈ needersAux i k procs, k ≤ pq.1
  | k, [] => by intro pq h; cases h
  | k, p :: procs => by
    intro pq h
    rcases List.mem_append.mp h with hblk | hrec
    · rcases List.mem_filterMap.mp hblk with ⟨iq, _, hify⟩
      by_cases hi : iq.1 = i
      · rw [if_pos hi] at hify
        have : k = pq.1 := congrArg Prod.fst (Option.some.inj hify)
        omega
      · rw [if_neg hi] at hify
        cases hify
    · have := needersAux_fst_ge i (k + 1) procs pq hrec
      omega

theorem filterMap_needers_nil (i : Nat) (k : Nat) (needs : List (Nat × Int))
    (h : ∀ iq ∈ needs, iq.1 ≠ i) :
    needs.filterMap (fun iq => if iq.1 = i then some (k, iq.2) else none) = [] := by
  rw [List.filterMap_eq_nil]
  intro iq hiq
  rw [if_neg (h iq hiq)]

theorem needersAux_pairwise (i : Nat) :
    ∀ (k : Nat) (procs : List Process),
      (∀ p ∈ procs, (p.needs_by_id.map Prod.fst).Nodup) →
      (needersAux i k procs).Pairwise (fun a b => a.1 ≠ b.1)
  | k, [], _ => List.Pairwise.nil
  | k, p :: procs, hnd => by
    rw [needersAux]
    apply List.pairwise_append.mpr
    refine ⟨?_, needersAux_pairwise i (k + 1) procs
      (fun p' hp' => hnd p' (List.mem_cons_of_mem _ hp')), ?_⟩
    · have hself := hnd p (by simp)
      have : ∀ L : List (Nat × Int), (L.map Prod.fst).Nodup →
          (L.filterMap (fun iq => if iq.1 = i then some (k, iq.2) else none)).Pairwise
            (fun a b => a.1 ≠ b.1) := by
        intro L
        induction L with
        | nil => intro _; exact List.Pairwise.nil
        | cons iq L ihL =>
          intro hLnd
          have hLnd' : iq.1 ∉ L.map Prod.fst ∧ (L.map Prod.fst).Nodup := by
            rw [List.map_cons, List.nodup_cons] at hLnd
            exact ⟨hLnd.1, hLnd.2⟩
          rw [List.filterMap_cons]
          by_cases hi : iq.1 = i
          · rw [if_pos hi]
            have hnil : L.filterMap
                (fun iq => if iq.1 = i then some (k, iq.2) else none) = [] := by
              apply filterMap_needers_nil
              intro iq' hiq' hc
              exact hLnd'.1 (hi ▸ hc ▸ List.mem_map_of_mem Prod.fst hiq')
            rw [hnil]
            simp
          · rw [if_neg hi]
            exact ihL hLnd'.2
      exact this p.needs_by_id hself
    · intro a ha b hb
      rcases List.mem_filterMap.mp ha with ⟨iq, _, hify⟩
      have hbk := needersAux_fst_ge i (k + 1) procs b hb
      by_cases hi : iq.1 = i
      · rw [if_pos hi] at hify
        have : k = a.1 := congrArg Prod.fst (Option.some.inj hify)
        omega
      · rw [if_neg hi] at hify
        cases hify

theorem specNeeders_getD (procs : List Process) (c : Nat) (i : Nat) (h : i < c) :
    (specNeeders procs c).getD i [] = needersAux i 0 procs := by
  unfold specNeeders
  rw [List.getD_eq_getElem?_getD, List.getElem?_map, List.getElem?_range h]
  rfl

theorem needersFor_mem (procs : List Process) (i pid : Nat) (q : Int) :
    (pid, q) ∈ needersAux i 0 procs ↔
      (pid < procs.length ∧ (i, q) ∈ (procs.getD pid default).needs_by_id) := by
  rw [needersAux_mem]
  simp [Nat.sub_zero]

theorem getD_mem_of_lt {α : Type} (l : List α) (i : Nat) (d : α)
    (h : i < l.length) : l.getD i d ∈ l := by
  rw [List.getD_eq_getElem?_getD, List.getElem?_eq_getElem h]
  exact List.getElem_mem h

theorem configWF_proc (cfg : Config) (hwf : ConfigWF cfg) (pid : Nat)
    (hpid : pid < cfg.processes.length) :
    ((cfg.processes.getD pid default).needs_by_id.map Prod.fst).Nodup ∧
    (∀ iq ∈ (cfg.processes.getD pid default).needs_by_id,
      0 < iq.2 ∧ iq.1 < cfg.item_to_id.length) ∧
    (∀ iq ∈ (cfg.processes.getD pid default).results_by_id,
      0 < iq.2 ∧ iq.1 < cfg.item_to_id.length) :=
  hwf.2.1 _ (getD_mem_of_lt _ _ _ hpid)

theorem configWF_needers (cfg : Config) (hwf : ConfigWF cfg) (i : Nat)
    (hi : i < cfg.item_to_id.length) :
    cfg.needers_by_item.getD i [] = needersAux i 0 cfg.processes := by
  rw [hwf.1]
  exact specNeeders_getD cfg.processes cfg.item_to_id.length i hi

/-- A single result increment preserves the full bookkeeping invariant. -/
theorem resultStep_inv (cfg : Config) (s : GenState) (iq : Nat × Int)
    (hwf : ConfigWF cfg) (hq : 0 < iq.2) (hrange : iq.1 < cfg.item_to_id.length)
    (hinv : Inv cfg s) : Inv cfg (resultStep cfg s iq) := by
  obtain ⟨hmlen, hflen, hslen, hrids, hnn, hexact, h0, h1, h2⟩ := hinv
  set st := s.child.stocks_by_id with hstdef
  set before := st.getD iq.1 0 with hbdef
  set after := before + iq.2 with hadef
  have hup : before < after := by omega
  set s1 : GenState := { s with child :=
    { s.child with stocks_by_id := st.set iq.1 after } } with hs1
  have hstep : resultStep cfg s iq = on_stock_increase cfg iq.1 before after s1 := rfl
  have hinc : on_stock_increase cfg iq.1 before after s1 =
      (cfg.needers_by_item.getD iq.1 []).foldl (incNeederStep before after) s1 := by
    unfold on_stock_increase
    rw [if_neg (by omega)]
  have hneed : cfg.needers_by_item.getD iq.1 [] = needersAux iq.1 0 cfg.processes :=
    configWF_needers cfg hwf iq.1 hrange
  have hitlt : iq.1 < st.length := by rw [hslen]; exact hrange
  have hpre : ∀ pid, pid < cfg.processes.length →
      s1.missing.getD pid 0 =
        countMissing (st.set iq.1 after) (cfg.processes.getD pid default).needs_by_id +
          (if crossedUp (needersAux iq.1 0 cfg.processes) before after pid then 1
           else 0) := by
    intro pid hpid
    have hm := hexact pid hpid
    have hnodup := (configWF_proc cfg hwf pid hpid).1
    have hcm := countMissing_set_up st iq.1 after
      (cfg.processes.getD pid default).needs_by_id hitlt hnodup hup
    have hiff : crossedUp (needersAux iq.1 0 cfg.processes) before after pid ↔
        crossedUp (cfg.processes.getD pid default).needs_by_id before after iq.1 := by
      constructor
      · rintro ⟨q, hqm, hq1, hq2⟩
        exact ⟨q, ((needersFor_mem cfg.processes iq.1 pid q).mp hqm).2, hq1, hq2⟩
      · rintro ⟨q, hqm, hq1, hq2⟩
        exact ⟨q, (needersFor_mem cfg.processes iq.1 pid q).mpr ⟨hpid, hqm⟩, hq1, hq2⟩
    have : s1.missing = s.missing := rfl
    rw [this, hm]
    simp only [hiff]
    exact hcm
  have hpair := needersAux_pairwise iq.1 0 cfg.processes
    (fun p hp => (hwf.2.1 p hp).1)
  have hmem : ∀ pq ∈ needersAux iq.1 0 cfg.processes,
      pq.1 < cfg.processes.length := by
    rintro ⟨pid, q⟩ hpq
    exact ((needersFor_mem cfg.processes iq.1 pid q).mp hpq).1
  have hfold := incFold_inv cfg before after
    (fun pid => countMissing (st.set iq.1 after)
      (cfg.processes.getD pid default).needs_by_id)
    (fun pid => countMissing_nonneg _ _)
    (needersAux iq.1 0 cfg.processes) s1 hpair hmem hmlen hflen hpre h0 h1 h2
  rw [hstep, hinc, hneed]
  have hchild := hfold.1
  constructor
  · exact hfold.2.1
  · exact hfold.2.2.1
  · rw [hchild]
    rw [hs1]
    simpa using hslen
  · rw [hchild]
    exact hrids
  · rw [hchild]
    intro i
    by_cases hii : iq.1 = i
    · subst hii
      rw [hs1]
      simp only
      rw [getD_set_self _ _ _ _ hitlt]
      have := hnn iq.1
      omega
    · rw [hs1]
      simp only
      rw [getD_set_ne _ _ _ _ _ hii]
      exact hnn i
  · intro pid hpid
    rw [hfold.2.2.2.1 pid hpid, hchild]
  · exact hfold.2.2.2.2.1
  · exact hfold.2.2.2.2.2.1
  · exact hfold.2.2.2.2.2.2

/-- A single need decrement preserves the full bookkeeping invariant, provided
the need was satisfied before the decrement. -/
theorem needStep_inv (cfg : Config) (s : GenState) (iq : Nat × Int)
    (hwf : ConfigWF cfg) (hq : 0 < iq.2) (hrange : iq.1 < cfg.item_to_id.length)
    (hsat : iq.2 ≤ s.child.stocks_by_id.getD iq.1 0)
    (hinv : Inv cfg s) : Inv cfg (needStep cfg s iq) := by
  obtain ⟨hmlen, hflen, hslen, hrids, hnn, hexact, h0, h1, h2⟩ := hinv
  set st := s.child.stocks_by_id with hstdef
  set before := st.getD iq.1 0 with hbdef
  set after := before - iq.2 with hadef
  have hdown : after < before := by omega
  set s1 : GenState := { s with child :=
    { s.child with stocks_by_id := st.set iq.1 after } } with hs1
  have hstep : needStep cfg s iq = on_stock_decrease cfg iq.1 before after s1 := rfl
  have hdec : on_stock_decrease cfg iq.1 before after s1 =
      (cfg.needers_by_item.getD iq.1 []).foldl (decNeederStep before after) s1 := by
    unfold on_stock_decrease
    rw [if_neg (by omega)]
  have hneed : cfg.needers_by_item.getD iq.1 [] = needersAux iq.1 0 cfg.processes :=
    configWF_needers cfg hwf iq.1 hrange
  have hitlt : iq.1 < st.length := by rw [hslen]; exact hrange
  have hpre : ∀ pid, pid < cfg.processes.length →
      s1.missing.getD pid 0 =
        countMissing (st.set iq.1 after) (cfg.processes.getD pid default).needs_by_id -
          (if crossedDown (needersAux iq.1 0 cfg.processes) before after pid then 1
           else 0) := by
    intro pid hpid
    have hm := hexact pid hpid
    have hnodup := (configWF_proc cfg hwf pid hpid).1
    have hcm := countMissing_set_down st iq.1 after
      (cfg.processes.getD pid default).needs_by_id hitlt hnodup hdown
    have hiff : crossedDown (needersAux iq.1 0 cfg.processes) before after pid ↔
        crossedDown (cfg.processes.getD pid default).needs_by_id before after iq.1 := by
      constructor
      · rintro ⟨q, hqm, hq1, hq2⟩
        exact ⟨q, ((needersFor_mem cfg.processes iq.1 pid q).mp hqm).2, hq1, hq2⟩
      · rintro ⟨q, hqm, hq1, hq2⟩
        exact ⟨q, (needersFor_mem cfg.processes iq.1 pid q).mpr ⟨hpid, hqm⟩, hq1, hq2⟩
    have hsm : s1.missing = s.missing := rfl
    rw [show s.child.stocks_by_id = st from rfl] at hm
    rw [show st.getD iq.1 0 = before from rfl] at hcm
    rw [hsm, hm]
    simp only [hiff]
    omega
  have hpair := needersAux_pairwise iq.1 0 cfg.processes
    (fun p hp => (hwf.2.1 p hp).1)
  have hmem : ∀ pq ∈ needersAux iq.1 0 cfg.processes,
      pq.1 < cfg.processes.length := by
    rintro ⟨pid, q⟩ hpq
    exact ((needersFor_mem cfg.processes iq.1 pid q).mp hpq).1
  have hfold := decFold_inv cfg before after
    (fun pid => countMissing (st.set iq.1 after)
      (cfg.processes.getD pid default).needs_by_id)
    (needersAux iq.1 0 cfg.processes) s1 hpair hmem hmlen hflen hpre h0 h1 h2
  rw [hstep, hdec, hneed]
  have hchild := hfold.1
  constructor
  · exact hfold.2.1
  · exact hfold.2.2.1
  · rw [hchild]
    rw [hs1]
    simpa using hslen
  · rw [hchild]
    exact hrids
  · rw [hchild]
    intro i
    by_cases hii : iq.1 = i
    · subst hii
      rw [hs1]
      simp only
      rw [getD_set_self _ _ _ _ hitlt]
      omega
    · rw [hs1]
      simp only
      rw [getD_set_ne _ _ _ _ _ hii]
      exact hnn i
  · intro pid hpid
    rw [hfold.2.2.2.1 pid hpid, hchild]
  · exact hfold.2.2.2.2.1
  · exact hfold.2.2.2.2.2.1
  · exact hfold.2.2.2.2.2.2

theorem resultsFoldl_frame (cfg : Config) :
    ∀ (L : List (Nat × Int)) (s : GenState),
      (L.foldl (resultStep cfg) s).child.cycle = s.child.cycle ∧
      (L.foldl (resultStep cfg) s).child.running = s.child.running ∧
      (L.foldl (resultStep cfg) s).child.trace = s.child.trace
  | [], s => ⟨rfl, rfl, rfl⟩
  | iq :: L, s => by
    rw [List.foldl_cons]
    have ih := resultsFoldl_frame cfg L (resultStep cfg s iq)
    refine ⟨?_, ?_, ?_⟩
    · rw [ih.1, resultStep_cycle]
    · rw [ih.2.1, resultStep_running]
    · rw [ih.2.2, resultStep_trace]

theorem needsFoldl_frame (cfg : Config) :
    ∀ (L : List (Nat × Int)) (s : GenState),
      (L.foldl (needStep cfg) s).child.cycle = s.child.cycle ∧
      (L.foldl (needStep cfg) s).child.running = s.child.running ∧
      (L.foldl (needStep cfg) s).child.trace = s.child.trace
  | [], s => ⟨rfl, rfl, rfl⟩
  | iq :: L, s => by
    rw [List.foldl_cons]
    have ih := needsFoldl_frame cfg L (needStep cfg s iq)
    refine ⟨?_, ?_, ?_⟩
    · rw [ih.1, needStep_cycle]
    · rw [ih.2.1, needStep_running]
    · rw [ih.2.2, needStep_trace]

theorem resultsFoldl_inv (cfg : Config) (hwf : ConfigWF cfg) :
    ∀ (L : List (Nat × Int)) (s : GenState),
      (∀ iq ∈ L, 0 < iq.2 ∧ iq.1 < cfg.item_to_id.length) →
      Inv cfg s → Inv cfg (L.foldl (resultStep cfg) s)
  | [], s, _, hinv => hinv
  | iq :: L, s, h, hinv => by
    rw [List.foldl_cons]
    exact resultsFoldl_inv cfg hwf L (resultStep cfg s iq)
      (fun x hx => h x (List.mem_cons_of_mem _ hx))
      (resultStep_inv cfg s iq hwf (h iq (by simp)).1 (h iq (by simp)).2 hinv)

theorem addResultsOf_inv (cfg : Config) (pid : Nat) (s : GenState)
    (hwf : ConfigWF cfg) (hpid : pid < cfg.processes.length)
    (hinv : Inv cfg s) : Inv cfg (addResultsOf cfg pid s) :=
  resultsFoldl_inv cfg hwf _ s (configWF_proc cfg hwf pid hpid).2.2 hinv

theorem waitLoop_inv (cfg : Config) (cyc : Int) (hwf : ConfigWF cfg) :
    ∀ (L : List RunningProcess) (s : GenState),
      (∀ rp ∈ L, rp.id < cfg.processes.length) →
      s.child.running = [] →
      Inv cfg s → Inv cfg (waitLoop cfg cyc L s)
  | [], s, _, _, hinv => hinv
  | rp :: rest, s, hids, hrun, hinv => by
    rw [waitLoop]
    by_cases hle : rp.finish ≤ cyc
    · rw [if_pos hle]
      have hinv' := addResultsOf_inv cfg rp.id s hwf (hids rp (by simp)) hinv
      have hrun' : (addResultsOf cfg rp.id s).child.running = [] := by
        unfold addResultsOf
        rw [(resultsFoldl_frame cfg _ s).2.1, hrun]
      exact waitLoop_inv cfg cyc hwf rest (addResultsOf cfg rp.id s)
        (fun q hq => hids q (List.mem_cons_of_mem _ hq)) hrun' hinv'
    · rw [if_neg hle]
      obtain ⟨hmlen, hflen, hslen, _, hnn, hexact, h0, h1, h2⟩ := hinv
      exact ⟨hmlen, hflen, hslen, hids, hnn, hexact, h0, h1, h2⟩

theorem launchFoldl_inv (cfg : Config) (hwf : ConfigWF cfg) :
    ∀ (L : List (Nat × Int)) (s : GenState),
      L.Pairwise (fun a b => a.1 ≠ b.1) →
      (∀ iq ∈ L, 0 < iq.2 ∧ iq.1 < cfg.item_to_id.length) →
      (∀ iq ∈ L, iq.2 ≤ s.child.stocks_by_id.getD iq.1 0) →
      Inv cfg s → Inv cfg (L.foldl (needStep cfg) s)
  | [], s, _, _, _, hinv => hinv
  | iq :: L, s, hpair, hwfe, hsat, hinv => by
    rw [List.foldl_cons]
    have hhead := (List.pairwise_cons.mp hpair).1
    have hs' := needStep_inv cfg s iq hwf (hwfe iq (by simp)).1 (hwfe iq (by simp)).2
      (hsat iq (by simp)) hinv
    apply launchFoldl_inv cfg hwf L (needStep cfg s iq)
      (List.pairwise_cons.mp hpair).2
      (fun x hx => hwfe x (List.mem_cons_of_mem _ hx))
      ?_ hs'
    intro x hx
    rw [needStep_stocks]
    rw [getD_set_ne _ iq.1 x.1 _ _ (hhead x hx)]
    exact hsat x (List.mem_cons_of_mem _ hx)

/-- `apply_process` preserves the bookkeeping invariant when the choice is the
wait sentinel or a process whose runnable flag is set. -/
theorem apply_process_inv (cfg : Config) (s : GenState) (c : Int)
    (hwf : ConfigWF cfg)
    (hc : c = -1 ∨ (0 ≤ c ∧ s.is_runnable.getD c.toNat false = true))
    (hinv : Inv cfg s) : Inv cfg (apply_process cfg c s) := by
  by_cases hcw : c = -1
  · unfold apply_process
    rw [if_pos hcw]
    split
    · exact hinv
    · next rp rest heq =>
      have hids : ∀ q ∈ rp :: rest, q.id < cfg.processes.length := by
        rw [← heq]
        exact hinv.running_ids
      apply waitLoop_inv cfg rp.finish hwf (rp :: rest) _ hids rfl
      exact ⟨hinv.missing_len, hinv.flags_len, hinv.stocks_len,
        (by intro q hq; cases hq),
        hinv.nonneg, hinv.miss_exact, hinv.flag_zero, hinv.run_flag, hinv.flag_run⟩
  · rcases hc with hc | ⟨hge, hflag⟩
    · exact absurd hc hcw
    · have hpid : c.toNat < cfg.processes.length := by
        have := getD_true_lt _ _ hflag
        rw [hinv.flags_len] at this
        exact this
      have hm0 : s.missing.getD c.toNat 0 = 0 := hinv.flag_zero c.toNat hflag
      have hcm0 : countMissing s.child.stocks_by_id
          (cfg.processes.getD c.toNat default).needs_by_id = 0 := by
        rw [← hinv.miss_exact c.toNat hpid]
        exact hm0
      have hsat := (countMissing_eq_zero_iff _ _).mp hcm0
      unfold apply_process
      rw [if_neg hcw]
      set pid := c.toNat with hpiddef
      set proc := cfg.processes.getD pid default with hprocdef
      set s1 : GenState := { s with child :=
        { s.child with running := pqPush s.child.running ⟨s.child.cycle + proc.delay, pid⟩ } }
        with hs1
      have hinv1 : Inv cfg s1 := by
        obtain ⟨hmlen, hflen, hslen, hrids, hnn, hexact, h0, h1, h2⟩ := hinv
        refine ⟨hmlen, hflen, hslen, ?_, hnn, hexact, h0, h1, h2⟩
        intro q hq
        have hmem := (pqPush_perm s.child.running
          ⟨s.child.cycle + proc.delay, pid⟩).mem_iff.mp hq
        rcases List.mem_cons.mp hmem with h | h
        · rw [h]
          exact hpid
        · exact hrids q h
      have hpair : proc.needs_by_id.Pairwise (fun a b => a.1 ≠ b.1) :=
        List.pairwise_map.mp (configWF_proc cfg hwf pid hpid).1
      have hfold := launchFoldl_inv cfg hwf proc.needs_by_id s1 hpair
        (configWF_proc cfg hwf pid hpid).2.1
        (fun iq hiq => hsat iq hiq) hinv1
      obtain ⟨hmlen, hflen, hslen, hrids, hnn, hexact, h0, h1, h2⟩ := hfold
      exact ⟨hmlen, hflen, hslen, hrids, hnn, hexact, h0, h1, h2⟩

theorem cycleScan_spec (cfg : Config) :
    ∀ (L : List Int) (fl : List Bool) (fc : Int),
      (∀ p' ∈ L, p' = -1 ∨ 0 ≤ p') →
      (cycleScan cfg L fl fc).1 = L.filter (fun p => ¬ dropCycle cfg p) ∧
      (cycleScan cfg L fl fc).2.1.length = fl.length ∧
      (∀ pid, (cycleScan cfg L fl fc).2.1.getD pid false = true →
        fl.getD pid false = true) ∧
      (∀ p : Int, 0 ≤ p → ¬ dropCycle cfg p →
        (cycleScan cfg L fl fc).2.1.getD p.toNat false = fl.getD p.toNat false) ∧
      (∀ p : Int, p ∈ L → dropCycle cfg p →
        (cycleScan cfg L fl fc).2.1.getD p.toNat false = false) ∧
      ((cycleScan cfg L fl fc).2.2 = fc ∨
        ((cycleScan cfg L fl fc).2.2 ∈ L ∧
          dropCycle cfg (cycleScan cfg L fl fc).2.2))
  | [], fl, fc, _ => by
    refine ⟨by simp [cycleScan], rfl, fun pid h => h, fun p _ _ => rfl, ?_, Or.inl rfl⟩
    intro p hp
    cases hp
  | p :: L, fl, fc, hL => by
    by_cases hd : dropCycle cfg p
    · have hstep : cycleScan cfg (p :: L) fl fc =
          cycleScan cfg L (fl.set p.toNat false) (if fc = -1 then p else fc) := by
        rw [cycleScan, if_pos ⟨hd.1, hd.2⟩]
      have ih := cycleScan_spec cfg L (fl.set p.toNat false) (if fc = -1 then p else fc)
        (fun p' hp' => hL p' (List.mem_cons_of_mem _ hp'))
      rw [hstep]
      have hp0 : 0 ≤ p := by
        rcases hL p (by simp) with h | h
        · exact absurd h hd.1
        · exact h
      have hmono : ∀ pid, (fl.set p.toNat false).getD pid false = true →
          fl.getD pid false = true ∧ p.toNat ≠ pid := by
        intro pid h'
        by_cases hpe : p.toNat = pid
        · subst hpe
          have hlt := getD_true_lt _ _ h'
          rw [List.length_set] at hlt
          rw [getD_set_self _ _ _ _ hlt] at h'
          cases h'
        · rw [getD_set_ne _ _ _ _ _ hpe] at h'
          exact ⟨h', hpe⟩
      refine ⟨?_, ?_, ?_, ?_, ?_, ?_⟩
      · rw [ih.1, List.filter_cons, if_neg (by simpa using hd)]
      · rw [ih.2.1, List.length_set]
      · intro pid h
        exact (hmono pid (ih.2.2.1 pid h)).1
      · intro x hx hnd
        have hne : p.toNat ≠ x.toNat := by
          intro hc
          have : p = x := by omega
          rw [this] at hd
          exact hnd hd
        rw [ih.2.2.2.1 x hx hnd, getD_set_ne _ _ _ _ _ hne]
      · intro x hx hdx
        rcases List.mem_cons.mp hx with h | h
        · subst h
          by_cases hfin : (cycleScan cfg L (fl.set x.toNat false)
              (if fc = -1 then x else fc)).2.1.getD x.toNat false = true
          · exact absurd rfl (hmono x.toNat (ih.2.2.1 x.toNat hfin)).2
          · simpa using hfin
        · exact ih.2.2.2.2.1 x h hdx
      · by_cases hfc : fc = -1
        · subst hfc
          rw [if_pos rfl] at ih
          rw [if_pos rfl]
          rcases ih.2.2.2.2.2 with h | h
          · right
            rw [h]
            exact ⟨by simp, hd⟩
          · exact Or.inr ⟨List.mem_cons_of_mem _ h.1, h.2⟩
        · rw [if_neg hfc] at ih
          rw [if_neg hfc]
          rcases ih.2.2.2.2.2 with h | h
          · exact Or.inl h
          · exact Or.inr ⟨List.mem_cons_of_mem _ h.1, h.2⟩
    · have hstep : cycleScan cfg (p :: L) fl fc =
          (p :: (cycleScan cfg L fl fc).1, (cycleScan cfg L fl fc).2) := by
        rw [cycleScan, if_neg (by
          intro hc
          exact hd ⟨hc.1, hc.2⟩)]
      have ih := cycleScan_spec cfg L fl fc
        (fun p' hp' => hL p' (List.mem_cons_of_mem _ hp'))
      rw [hstep]
      refine ⟨?_, ih.2.1, ih.2.2.1, ih.2.2.2.1, ?_, ?_⟩
      · simp only
        rw [ih.1, List.filter_cons, if_pos (by simpa using hd)]
      · intro x hx hdx
        rcases List.mem_cons.mp hx with h | h
        · subst h
          exact absurd hdx hd
        · exact ih.2.2.2.2.1 x h hdx
      · rcases ih.2.2.2.2.2 with h | h
        · exact Or.inl h
        · exact Or.inr ⟨List.mem_cons_of_mem _ h.1, h.2⟩

theorem cycleFilter_inv (cfg : Config) (s : GenState) (hinv : Inv cfg s) :
    Inv cfg (cycleFilter cfg s) ∧ (cycleFilter cfg s).child = s.child ∧
    (cycleFilter cfg s).missing = s.missing := by
  obtain ⟨hmlen, hflen, hslen, hrids, hnn, hexact, h0, h1, h2⟩ := hinv
  have hL : ∀ p' ∈ s.runnable, p' = -1 ∨ 0 ≤ p' := by
    intro p' hp'
    rcases h1 p' hp' with h | ⟨hge, _, _⟩
    · exact Or.inl h
    · exact Or.inr hge
  have spec := cycleScan_spec cfg s.runnable s.is_runnable (-1) hL
  set r := cycleScan cfg s.runnable s.is_runnable (-1) with hrdef
  have hflagzero : ∀ pid, r.2.1.getD pid false = true → s.missing.getD pid 0 = 0 :=
    fun pid h => h0 pid (spec.2.2.1 pid h)
  have hrunflag : ∀ p ∈ r.1, p = -1 ∨ (0 ≤ p ∧ p.toNat < cfg.processes.length ∧
      r.2.1.getD p.toNat false = true) := by
    intro p hp
    rw [spec.1] at hp
    have hp' := List.mem_filter.mp hp
    have hnd : ¬ dropCycle cfg p := by simpa using hp'.2
    rcases h1 p hp'.1 with h | ⟨hge, hlt, hflag⟩
    · exact Or.inl h
    · refine Or.inr ⟨hge, hlt, ?_⟩
      rw [spec.2.2.2.1 p hge hnd]
      exact hflag
  have hflagrun : ∀ pid, r.2.1.getD pid false = true → (pid : Int) ∈ r.1 := by
    intro pid hf
    have hfl := spec.2.2.1 pid hf
    have hmem := h2 pid hfl
    have hnd : ¬ dropCycle cfg ((pid : Int)) := by
      intro hdx
      have := spec.2.2.2.2.1 (pid : Int) hmem hdx
      rw [Int.toNat_natCast] at this
      rw [this] at hf
      cases hf
    rw [spec.1]
    exact List.mem_filter.mpr ⟨hmem, by simpa using hnd⟩
  unfold cycleFilter
  rw [← hrdef]
  dsimp only
  by_cases hcond : r.2.2 ≠ -1 ∧ (r.1 = [] ∨ (r.1 = [-1] ∧ s.child.running = []))
  · rw [if_pos hcond]
    have hfc : r.2.2 ∈ s.runnable ∧ dropCycle cfg r.2.2 := by
      rcases spec.2.2.2.2.2 with h | h
      · exact absurd h hcond.1
      · exact h
    have hfcflag : 0 ≤ r.2.2 ∧ r.2.2.toNat < cfg.processes.length ∧
        s.is_runnable.getD r.2.2.toNat false = true := by
      rcases h1 r.2.2 hfc.1 with h | h
      · exact absurd h hfc.2.1
      · exact h
    have hfcmiss : s.missing.getD r.2.2.toNat 0 = 0 := h0 _ hfcflag.2.2
    have hfcitlt : r.2.2.toNat < r.2.1.length := by
      rw [spec.2.1, hflen]
      exact hfcflag.2.1
    refine ⟨⟨hmlen, by rw [List.length_set]; rw [spec.2.1, hflen], hslen, hrids, hnn,
      hexact, ?_, ?_, ?_⟩, rfl, rfl⟩
    · intro pid hf
      by_cases hpe : r.2.2.toNat = pid
      · rw [← hpe]
        exact hfcmiss
      · rw [getD_set_ne _ _ _ _ _ hpe] at hf
        exact hflagzero pid hf
    · intro p hp
      rcases List.mem_append.mp hp with hpl | hpr
      · rcases hrunflag p hpl with h | ⟨hge, hlt, hflag⟩
        · exact Or.inl h
        · refine Or.inr ⟨hge, hlt, ?_⟩
          by_cases hpe : r.2.2.toNat = p.toNat
          · rw [← hpe, getD_set_self _ _ _ _ hfcitlt]
          · rw [getD_set_ne _ _ _ _ _ hpe]
            exact hflag
      · have hp1 : p = r.2.2 := by simpa using hpr
        subst hp1
        refine Or.inr ⟨hfcflag.1, hfcflag.2.1, ?_⟩
        rw [getD_set_self _ _ _ _ hfcitlt]
    · intro pid hf
      by_cases hpe : r.2.2.toNat = pid
      · apply List.mem_append.mpr
        right
        have : (pid : Int) = r.2.2 := by
          have := hfcflag.1
          omega
        rw [this]
        simp
      · rw [getD_set_ne _ _ _ _ _ hpe] at hf
        exact List.mem_append.mpr (Or.inl (hflagrun pid hf))
  · rw [if_neg hcond]
    refine ⟨⟨hmlen, by rw [spec.2.1, hflen], hslen, hrids, hnn, hexact,
      hflagzero, hrunflag, hflagrun⟩, rfl, rfl⟩

theorem dhsScan_spec (cfg : Config) (over : Nat → Bool) :
    ∀ (L : List Int) (fl : List Bool) (nw : Int),
      (dhsScan cfg over L fl nw).1 = L.filter (fun p => ! dropHigh cfg over p) ∧
      (dhsScan cfg over L fl nw).2.1.length = fl.length ∧
      (∀ pid, (dhsScan cfg over L fl nw).2.1.getD pid false = true →
        fl.getD pid false = true) ∧
      (∀ p : Int, 0 ≤ p → dropHigh cfg over p = false →
        (dhsScan cfg over L fl nw).2.1.getD p.toNat false = fl.getD p.toNat false) ∧
      (∀ p : Int, p ∈ L → dropHigh cfg over p = true →
        (dhsScan cfg over L fl nw).2.1.getD p.toNat false = false) ∧
      ((dhsScan cfg over L fl nw).2.2 = nw ∨
        (0 ≤ (dhsScan cfg over L fl nw).2.2 ∧ (dhsScan cfg over L fl nw).2.2 ∈ L ∧
          fl.getD (dhsScan cfg over L fl nw).2.2.toNat false = true))
  | [], fl, nw => by
    refine ⟨by simp [dhsScan], rfl, fun pid h => h, fun p _ _ => rfl, ?_, Or.inl rfl⟩
    intro p hp
    cases hp
  | p :: L, fl, nw => by
    by_cases hneg : p < 0
    · have hstep : dhsScan cfg over (p :: L) fl nw =
          (p :: (dhsScan cfg over L fl nw).1, (dhsScan cfg over L fl nw).2) := by
        rw [dhsScan, if_pos hneg]
      have hdrop : dropHigh cfg over p = false := by
        unfold dropHigh
        rw [if_pos hneg]
      have ih := dhsScan_spec cfg over L fl nw
      rw [hstep]
      refine ⟨?_, ih.2.1, ih.2.2.1, ih.2.2.2.1, ?_, ?_⟩
      · simp only
        rw [ih.1, List.filter_cons, if_pos (by rw [hdrop]; rfl)]
      · intro x hx hdx
        rcases List.mem_cons.mp hx with h | h
        · subst h
          rw [hdrop] at hdx
          cases hdx
        · exact ih.2.2.2.2.1 x h hdx
      · rcases ih.2.2.2.2.2 with h | h
        · exact Or.inl h
        · exact Or.inr ⟨h.1, List.mem_cons_of_mem _ h.2.1, h.2.2⟩
    · push_neg at hneg
      set nw' := if nw = -1 ∧ fl.getD p.toNat false then p else nw with hnwdef
      have hnwfact : nw' = nw ∨ (0 ≤ nw' ∧ nw' = p ∧ fl.getD nw'.toNat false = true) := by
        rw [hnwdef]
        by_cases hcc : nw = -1 ∧ fl.getD p.toNat false
        · rw [if_pos hcc]
          exact Or.inr ⟨hneg, rfl, hcc.2⟩
        · rw [if_neg hcc]
          exact Or.inl rfl
      by_cases hd : dropHigh cfg over p = true
      · have hstep : dhsScan cfg over (p :: L) fl nw =
            dhsScan cfg over L (fl.set p.toNat false) nw' := by
          rw [dhsScan, if_neg (by omega), ← hnwdef, if_pos hd]
        have ih := dhsScan_spec cfg over L (fl.set p.toNat false) nw'
        rw [hstep]
        have hmono : ∀ pid, (fl.set p.toNat false).getD pid false = true →
            fl.getD pid false = true ∧ p.toNat ≠ pid := by
          intro pid h'
          by_cases hpe : p.toNat = pid
          · subst hpe
            have hlt := getD_true_lt _ _ h'
            rw [List.length_set] at hlt
            rw [getD_set_self _ _ _ _ hlt] at h'
            cases h'
          · rw [getD_set_ne _ _ _ _ _ hpe] at h'
            exact ⟨h', hpe⟩
        refine ⟨?_, ?_, ?_, ?_, ?_, ?_⟩
        · rw [ih.1, List.filter_cons, if_neg (by rw [hd]; simp)]
        · rw [ih.2.1, List.length_set]
        · intro pid h
          exact (hmono pid (ih.2.2.1 pid h)).1
        · intro x hx hnd
          have hne : p.toNat ≠ x.toNat := by
            intro hc
            have : p = x := by omega
            rw [this] at hd
            rw [hd] at hnd
            cases hnd
          rw [ih.2.2.2.1 x hx hnd, getD_set_ne _ _ _ _ _ hne]
        · intro x hx hdx
          rcases List.mem_cons.mp hx with h | h
          · subst h
            by_cases hfin : (dhsScan cfg over L (fl.set x.toNat false) nw').2.1.getD
                x.toNat false = true
            · exact absurd rfl (hmono x.toNat (ih.2.2.1 x.toNat hfin)).2
            · simpa using hfin
          · exact ih.2.2.2.2.1 x h hdx
        · rcases ih.2.2.2.2.2 with h | h
          · rw [h]
            rcases hnwfact with h' | h'
            · exact Or.inl h'
            · exact Or.inr ⟨h'.1, by rw [h'.2.1]; simp, h'.2.2⟩
          · refine Or.inr ⟨h.1, List.mem_cons_of_mem _ h.2.1, (hmono _ h.2.2).1⟩
      · have hstep : dhsScan cfg over (p :: L) fl nw =
            (p :: (dhsScan cfg over L fl nw').1, (dhsScan cfg over L fl nw').2) := by
          rw [dhsScan, if_neg (by omega), ← hnwdef, if_neg hd]
        have ih := dhsScan_spec cfg over L fl nw'
        rw [hstep]
        refine ⟨?_, ih.2.1, ih.2.2.1, ih.2.2.2.1, ?_, ?_⟩
        · simp only
          rw [ih.1, List.filter_cons, if_pos (by
            simp only [Bool.not_eq_true] at hd
            rw [hd]
            rfl)]
        · intro x hx hdx
          rcases List.mem_cons.mp hx with h | h
          · subst h
            rw [hdx] at hd
            exact absurd rfl hd
          · exact ih.2.2.2.2.1 x h hdx
        · rcases ih.2.2.2.2.2 with h | h
          · rw [h]
            rcases hnwfact with h' | h'
            · exact Or.inl h'
            · exact Or.inr ⟨h'.1, by rw [h'.2.1]; simp, h'.2.2⟩
          · exact Or.inr ⟨h.1, List.mem_cons_of_mem _ h.2.1, h.2.2⟩

theorem delete_high_inv (cfg : Config) (s : GenState)
    (hflen : s.is_runnable.length = cfg.processes.length)
    (h0 : FlagImpliesZero s) (h1 : RunnableFlagged cfg s)
    (h2 : FlaggedRunnable s) :
    (delete_high_stock_processes cfg s.child s.runnable s.is_runnable).2.length =
      cfg.processes.length ∧
    (∀ pid, (delete_high_stock_processes cfg s.child s.runnable
        s.is_runnable).2.getD pid false = true → s.missing.getD pid 0 = 0) ∧
    (∀ p ∈ (delete_high_stock_processes cfg s.child s.runnable s.is_runnable).1,
      p = -1 ∨ (0 ≤ p ∧ p.toNat < cfg.processes.length ∧
        (delete_high_stock_processes cfg s.child s.runnable
          s.is_runnable).2.getD p.toNat false = true)) ∧
    (∀ pid, (delete_high_stock_processes cfg s.child s.runnable
        s.is_runnable).2.getD pid false = true →
      (pid : Int) ∈ (delete_high_stock_processes cfg s.child s.runnable
        s.is_runnable).1) := by
  unfold delete_high_stock_processes
  by_cases he1 : cfg.maxStocks.limiting_item = ""
  · rw [if_pos he1]
    exact ⟨hflen, h0, h1, h2⟩
  · rw [if_neg he1]
    by_cases he2 : s.runnable = [] ∨ s.runnable = [-1]
    · rw [if_pos he2]
      exact ⟨hflen, h0, h1, h2⟩
    · rw [if_neg he2]
      dsimp only
      set ov := dhsOver cfg s.child with hovdef
      have spec := dhsScan_spec cfg ov s.runnable s.is_runnable (-1)
      set r := dhsScan cfg ov s.runnable s.is_runnable (-1) with hrdef
      have hflagzero : ∀ pid, r.2.1.getD pid false = true →
          s.missing.getD pid 0 = 0 :=
        fun pid h => h0 pid (spec.2.2.1 pid h)
      have hrunflag : ∀ p ∈ r.1, p = -1 ∨ (0 ≤ p ∧
          p.toNat < cfg.processes.length ∧ r.2.1.getD p.toNat false = true) := by
        intro p hp
        rw [spec.1] at hp
        have hp' := List.mem_filter.mp hp
        have hnd : dropHigh cfg ov p = false := by
          have := hp'.2
          simp only [Bool.not_eq_true'] at this
          exact this
        rcases h1 p hp'.1 with h | ⟨hge, hlt, hflag⟩
        · exact Or.inl h
        · refine Or.inr ⟨hge, hlt, ?_⟩
          rw [spec.2.2.2.1 p hge hnd]
          exact hflag
      have hflagrun : ∀ pid, r.2.1.getD pid false = true → (pid : Int) ∈ r.1 := by
        intro pid hf
        have hfl := spec.2.2.1 pid hf
        have hmem := h2 pid hfl
        have hnd : dropHigh cfg ov (pid : Int) = false := by
          by_cases hdx : dropHigh cfg ov (pid : Int) = true
          · have := spec.2.2.2.2.1 (pid : Int) hmem hdx
            rw [Int.toNat_natCast] at this
            rw [this] at hf
            cases hf
          · simpa using hdx
        rw [spec.1]
        refine List.mem_filter.mpr ⟨hmem, ?_⟩
        rw [hnd]
        rfl
      by_cases hcond : s.child.running = [] ∧ r.2.2 ≠ -1 ∧ (r.1 = [] ∨ r.1 = [-1])
      · rw [if_pos hcond]
        have hnwfact : 0 ≤ r.2.2 ∧ r.2.2 ∈ s.runnable ∧
            s.is_runnable.getD r.2.2.toNat false = true := by
          rcases spec.2.2.2.2.2 with h | h
          · exact absurd h hcond.2.1
          · exact h
        have hnwflag : 0 ≤ r.2.2 ∧ r.2.2.toNat < cfg.processes.length ∧
            s.is_runnable.getD r.2.2.toNat false = true := by
          rcases h1 r.2.2 hnwfact.2.1 with h | h
          · exfalso
            rw [h] at hnwfact
            have := hnwfact.1
            omega
          · exact h
        have hnwmiss : s.missing.getD r.2.2.toNat 0 = 0 := h0 _ hnwflag.2.2
        have hnwlt : r.2.2.toNat < r.2.1.length := by
          rw [spec.2.1, hflen]
          exact hnwflag.2.1
        by_cases hflg : ¬ r.2.1.getD r.2.2.toNat false
        · rw [if_pos hflg]
          refine ⟨by rw [List.length_set, spec.2.1, hflen], ?_, ?_, ?_⟩
          · intro pid hf
            by_cases hpe : r.2.2.toNat = pid
            · rw [← hpe]
              exact hnwmiss
            · rw [getD_set_ne _ _ _ _ _ hpe] at hf
              exact hflagzero pid hf
          · intro p hp
            rcases List.mem_append.mp hp with hpl | hpr
            · rcases hrunflag p hpl with h | ⟨hge, hlt, hflag⟩
              · exact Or.inl h
              · refine Or.inr ⟨hge, hlt, ?_⟩
                by_cases hpe : r.2.2.toNat = p.toNat
                · rw [← hpe, getD_set_self _ _ _ _ hnwlt]
                · rw [getD_set_ne _ _ _ _ _ hpe]
                  exact hflag
            · have hp1 : p = r.2.2 := by simpa using hpr
              subst hp1
              refine Or.inr ⟨hnwflag.1, hnwflag.2.1, ?_⟩
              rw [getD_set_self _ _ _ _ hnwlt]
          · intro pid hf
            by_cases hpe : r.2.2.toNat = pid
            · apply List.mem_append.mpr
              right
              have : (pid : Int) = r.2.2 := by
                have := hnwflag.1
                omega
              rw [this]
              simp
            · rw [getD_set_ne _ _ _ _ _ hpe] at hf
              exact List.mem_append.mpr (Or.inl (hflagrun pid hf))
        · rw [if_neg hflg]
          exact ⟨by rw [spec.2.1, hflen], hflagzero, hrunflag, hflagrun⟩
      · rw [if_neg hcond]
        exact ⟨by rw [spec.2.1, hflen], hflagzero, hrunflag, hflagrun⟩

theorem capFilter_inv (cfg : Config) (s : GenState) (hinv : Inv cfg s) :
    Inv cfg (capFilter cfg s) ∧ (capFilter cfg s).child = s.child ∧
    (capFilter cfg s).missing = s.missing := by
  obtain ⟨hmlen, hflen, hslen, hrids, hnn, hexact, h0, h1, h2⟩ := hinv
  have hd := delete_high_inv cfg s hflen h0 h1 h2
  exact ⟨⟨hmlen, hd.1, hslen, hrids, hnn, hexact, hd.2.1, hd.2.2.1, hd.2.2.2⟩,
    rfl, rfl⟩

theorem reconcileStep_eq_add (s : GenState) (j : Nat) :
    reconcileStep s j = add_runnable j s := rfl

theorem add_runnable_flag_mono (j : Nat) (s : GenState) (pid : Nat)
    (h : s.is_runnable.getD pid false = true) :
    (add_runnable j s).is_runnable.getD pid false = true := by
  unfold add_runnable
  split
  · by_cases hpe : j = pid
    · subst hpe
      have hlt := getD_true_lt _ _ h
      rw [getD_set_self _ _ _ _ hlt]
    · rw [getD_set_ne _ _ _ _ _ hpe]
      exact h
  · exact h

theorem reconcileFold_inv (cfg : Config) :
    ∀ (J : List Nat) (s : GenState),
      (∀ j ∈ J, j < cfg.processes.length) →
      s.is_runnable.length = cfg.processes.length →
      FlagImpliesZero s → RunnableFlagged cfg s → FlaggedRunnable s →
      (J.foldl reconcileStep s).child = s.child ∧
      (J.foldl reconcileStep s).missing = s.missing ∧
      (J.foldl reconcileStep s).is_runnable.length = cfg.processes.length ∧
      FlagImpliesZero (J.foldl reconcileStep s) ∧
      RunnableFlagged cfg (J.foldl reconcileStep s) ∧
      FlaggedRunnable (J.foldl reconcileStep s) ∧
      (∀ pid, s.is_runnable.getD pid false = true →
        (J.foldl reconcileStep s).is_runnable.getD pid false = true) ∧
      (∀ j ∈ J, s.missing.getD j 0 = 0 →
        (J.foldl reconcileStep s).is_runnable.getD j false = true)
  | [], s, _, hflen, h0, h1, h2 => by
    refine ⟨rfl, rfl, hflen, h0, h1, h2, fun pid h => h, ?_⟩
    intro j hj
    cases hj
  | j :: J, s, hJ, hflen, h0, h1, h2 => by
    rw [List.foldl_cons, reconcileStep_eq_add]
    have hadd := add_runnable_inv cfg j s (hJ j (by simp)) hflen h0 h1 h2
    have ih := reconcileFold_inv cfg J (add_runnable j s)
      (fun x hx => hJ x (List.mem_cons_of_mem _ hx))
      (by rw [hadd.2.2.1]; exact hflen)
      hadd.2.2.2.1 hadd.2.2.2.2.1 hadd.2.2.2.2.2
    refine ⟨by rw [ih.1, hadd.1], by rw [ih.2.1, hadd.2.1], ih.2.2.1,
      ih.2.2.2.1, ih.2.2.2.2.1, ih.2.2.2.2.2.1, ?_, ?_⟩
    · intro pid h
      exact ih.2.2.2.2.2.2.1 pid (add_runnable_flag_mono j s pid h)
    · intro x hx hm
      rcases List.mem_cons.mp hx with h | h
      · subst h
        apply ih.2.2.2.2.2.2.1
        unfold add_runnable
        split
        · have hlt : x < s.is_runnable.length := by
            rw [hflen]
            exact hJ x (by simp)
          rw [getD_set_self _ _ _ _ hlt]
        · next hcond =>
          by_contra hne
          exact hcond ⟨hne, hm⟩
      · apply ih.2.2.2.2.2.2.2 x h
        rw [hadd.2.1]
        exact hm

theorem reconcile_inv (cfg : Config) (s : GenState) (hinv : Inv cfg s) :
    Inv cfg (reconcile s) ∧ (reconcile s).child = s.child ∧
    (reconcile s).missing = s.missing ∧
    (∀ pid, pid < cfg.processes.length → s.missing.getD pid 0 = 0 →
      (reconcile s).is_runnable.getD pid false = true) := by
  obtain ⟨hmlen, hflen, hslen, hrids, hnn, hexact, h0, h1, h2⟩ := hinv
  have hJ : ∀ j ∈ List.range s.missing.length, j < cfg.processes.length := by
    intro j hj
    rw [← hmlen]
    exact List.mem_range.mp hj
  have hfold := reconcileFold_inv cfg (List.range s.missing.length) s hJ hflen h0 h1 h2
  unfold reconcile
  refine ⟨⟨by rw [hfold.2.1]; exact hmlen, hfold.2.2.1, ?_, ?_, ?_, ?_,
    hfold.2.2.2.1, hfold.2.2.2.2.1, hfold.2.2.2.2.2.1⟩, hfold.1, hfold.2.1, ?_⟩
  · rw [hfold.1]
    exact hslen
  · rw [hfold.1]
    exact hrids
  · rw [hfold.1]
    exact hnn
  · intro pid hpid
    rw [hfold.2.1, hfold.1]
    exact hexact pid hpid
  · intro pid hpid hm
    exact hfold.2.2.2.2.2.2.2 pid (by rw [List.mem_range, hmlen]; exact hpid) hm

theorem mkInitialStocks_length (cfg : Config) :
    (mkInitialStocks cfg).length = cfg.item_to_id.length := by
  unfold mkInitialStocks
  have : ∀ (L : List (String × Int)) (st : List Int),
      (L.foldl (fun st nq =>
        match alookup cfg.item_to_id nq.1 with
        | some id => st.set id nq.2
        | none => st) st).length = st.length := by
    intro L
    induction L with
    | nil => intro st; rfl
    | cons nq L ih =>
      intro st
      rw [List.foldl_cons]
      rcases halk : alookup cfg.item_to_id nq.1 with _ | id
      · simp only [halk]
        exact ih st
      · simp only [halk]
        rw [ih (st.set id nq.2), List.length_set]
  rw [this]
  exact List.length_replicate _ _

theorem mkInitialStocks_nonneg (cfg : Config)
    (h : ∀ nq ∈ cfg.initialStocks, 0 ≤ nq.2) :
    ∀ i, 0 ≤ (mkInitialStocks cfg).getD i 0 := by
  unfold mkInitialStocks
  have : ∀ (L : List (String × Int)) (st : List Int),
      (∀ i, 0 ≤ st.getD i 0) → (∀ nq ∈ L, 0 ≤ nq.2) →
      ∀ i, 0 ≤ (L.foldl (fun st nq =>
        match alookup cfg.item_to_id nq.1 with
        | some id => st.set id nq.2
        | none => st) st).getD i 0 := by
    intro L
    induction L with
    | nil => intro st hst _ i; exact hst i
    | cons nq L ih =>
      intro st hst hL i
      rw [List.foldl_cons]
      rcases halk : alookup cfg.item_to_id nq.1 with _ | id
      · simp only [halk]
        exact ih st hst (fun x hx => hL x (List.mem_cons_of_mem _ hx)) i
      · simp only [halk]
        apply ih (st.set id nq.2) ?_ (fun x hx => hL x (List.mem_cons_of_mem _ hx)) i
        intro j
        by_cases hij : id = j
        · subst hij
          by_cases hlt : id < st.length
          · rw [getD_set_self _ _ _ _ hlt]
            exact hL nq (by simp)
          · push_neg at hlt
            rw [List.getD_eq_getElem?_getD, List.getElem?_eq_none (by simpa using hlt)]
            rfl
        · rw [getD_set_ne _ _ _ _ _ hij]
          exact hst j
  apply this _ _ ?_ h
  intro i
  rw [List.getD_eq_getElem?_getD]
  rcases hx : (List.replicate cfg.item_to_id.length (0 : Int))[i]? with _ | v
  · rfl
  · have := List.getElem?_mem hx
    have := List.eq_of_mem_replicate this
    subst this
    rfl

theorem getD_map_lt {α β : Type} (l : List α) (f : α → β) (i : Nat) (d : β)
    (d' : α) (h : i < l.length) : (l.map f).getD i d = f (l.getD i d') := by
  rw [List.getD_eq_getElem?_getD, List.getElem?_map, List.getElem?_eq_getElem h,
    List.getD_eq_getElem?_getD, List.getElem?_eq_getElem h]
  rfl

theorem genInitPre_inv (cfg : Config) (hwf : ConfigWF cfg) :
    Inv cfg (genInitPre cfg) := by
  unfold genInitPre
  set stocks0 := mkInitialStocks cfg with hst
  set missing0 : List Int :=
    cfg.processes.map (fun p => countMissing stocks0 p.needs_by_id) with hm0
  set n := cfg.processes.length with hn
  have hm0len : missing0.length = n := by rw [hm0]; simp [hn]
  have hm0get : ∀ pid, pid < n →
      missing0.getD pid 0 =
        countMissing stocks0 (cfg.processes.getD pid default).needs_by_id := by
    intro pid hpid
    rw [hm0]
    exact getD_map_lt _ _ pid 0 default (hn ▸ hpid)
  have hrg : ∀ pid, pid < n → (List.range n).getD pid 0 = pid := by
    intro pid hpid
    rw [List.getD_eq_getElem?_getD, List.getElem?_range hpid]
    rfl
  have hf0get : ∀ pid, pid < n →
      ((List.range n).map
        (fun pid => decide (missing0.getD pid 0 = 0))).getD pid false =
        decide (missing0.getD pid 0 = 0) := by
    intro pid hpid
    rw [getD_map_lt _ _ pid false 0 (by simpa using hpid), hrg pid hpid]
  refine ⟨hm0len, by simp, mkInitialStocks_length cfg, ?_, ?_, ?_, ?_, ?_, ?_⟩
  · intro rp hrp
    cases hrp
  · exact mkInitialStocks_nonneg cfg hwf.2.2
  · intro pid hpid
    exact hm0get pid hpid
  · intro pid hflag
    have hpid : pid < n := by
      have := getD_true_lt _ _ hflag
      simpa using this
    rw [hf0get pid hpid] at hflag
    exact of_decide_eq_true hflag
  · intro p hp
    rw [List.mem_append] at hp
    rcases hp with hpl | hpr
    · rw [List.mem_map] at hpl
      obtain ⟨pid, hpid, hcast⟩ := hpl
      rw [List.mem_filter] at hpid
      have hpidlt : pid < n := List.mem_range.mp hpid.1
      refine Or.inr ⟨by omega, ?_, ?_⟩
      · rw [← hcast, Int.toNat_natCast]
        exact hpidlt
      · rw [← hcast, Int.toNat_natCast, hf0get pid hpidlt]
        exact hpid.2
    · exact Or.inl (by simpa using hpr)
  · intro pid hflag
    have hpid : pid < n := by
      have := getD_true_lt _ _ hflag
      simpa using this
    rw [hf0get pid hpid] at hflag
    apply List.mem_append.mpr
    left
    apply List.mem_map.mpr
    refine ⟨pid, ?_, rfl⟩
    rw [List.mem_filter]
    exact ⟨List.mem_range.mpr hpid, hflag⟩

theorem genInit_inv (cfg : Config) (hwf : ConfigWF cfg) : Inv cfg (genInit cfg) :=
  (capFilter_inv cfg (genInitPre cfg) (genInitPre_inv cfg hwf)).1

theorem genStep_inv (cfg : Config) (s : GenState) (c : Int) (hwf : ConfigWF cfg)
    (hinv : Inv cfg s) (hc : validChoiceB cfg s c = true) :
    Inv cfg (genStep cfg c s) := by
  have hcf := (cycleFilter_inv cfg s hinv).1
  have hc' : c = -1 ∨
      (0 ≤ c ∧ (cycleFilter cfg s).is_runnable.getD c.toNat false = true) := by
    unfold validChoiceB at hc
    simpa using of_decide_eq_true hc
  have happ := apply_process_inv cfg (cycleFilter cfg s) c hwf hc' hcf
  have hrec := (reconcile_inv cfg _ happ).1
  exact (capFilter_inv cfg _ hrec).1

theorem genRunFold_inv (cfg : Config) (hwf : ConfigWF cfg) :
    ∀ (cs : List Int) (s : GenState), Inv cfg s →
      validChoicesB cfg s cs = true →
      Inv cfg (cs.foldl (fun s c => genStep cfg c s) s)
  | [], s, hinv, _ => hinv
  | c :: cs, s, hinv, hv => by
    rw [validChoicesB, Bool.and_eq_true] at hv
    rw [List.foldl_cons]
    exact genRunFold_inv cfg hwf cs (genStep cfg c s)
      (genStep_inv cfg s c hwf hinv hv.1) hv.2

theorem genRun_inv (cfg : Config) (cs : List Int) (hwf : ConfigWF cfg)
    (hv : validChoicesB cfg (genInit cfg) cs = true) :
    Inv cfg (genRun cfg cs) :=
  genRunFold_inv cfg hwf cs (genInit cfg) (genInit_inv cfg hwf) hv

/-- Witness for claim C2 at a concrete launch. -/
theorem launch_effect_witness :
    0 < exConfig.processes.length ∧
    (apply_process exConfig ((0 : Nat) : Int) (genInit exConfig)).child.trace =
      (genInit exConfig).child.trace ++
        [⟨(genInit exConfig).child.cycle, ((0 : Nat) : Int)⟩] :=
  ⟨by decide,
    (launch_effect exConfig (genInit exConfig) 0 (by decide) (by decide)
      (by decide)).2.1⟩

/-- Witness for claim C3 at a concrete wait. -/
theorem wait_effect_witness :
    exStateWait.child.running = ⟨2, 0⟩ :: [] ∧
    (apply_process exConfig (-1) exStateWait).child.cycle =
      (⟨2, 0⟩ : RunningProcess).finish ∧
    (apply_process exConfig (-1) exStateWait).child.trace =
      exStateWait.child.trace :=
  ⟨rfl,
    (wait_effect exConfig exStateWait ⟨2, 0⟩ [] rfl (by decide) (by decide)).1,
    (wait_effect exConfig exStateWait ⟨2, 0⟩ [] rfl (by decide) (by decide)).2.2.1⟩

/-- Counterexample to claim C1 as stated: with a process whose need list
repeats an item, a launch taken while the process is marked runnable drives
the stock negative (4 - 3 - 3 = -2), because the missing counter checks each
need entry against the stock separately but the launch subtracts them all. -/
theorem generator_stock_negative_counterexample :
    validChoicesB cfgC1 (genInit cfgC1) [0] = true ∧
    (genRun cfgC1 [0]).child.stocks_by_id.getD 0 0 = -2 ∧
    ¬ (0 ≤ (genRun cfgC1 [0]).child.stocks_by_id.getD 0 0) := by
  refine ⟨by decide, by decide, by decide⟩

/-- Claim C1 (amended): in a well-formed configuration, whose processes have
pairwise-distinct need items and positive quantities as the data model
requires, every stock is nonnegative after any advance of any
candidate-generation run, both at the end of every step and immediately after
the apply. -/
theorem generator_stocks_nonneg (cfg : Config) (cs : List Int) (c : Int)
    (hwf : ConfigWF cfg)
    (hv : validChoicesB cfg (genInit cfg) cs = true)
    (hc : validChoiceB cfg (genRun cfg cs) c = true) :
    (∀ i, 0 ≤ (genRun cfg cs).child.stocks_by_id.getD i 0) ∧
    (∀ i, 0 ≤ (apply_process cfg c
      (cycleFilter cfg (genRun cfg cs))).child.stocks_by_id.getD i 0) := by
  have hinv := genRun_inv cfg cs hwf hv
  have hcf := (cycleFilter_inv cfg _ hinv).1
  have hc' : c = -1 ∨ (0 ≤ c ∧
      (cycleFilter cfg (genRun cfg cs)).is_runnable.getD c.toNat false = true) := by
    unfold validChoiceB at hc
    simpa using of_decide_eq_true hc
  have happ := apply_process_inv cfg (cycleFilter cfg (genRun cfg cs)) c hwf hc' hcf
  exact ⟨hinv.nonneg, happ.nonneg⟩

/-- Witness for the amended claim C1 at a concrete run. -/
theorem generator_stocks_nonneg_witness :
    ConfigWF exConfig ∧
    validChoicesB exConfig (genInit exConfig) [0] = true ∧
    0 ≤ (genRun exConfig [0]).child.stocks_by_id.getD 0 0 :=
  ⟨by decide, by decide,
    (generator_stocks_nonneg exConfig [0] (-1) (by decide) (by decide)
      (by decide)).1 0⟩

/-- Counterexample to claim C4 as stated: after launching `buy` three times
and waiting, the stock of `mat` is 6, over its cap 5, so the cap filter
removes `buy` from the runnable list although its missing counter is zero;
after the filtering the claimed iff fails. -/
theorem missing_iff_runnable_counterexample :
    ConfigWF cfgC4 ∧
    validChoicesB cfgC4 (genInit cfgC4) [0, 0, 0, -1] = true ∧
    (genRun cfgC4 [0, 0, 0, -1]).missing.getD 0 0 = 0 ∧
    ¬ ((0 : Int) ∈ (genRun cfgC4 [0, 0, 0, -1]).runnable) := by
  refine ⟨by decide, by decide, by decide, by decide⟩

/-- Claim C4 (amended): after any advance of a candidate-generation run and
the reconciliation scan that follows it, the missing counter of a process is
zero exactly when the process is in the runnable list; the subsequent cap
filtering can remove processes with a zero missing counter, so after it only
the right-to-left implication (in the list, hence zero missing) holds. -/
theorem missing_iff_runnable (cfg : Config) (cs : List Int) (c : Int)
    (hwf : ConfigWF cfg)
    (hv : validChoicesB cfg (genInit cfg) cs = true)
    (hc : validChoiceB cfg (genRun cfg cs) c = true) :
    (∀ pid, pid < cfg.processes.length →
      ((reconcile (apply_process cfg c
          (cycleFilter cfg (genRun cfg cs)))).missing.getD pid 0 = 0 ↔
        (pid : Int) ∈ (reconcile (apply_process cfg c
          (cycleFilter cfg (genRun cfg cs)))).runnable)) ∧
    (∀ p ∈ (genStep cfg c (genRun cfg cs)).runnable, p ≠ -1 →
      (genStep cfg c (genRun cfg cs)).missing.getD p.toNat 0 = 0) := by
  have hinv := genRun_inv cfg cs hwf hv
  have hcf := (cycleFilter_inv cfg _ hinv).1
  have hc' : c = -1 ∨ (0 ≤ c ∧
      (cycleFilter cfg (genRun cfg cs)).is_runnable.getD c.toNat false = true) := by
    unfold validChoiceB at hc
    simpa using of_decide_eq_true hc
  have happ := apply_process_inv cfg (cycleFilter cfg (genRun cfg cs)) c hwf hc' hcf
  have hrec := reconcile_inv cfg _ happ
  constructor
  · intro pid hpid
    constructor
    · intro hm
      have hflag : (reconcile (apply_process cfg c
          (cycleFilter cfg (genRun cfg cs)))).is_runnable.getD pid false = true := by
        apply hrec.2.2.2 pid hpid
        rw [← hrec.2.2.1]
        exact hm
      exact hrec.1.flag_run pid hflag
    · intro hmem
      rcases hrec.1.run_flag _ hmem with h | ⟨_, _, hflag⟩
      · exfalso
        omega
      · have := hrec.1.flag_zero _ hflag
        rw [Int.toNat_natCast] at this
        exact this
  · intro p hp hne
    have hstep : genStep cfg c (genRun cfg cs) =
        capFilter cfg (reconcile (apply_process cfg c
          (cycleFilter cfg (genRun cfg cs)))) := rfl
    rw [hstep] at hp ⊢
    have hcap := (capFilter_inv cfg _ hrec.1).1
    rcases hcap.run_flag p hp with h | ⟨_, _, hflag⟩
    · exact absurd h hne
    · exact hcap.flag_zero _ hflag

/-- Witness for the amended claim C4 at a concrete run. -/
theorem missing_iff_runnable_witness :
    ConfigWF exConfig ∧
    validChoicesB exConfig (genInit exConfig) [0] = true ∧
    ((reconcile (apply_process exConfig (-1)
        (cycleFilter exConfig (genRun exConfig [0])))).missing.getD 0 0 = 0 ↔
      ((0 : Nat) : Int) ∈ (reconcile (apply_process exConfig (-1)
        (cycleFilter exConfig (genRun exConfig [0])))).runnable) :=
  ⟨by decide, by decide,
    (missing_iff_runnable exConfig [0] (-1) (by decide) (by decide)
      (by decide)).1 0 (by decide)⟩

theorem dropHigh_of_neg (cfg : Config) (over : Nat → Bool) (p : Int)
    (h : p < 0) : dropHigh cfg over p = false := by
  unfold dropHigh
  rw [if_pos h]

theorem dropHigh_of_no_results (cfg : Config) (over : Nat → Bool) (p : Int)
    (h : ¬ p < 0)
    (hres : (cfg.processes.getD p.toNat default).results_by_id = []) :
    dropHigh cfg over p = false := by
  unfold dropHigh
  rw [if_neg h]
  show (if (cfg.processes.getD p.toNat default).results_by_id = [] then false
    else (cfg.processes.getD p.toNat default).results_by_id.all
      (fun iq => over iq.1)) = false
  rw [if_pos hres]

theorem dhsScan_nw_of_ne (cfg : Config) (over : Nat → Bool) :
    ∀ (L : List Int) (fl : List Bool) (nw : Int), nw ≠ -1 →
      (dhsScan cfg over L fl nw).2.2 = nw
  | [], _, _, _ => rfl
  | p :: L, fl, nw, h => by
    by_cases hneg : p < 0
    · have hstep : dhsScan cfg over (p :: L) fl nw =
          (p :: (dhsScan cfg over L fl nw).1, (dhsScan cfg over L fl nw).2) := by
        rw [dhsScan, if_pos hneg]
      rw [hstep]
      exact dhsScan_nw_of_ne cfg over L fl nw h
    · set nw' := if nw = -1 ∧ fl.getD p.toNat false then p else nw with hnwdef
      have hnwe : nw' = nw := by
        rw [hnwdef, if_neg (fun hc => h hc.1)]
      by_cases hd : dropHigh cfg over p = true
      · have hstep : dhsScan cfg over (p :: L) fl nw =
            dhsScan cfg over L (fl.set p.toNat false) nw' := by
          rw [dhsScan, if_neg (by omega), ← hnwdef, if_pos hd]
        rw [hstep, hnwe]
        exact dhsScan_nw_of_ne cfg over L (fl.set p.toNat false) nw h
      · have hstep : dhsScan cfg over (p :: L) fl nw =
            (p :: (dhsScan cfg over L fl nw').1, (dhsScan cfg over L fl nw').2) := by
          rw [dhsScan, if_neg (by omega), ← hnwdef, if_neg hd]
        rw [hstep, hnwe]
        exact dhsScan_nw_of_ne cfg over L fl nw h

theorem firstNonWait_eq : ∀ L : List Int,
    firstNonWait L = -1 ∨ (0 ≤ firstNonWait L ∧ firstNonWait L ∈ L)
  | [] => Or.inl rfl
  | p :: L => by
    by_cases hneg : p < 0
    · rw [firstNonWait, if_pos hneg]
      rcases firstNonWait_eq L with h | h
      · exact Or.inl h
      · exact Or.inr ⟨h.1, List.mem_cons_of_mem _ h.2⟩
    · rw [firstNonWait, if_neg hneg]
      exact Or.inr ⟨by omega, List.mem_cons_self _ _⟩

theorem dhsScan_nw_first (cfg : Config) (over : Nat → Bool) :
    ∀ (L : List Int) (fl : List Bool),
      (∀ p ∈ L, 0 ≤ p → fl.getD p.toNat false = true) →
      (dhsScan cfg over L fl (-1)).2.2 = firstNonWait L
  | [], _, _ => rfl
  | p :: L, fl, h => by
    by_cases hneg : p < 0
    · have hstep : dhsScan cfg over (p :: L) fl (-1) =
          (p :: (dhsScan cfg over L fl (-1)).1, (dhsScan cfg over L fl (-1)).2) := by
        rw [dhsScan, if_pos hneg]
      rw [hstep, firstNonWait, if_pos hneg]
      exact dhsScan_nw_first cfg over L fl
        (fun q hq h0 => h q (List.mem_cons_of_mem _ hq) h0)
    · have hflp : fl.getD p.toNat false = true :=
        h p (List.mem_cons_self _ _) (by omega)
      set nw' := if (-1 : Int) = -1 ∧ fl.getD p.toNat false then p else -1 with hnwdef
      have hnwp : nw' = p := by
        rw [hnwdef, if_pos ⟨rfl, hflp⟩]
      have hpne : p ≠ -1 := by omega
      by_cases hd : dropHigh cfg over p = true
      · have hstep : dhsScan cfg over (p :: L) fl (-1) =
            dhsScan cfg over L (fl.set p.toNat false) nw' := by
          rw [dhsScan, if_neg (by omega), ← hnwdef, if_pos hd]
        rw [hstep, hnwp, firstNonWait, if_neg hneg]
        exact dhsScan_nw_of_ne cfg over L (fl.set p.toNat false) p hpne
      · have hstep : dhsScan cfg over (p :: L) fl (-1) =
            (p :: (dhsScan cfg over L fl nw').1, (dhsScan cfg over L fl nw').2) := by
          rw [dhsScan, if_neg (by omega), ← hnwdef, if_neg hd]
        rw [hstep, hnwp, firstNonWait, if_neg hneg]
        exact dhsScan_nw_of_ne cfg over L fl p hpne

/-- Counterexample to claim C5 as stated: in the factor regime a negative
factor means no cap in the code (guard `stock_factor >= 0.0`), while the
claim formula `stocks[i] > limiting * factor[i]` classifies the item as over
cap; with factor -2 and limiting stock 0 the code keeps process 0 although
every one of its result items is over cap per the claim formula. -/
theorem cap_filter_formula_counterexample :
    cfgC5.maxStocks.limiting_item ≠ "" ∧
    (cfgC5.processes.getD 0 default).results_by_id ≠ [] ∧
    (∀ iq ∈ (cfgC5.processes.getD 0 default).results_by_id,
      specOverCap cfgC5 candC5 iq.1 = true) ∧
    (delete_high_stock_processes cfgC5 candC5 [0, -1] [true, false]).1 =
      [0, -1] := by
  refine ⟨by decide, by decide, ?_, by decide⟩
  intro iq hiq
  rw [show (cfgC5.processes.getD 0 default).results_by_id =
    [((1 : Nat), (1 : Int))] from rfl] at hiq
  have h1 : iq = ((1 : Nat), (1 : Int)) := by simpa using hiq
  subst h1
  show specOverCap cfgC5 candC5 1 = true
  have hls : dhsLimitingStock cfgC5 candC5 = 0 := by decide
  unfold specOverCap
  rw [if_pos (show cfgC5.maxStocks.limiting_initial_stock = -1 by decide)]
  rw [decide_eq_true_eq, hls]
  rw [show cfgC5.maxStocks.factor_by_id.getD 1 (-1) = -2 from rfl]
  rw [show candC5.stocks_by_id.getD 1 0 = 1 from rfl]
  norm_num

/-- Claim C5 (amended): with a cap policy present and a non-trivial runnable
list whose non-wait entries are flagged, the erase loop of the cap filter
removes exactly the entries of the `drop` predicate — at least one result and
every result item over cap, where over cap additionally requires the cap
(absolute regime) or the factor (factor regime) to be nonnegative, a negative
value meaning no cap; the wait sentinel and processes with no results are
always kept; and when the filtered list retains no non-wait choice while no
processes are in flight, the first non-wait entry of the original list (then
necessarily its first filtered-out process) is appended back. -/
theorem cap_filter_removal (cfg : Config) (cand : Candidate)
    (runnable : List Int) (is_runnable : List Bool)
    (hli : ¬ cfg.maxStocks.limiting_item = "")
    (hne : ¬ (runnable = [] ∨ runnable = [-1]))
    (hflag : ∀ p ∈ runnable, 0 ≤ p → is_runnable.getD p.toNat false = true) :
    (¬ (cand.running = [] ∧ (dhsKept cfg cand runnable = [] ∨
        dhsKept cfg cand runnable = [-1])) →
      (delete_high_stock_processes cfg cand runnable is_runnable).1 =
        dhsKept cfg cand runnable) ∧
    (cand.running = [] ∧ (dhsKept cfg cand runnable = [] ∨
        dhsKept cfg cand runnable = [-1]) →
      (firstNonWait runnable = -1 →
        (delete_high_stock_processes cfg cand runnable is_runnable).1 =
          dhsKept cfg cand runnable) ∧
      (0 ≤ firstNonWait runnable →
        dropHigh cfg (dhsOver cfg cand) (firstNonWait runnable) = true ∧
        (delete_high_stock_processes cfg cand runnable is_runnable).1 =
          dhsKept cfg cand runnable ++ [firstNonWait runnable])) ∧
    (∀ p ∈ runnable, p < 0 →
      p ∈ (delete_high_stock_processes cfg cand runnable is_runnable).1) ∧
    (∀ p ∈ runnable, 0 ≤ p →
      (cfg.processes.getD p.toNat default).results_by_id = [] →
      p ∈ (delete_high_stock_processes cfg cand runnable is_runnable).1) := by
  have hspec := dhsScan_spec cfg (dhsOver cfg cand) runnable is_runnable (-1)
  have hnwfirst := dhsScan_nw_first cfg (dhsOver cfg cand) runnable is_runnable hflag
  set R := dhsScan cfg (dhsOver cfg cand) runnable is_runnable (-1) with hR
  have hr1 : R.1 = dhsKept cfg cand runnable := hspec.1
  have hdef : delete_high_stock_processes cfg cand runnable is_runnable =
      (if cand.running = [] ∧ R.2.2 ≠ -1 ∧ (R.1 = [] ∨ R.1 = [-1]) then
        if ¬ R.2.1.getD R.2.2.toNat false then
          (R.1 ++ [R.2.2], R.2.1.set R.2.2.toNat true)
        else (R.1, R.2.1)
      else (R.1, R.2.1)) := by
    rw [hR]
    unfold delete_high_stock_processes
    rw [if_neg hli, if_neg hne]
  by_cases hA : cand.running = [] ∧ (dhsKept cfg cand runnable = [] ∨
      dhsKept cfg cand runnable = [-1])
  · by_cases hB : (0 : Int) ≤ firstNonWait runnable
    · have hmem : firstNonWait runnable ∈ runnable := by
        rcases firstNonWait_eq runnable with h | h
        · rw [h] at hB
          exact absurd hB (by decide)
        · exact h.2
      have hdrop : dropHigh cfg (dhsOver cfg cand) (firstNonWait runnable) = true := by
        cases hform : dropHigh cfg (dhsOver cfg cand) (firstNonWait runnable) with
        | true => rfl
        | false =>
          exfalso
          have hink : firstNonWait runnable ∈ dhsKept cfg cand runnable :=
            List.mem_filter.mpr ⟨hmem, by simp [hform]⟩
          rcases hA.2 with h | h
          · rw [h] at hink
            cases hink
          · rw [h] at hink
            have h2 := List.mem_singleton.mp hink
            omega
      have hcond : cand.running = [] ∧ R.2.2 ≠ -1 ∧ (R.1 = [] ∨ R.1 = [-1]) := by
        refine ⟨hA.1, ?_, ?_⟩
        · rw [hnwfirst]
          omega
        · rw [hr1]
          exact hA.2
      have hflagf : R.2.1.getD R.2.2.toNat false = false := by
        rw [hnwfirst]
        exact hspec.2.2.2.2.1 _ hmem hdrop
      have hresult : (delete_high_stock_processes cfg cand runnable is_runnable).1 =
          dhsKept cfg cand runnable ++ [firstNonWait runnable] := by
        rw [hdef, if_pos hcond, if_pos (by rw [hflagf]; simp)]
        show R.1 ++ [R.2.2] = _
        rw [hr1, hnwfirst]
      have hsub : ∀ x ∈ dhsKept cfg cand runnable,
          x ∈ (delete_high_stock_processes cfg cand runnable is_runnable).1 := by
        intro x hx
        rw [hresult]
        exact List.mem_append_left _ hx
      refine ⟨fun hmain => absurd hA hmain,
        fun _ => ⟨fun h1 => absurd (h1 ▸ hB) (by decide),
          fun _ => ⟨hdrop, hresult⟩⟩, ?_, ?_⟩
      · intro p hp hneg
        exact hsub p (List.mem_filter.mpr
          ⟨hp, by simp [dropHigh_of_neg cfg (dhsOver cfg cand) p hneg]⟩)
      · intro p hp h0 hres
        exact hsub p (List.mem_filter.mpr
          ⟨hp, by simp [dropHigh_of_no_results cfg (dhsOver cfg cand) p
            (by omega) hres]⟩)
    · have hm1 : firstNonWait runnable = -1 := by
        rcases firstNonWait_eq runnable with h | h
        · exact h
        · exact absurd h.1 hB
      have hcondf : ¬ (cand.running = [] ∧ R.2.2 ≠ -1 ∧
          (R.1 = [] ∨ R.1 = [-1])) := by
        intro hc
        exact hc.2.1 (by rw [hnwfirst, hm1])
      have hresult : (delete_high_stock_processes cfg cand runnable is_runnable).1 =
          dhsKept cfg cand runnable := by
        rw [hdef, if_neg hcondf]
        show R.1 = _
        exact hr1
      have hsub : ∀ x ∈ dhsKept cfg cand runnable,
          x ∈ (delete_high_stock_processes cfg cand runnable is_runnable).1 := by
        intro x hx
        rw [hresult]
        exact hx
      refine ⟨fun hmain => absurd hA hmain,
        fun _ => ⟨fun _ => hresult, fun h0 => absurd h0 hB⟩, ?_, ?_⟩
      · intro p hp hneg
        exact hsub p (List.mem_filter.mpr
          ⟨hp, by simp [dropHigh_of_neg cfg (dhsOver cfg cand) p hneg]⟩)
      · intro p hp h0 hres
        exact hsub p (List.mem_filter.mpr
          ⟨hp, by simp [dropHigh_of_no_results cfg (dhsOver cfg cand) p
            (by omega) hres]⟩)
  · have hcondf : ¬ (cand.running = [] ∧ R.2.2 ≠ -1 ∧
        (R.1 = [] ∨ R.1 = [-1])) := by
      intro hc
      refine hA ⟨hc.1, ?_⟩
      rw [← hr1]
      exact hc.2.2
    have hresult : (delete_high_stock_processes cfg cand runnable is_runnable).1 =
        dhsKept cfg cand runnable := by
      rw [hdef, if_neg hcondf]
      show R.1 = _
      exact hr1
    have hsub : ∀ x ∈ dhsKept cfg cand runnable,
        x ∈ (delete_high_stock_processes cfg cand runnable is_runnable).1 := by
      intro x hx
      rw [hresult]
      exact hx
    refine ⟨fun _ => hresult, fun h => absurd h hA, ?_, ?_⟩
    · intro p hp hneg
      exact hsub p (List.mem_filter.mpr
        ⟨hp, by simp [dropHigh_of_neg cfg (dhsOver cfg cand) p hneg]⟩)
    · intro p hp h0 hres
      exact hsub p (List.mem_filter.mpr
        ⟨hp, by simp [dropHigh_of_no_results cfg (dhsOver cfg cand) p
          (by omega) hres]⟩)

/-- Witness for the amended claim C5 at a concrete filtering step. -/
theorem cap_filter_removal_witness :
    ¬ cfgC4.maxStocks.limiting_item = "" ∧
    (delete_high_stock_processes cfgC4 candW [0, 1, -1] [true, true]).1 =
      dhsKept cfgC4 candW [0, 1, -1] :=
  ⟨by decide,
    (cap_filter_removal cfgC4 candW [0, 1, -1] [true, true] (by decide)
      (by decide) (by decide)).1 (by decide)⟩

theorem gaInitLoop_break (els : Nat → Int) (budget : Int)
    (gen : Nat → Candidate) :
    ∀ (fuel : Nat) (acc : List Candidate) (t g : Nat),
      (gaInitLoop els budget gen fuel acc t g).1.length < acc.length + fuel →
      ∃ t0, t ≤ t0 ∧ budget < els t0 ∧
        (gaInitLoop els budget gen fuel acc t g).2.1 = t0 + 1
  | 0, acc, t, g, h => by
    rw [gaInitLoop] at h
    simp at h
  | fuel + 1, acc, t, g, h => by
    by_cases hb : budget < els t
    · refine ⟨t, le_refl t, hb, ?_⟩
      rw [gaInitLoop, if_pos hb]
    · rw [gaInitLoop, if_neg hb] at h ⊢
      have h' : (gaInitLoop els budget gen fuel (acc ++ [gen g]) (t + 1)
          (g + 1)).1.length < (acc ++ [gen g]).length + fuel := by
        rw [List.length_append]
        simpa [Nat.add_assoc, Nat.add_comm, Nat.add_left_comm] using h
      obtain ⟨t0, ht0, hb0, htick⟩ :=
        gaInitLoop_break els budget gen fuel (acc ++ [gen g]) (t + 1) (g + 1) h'
      exact ⟨t0, by omega, hb0, htick⟩

/-- Claim C6 (amended): if population initialization produces fewer than two
candidates, the time budget was necessarily already exhausted at some clock
reading during initialization; since elapsed time is monotone, the main loop
then exits at its very first budget check, so the driver returns the
initialized best candidate without any out-of-range read of the population —
but it performs no main-loop iteration at all: there is no crossover and no
fallback to random generation either. -/
theorem driver_small_population (cfg : Config) (els : Nat → Int)
    (gen : Nat → Candidate) (budget : Int)
    (hmono : Monotone els)
    (hsmall : (gaInitLoop els budget gen 100 [] 0 0).1.length < 2) :
    solve_with_ga cfg els gen budget =
      some ⟨⟨0, mkInitialStocks cfg, [], []⟩, 0, 0, 0⟩ := by
  obtain ⟨t0, _, hb0, htick⟩ :=
    gaInitLoop_break els budget gen 100 [] 0 0
      (by simp only [List.length_nil, Nat.zero_add]; omega)
  have hb1 : budget < els (gaInitLoop els budget gen 100 [] 0 0).2.1 := by
    rw [htick]
    exact lt_of_lt_of_le hb0 (hmono (Nat.le_succ t0))
  unfold solve_with_ga
  rw [gaMainLoop, if_pos hb1]

/-- Witness for the amended claim C6 at a concrete exhausted budget. -/
theorem driver_small_population_witness :
    (gaInitLoop (fun _ => (1 : Int)) 0 (fun _ => candW) 100 [] 0 0).1.length < 2 ∧
    solve_with_ga exConfig (fun _ => (1 : Int)) (fun _ => candW) 0 =
      some ⟨⟨0, mkInitialStocks exConfig, [], []⟩, 0, 0, 0⟩ :=
  ⟨by decide,
    driver_small_population exConfig (fun _ => (1 : Int)) (fun _ => candW) 0
      (fun _ _ _ => le_refl 1) (by decide)⟩

/-- Counterexample to claim C6 as stated: with the budget exhausted before
the first candidate is generated, the population has fewer than two members,
and the driver neither crosses over nor falls back to random generation — the
main loop executes zero iterations and generates nothing. -/
theorem driver_no_random_fallback_counterexample :
    (gaInitLoop (fun _ => (1 : Int)) 0 (fun _ => candW) 100 [] 0 0).1.length = 0 ∧
    (solve_with_ga exConfig (fun _ => (1 : Int)) (fun _ => candW) 0).map
      GARun.randGens = some 0 ∧
    (solve_with_ga exConfig (fun _ => (1 : Int)) (fun _ => candW) 0).map
      GARun.childGens = some 0 ∧
    (solve_with_ga exConfig (fun _ => (1 : Int)) (fun _ => candW) 0).map
      GARun.iters = some 0 := by
  refine ⟨by decide, by decide, by decide, by decide⟩

theorem sget_sset_self (st : List (String × Int)) (k : String) (v : Int) :
    sget (sset st k v) k = v := by
  induction st with
  | nil => simp [sget, sset, alookup]
  | cons kv rest ih =>
    by_cases hk : kv.1 = k
    · rw [sset, if_pos hk]
      simp [sget, alookup]
    · rw [sset, if_neg hk]
      rw [sget, alookup, if_neg hk]
      exact ih

theorem skip_no_match (l : List Char) (h : isSkipLine l = true) :
    matchTraceLine l = none := by
  match l with
  | [] => rfl
  | c :: rest =>
    have hc : c = '#' := by
      simp [isSkipLine] at h
      exact h
    subst hc
    rfl

theorem foldl_vstep_none (cfg : Config) :
    ∀ L : List (Nat × String), List.foldl (vstep cfg) none L = none
  | [] => rfl
  | x :: L => by
    rw [List.foldl_cons]
    have : vstep cfg none x = none := rfl
    rw [this]
    exact foldl_vstep_none cfg L

theorem verifLines_eq_replay (cfg : Config) :
    ∀ (lines : List (List Char)) (st : VerifState),
      (∀ l ∈ lines, isSkipLine l = true ∨ (matchTraceLine l).isSome = true) →
      verifLines cfg lines st = vreplay cfg st (lines.filterMap matchTraceLine)
  | [], st, _ => rfl
  | l :: ls, st, h => by
    by_cases hskip : isSkipLine l = true
    · rw [verifLines, if_pos hskip, List.filterMap_cons, skip_no_match l hskip]
      exact verifLines_eq_replay cfg ls st
        (fun x hx => h x (List.mem_cons_of_mem _ hx))
    · have hm : (matchTraceLine l).isSome = true := by
        rcases h l (List.mem_cons_self _ _) with h' | h'
        · exact absurd h' hskip
        · exact h'
      obtain ⟨cn, hcn⟩ := Option.isSome_iff_exists.mp hm
      rw [verifLines, if_neg hskip, hcn, List.filterMap_cons, hcn]
      cases hpl : processLaunch cfg st cn.1 cn.2 with
      | none =>
        simp only [hpl]
        rw [vreplay, List.foldl_cons]
        have hv : vstep cfg (some st) cn = none := by
          simp [vstep, hpl]
        rw [hv, foldl_vstep_none]
      | some st2 =>
        simp only [hpl]
        rw [vreplay, List.foldl_cons]
        have hv : vstep cfg (some st) cn = some st2 := by
          simp [vstep, hpl]
        rw [hv]
        exact verifLines_eq_replay cfg ls st2
          (fun x hx => h x (List.mem_cons_of_mem _ hx))

theorem vreplay_none_iff (cfg : Config) :
    ∀ (L : List (Nat × String)) (s0 : VerifState),
      vreplay cfg s0 L = none ↔
        ∃ pre l post, L = pre ++ l :: post ∧ ∃ s,
          vreplay cfg s0 pre = some s ∧ processLaunch cfg s l.1 l.2 = none
  | [], s0 => by
    refine iff_of_false (by simp [vreplay]) ?_
    rintro ⟨pre, l, post, habs, -⟩
    exact absurd habs (by simp)
  | x :: L, s0 => by
    cases hpl : processLaunch cfg s0 x.1 x.2 with
    | none =>
      refine iff_of_true ?_ ⟨[], x, L, rfl, s0, rfl, hpl⟩
      rw [vreplay, List.foldl_cons]
      have hv : vstep cfg (some s0) x = none := by
        simp [vstep, hpl]
      rw [hv]
      exact foldl_vstep_none cfg L
    | some s1 =>
      have hv : vstep cfg (some s0) x = some s1 := by
        simp [vstep, hpl]
      have hstep : vreplay cfg s0 (x :: L) = vreplay cfg s1 L := by
        rw [vreplay, List.foldl_cons, hv]
        rfl
      rw [hstep, vreplay_none_iff cfg L s1]
      constructor
      · rintro ⟨pre, l, post, heq, s, hs, hl⟩
        refine ⟨x :: pre, l, post, by rw [heq]; simp, s, ?_, hl⟩
        rw [vreplay, List.foldl_cons, hv]
        exact hs
      · rintro ⟨pre, l, post, heq, s, hs, hl⟩
        cases pre with
        | nil =>
          exfalso
          have hx : x = l := by
            simpa using congrArg (fun t => t.headD x) heq
          have hs0 : s = s0 := by
            simpa [vreplay] using hs.symm
          rw [hs0] at hl
          rw [hx] at hpl
          rw [hpl] at hl
          cases hl
        | cons y pre2 =>
          have hxy : x = y ∧ L = pre2 ++ l :: post := by
            constructor
            · simpa using congrArg (fun t => t.headD x) heq
            · simpa using congrArg List.tail heq
          refine ⟨pre2, l, post, hxy.2, s, ?_, hl⟩
          rw [← hxy.1] at hs
          rw [vreplay, List.foldl_cons, hv] at hs
          exact hs

theorem needsPartial_cons (st : List (String × Int)) (n : Item)
    (rest : List Item) (k : Nat) :
    needsPartial st (n :: rest) (k + 1) =
      needsPartial (sset st n.name (sget st n.name - n.qty)) rest k := by
  rw [needsPartial, needsPartial, List.take_succ_cons, List.foldl_cons]

theorem needsLoop_none_iff :
    ∀ (needs : List Item) (st : List (String × Int)),
      needsLoop st needs = none ↔
        ∃ j < needs.length,
          sget (needsPartial st needs (j + 1)) ((needs.getD j default).name) < 0
  | [], st => by
    refine iff_of_false (by simp [needsLoop]) ?_
    rintro ⟨j, hj, -⟩
    simp at hj
  | n :: rest, st => by
    by_cases hv : sget st n.name - n.qty < 0
    · refine iff_of_true (by rw [needsLoop, if_pos hv]) ?_
      refine ⟨0, by simp, ?_⟩
      rw [needsPartial_cons]
      rw [show needsPartial (sset st n.name (sget st n.name - n.qty)) rest 0 =
        sset st n.name (sget st n.name - n.qty) from rfl]
      show sget (sset st n.name (sget st n.name - n.qty)) ((n :: rest).getD 0 default).name < 0
      rw [show ((n :: rest).getD 0 default) = n from rfl]
      rw [sget_sset_self]
      exact hv
    · rw [needsLoop, if_neg hv]
      rw [needsLoop_none_iff rest (sset st n.name (sget st n.name - n.qty))]
      constructor
      · rintro ⟨j, hj, hneg⟩
        refine ⟨j + 1, by simpa using Nat.succ_lt_succ hj, ?_⟩
        rw [needsPartial_cons]
        rw [show ((n :: rest).getD (j + 1) default) = rest.getD j default from rfl]
        exact hneg
      · rintro ⟨j, hj, hneg⟩
        cases j with
        | zero =>
          exfalso
          rw [needsPartial_cons] at hneg
          rw [show needsPartial (sset st n.name (sget st n.name - n.qty)) rest 0 =
            sset st n.name (sget st n.name - n.qty) from rfl] at hneg
          rw [show ((n :: rest).getD 0 default) = n from rfl] at hneg
          rw [sget_sset_self] at hneg
          exact hv hneg
        | succ j2 =>
          refine ⟨j2, by simpa using Nat.lt_of_succ_lt_succ hj, ?_⟩
          rw [needsPartial_cons] at hneg
          rw [show ((n :: rest).getD (j2 + 1) default) = rest.getD j2 default from rfl] at hneg
          exact hneg

theorem processLaunch_none_iff (cfg : Config) (s : VerifState) (c : Nat)
    (nm : String) :
    processLaunch cfg s c nm = none ↔
      (findProcId cfg nm = none ∨
        ∃ pid, findProcId cfg nm = some pid ∧
          ∃ j < (cfg.processes.getD pid default).needs.length,
            sget (needsPartial
                (resolve_finished_processes cfg (c : Int) s.running s.stocks).2
                (cfg.processes.getD pid default).needs (j + 1))
              (((cfg.processes.getD pid default).needs.getD j default).name)
              < 0) := by
  cases hf : findProcId cfg nm with
  | none =>
    refine iff_of_true ?_ (Or.inl rfl)
    unfold processLaunch
    rw [hf]
  | some pid =>
    have hstep : processLaunch cfg s c nm =
        (match needsLoop
            (resolve_finished_processes cfg (c : Int) s.running s.stocks).2
            (cfg.processes.getD pid default).needs with
        | none => none
        | some st2 => some ⟨(c : Int), true,
            pqPush (resolve_finished_processes cfg (c : Int) s.running s.stocks).1
              ⟨(c : Int) + (cfg.processes.getD pid default).delay, pid⟩, st2⟩) := by
      unfold processLaunch
      rw [hf]
    rw [hstep]
    cases hn : needsLoop
        (resolve_finished_processes cfg (c : Int) s.running s.stocks).2
        (cfg.processes.getD pid default).needs with
    | none =>
      refine iff_of_true rfl (Or.inr ⟨pid, rfl, ?_⟩)
      exact (needsLoop_none_iff _ _).mp hn
    | some st2 =>
      refine iff_of_false (by simp) ?_
      rintro (h | ⟨pid2, hpid2, hbad⟩)
      · exact Option.noConfusion h
      · have hpe : pid2 = pid := (Option.some.inj hpid2).symm
        subst hpe
        have hcontra := (needsLoop_none_iff _ _).mpr hbad
        rw [hn] at hcontra
        exact Option.noConfusion hcontra

theorem resolve_keeps (cfg : Config) (cycle : Int) :
    ∀ (running : List RunningProcess) (stocks : List (String × Int)),
      List.Pairwise (fun a b => a.finish ≤ b.finish) running →
      (resolve_finished_processes cfg cycle running stocks).1 =
        running.filter (fun rp => decide (cycle < rp.finish))
  | [], st, _ => by simp [resolve_finished_processes]
  | rp :: rest, st, hp => by
    by_cases hf : rp.finish ≤ cycle
    · rw [resolve_finished_processes, if_pos hf, List.filter_cons,
        if_neg (by simp; omega)]
      exact resolve_keeps cfg cycle rest _ (List.pairwise_cons.mp hp).2
    · rw [resolve_finished_processes, if_neg hf]
      show rp :: rest = _
      symm
      rw [List.filter_eq_self]
      intro a ha
      rcases List.mem_cons.mp ha with h | h
      · subst h
        simp
        omega
      · have := (List.pairwise_cons.mp hp).1 a h
        simp
        omega

/-- Claim C7: over a trace whose every line is blank, a comment, or a
well-formed launch line, the verifier exits non-zero exactly when one of the
launches, replayed in order, names a process absent from the configuration or
drives some stock negative during its sequential need subtraction; and the
completion-resolution step performed before each launch removes exactly the
in-flight entries whose finish time is at most the line cycle. -/
theorem verifier_failure_iff (cfg : Config) (lines : List (List Char))
    (hwf : ∀ l ∈ lines, isSkipLine l = true ∨ (matchTraceLine l).isSome = true) :
    (krpsim_verif cfg lines = none ↔
      ∃ pre l post, lines.filterMap matchTraceLine = pre ++ l :: post ∧
        ∃ s : VerifState, vreplay cfg (initVState cfg) pre = some s ∧
          (findProcId cfg l.2 = none ∨
            ∃ pid, findProcId cfg l.2 = some pid ∧
              ∃ j < (cfg.processes.getD pid default).needs.length,
                sget (needsPartial
                    (resolve_finished_processes cfg (l.1 : Int) s.running s.stocks).2
                    (cfg.processes.getD pid default).needs (j + 1))
                  (((cfg.processes.getD pid default).needs.getD j default).name)
                  < 0)) ∧
    (∀ (cycle : Int) (running : List RunningProcess) (stocks : List (String × Int)),
      List.Pairwise (fun a b => a.finish ≤ b.finish) running →
      (resolve_finished_processes cfg cycle running stocks).1 =
        running.filter (fun rp => decide (cycle < rp.finish))) := by
  constructor
  · have h1 : krpsim_verif cfg lines = none ↔
        verifLines cfg lines (initVState cfg) = none := by
      unfold krpsim_verif
      cases h : verifLines cfg lines (initVState cfg) with
      | none => simp
      | some st => simp
    rw [h1, verifLines_eq_replay cfg lines (initVState cfg) hwf,
      vreplay_none_iff cfg (lines.filterMap matchTraceLine) (initVState cfg)]
    exact exists_congr fun pre => exists_congr fun l => exists_congr fun post =>
      and_congr_right fun _ => exists_congr fun s => and_congr_right fun _ =>
        processLaunch_none_iff cfg s l.1 l.2
  · exact fun cycle running stocks hp => resolve_keeps cfg cycle running stocks hp

/-- Witness for claim C7 at a concrete trace and resolution step. -/
theorem verifier_failure_iff_witness :
    (∀ l ∈ [("0:p".toList)], isSkipLine l = true ∨ (matchTraceLine l).isSome = true) ∧
    (resolve_finished_processes exConfig 5 [⟨2, 0⟩] exConfig.initialStocks).1 =
      [(⟨2, 0⟩ : RunningProcess)].filter (fun rp => decide ((5 : Int) < rp.finish)) :=
  ⟨by decide,
    (verifier_failure_iff exConfig [("0:p".toList)] (by decide)).2 5 [⟨2, 0⟩]
      exConfig.initialStocks (by simp)⟩

theorem verifLines_append (cfg : Config) :
    ∀ (pre L : List (List Char)) (st : VerifState),
      (∀ l ∈ pre, isSkipLine l = true ∨ (matchTraceLine l).isSome = true) →
      verifLines cfg (pre ++ L) st =
        (match verifLines cfg pre st with
          | none => none
          | some s => verifLines cfg L s)
  | [], L, st, _ => rfl
  | l :: pre2, L, st, h => by
    by_cases hskip : isSkipLine l = true
    · rw [List.cons_append, verifLines, if_pos hskip, verifLines, if_pos hskip]
      exact verifLines_append cfg pre2 L st
        (fun x hx => h x (List.mem_cons_of_mem _ hx))
    · have hm : (matchTraceLine l).isSome = true := by
        rcases h l (List.mem_cons_self _ _) with h2 | h2
        · exact absurd h2 hskip
        · exact h2
      obtain ⟨cn, hcn⟩ := Option.isSome_iff_exists.mp hm
      rw [List.cons_append, verifLines, if_neg hskip, hcn, verifLines,
        if_neg hskip, hcn]
      cases hpl : processLaunch cfg st cn.1 cn.2 with
      | none => simp only [hpl]
      | some st2 =>
        simp only [hpl]
        exact verifLines_append cfg pre2 L st2
          (fun x hx => h x (List.mem_cons_of_mem _ hx))

theorem processLaunch_started (cfg : Config) (s s2 : VerifState) (c : Nat)
    (nm : String) (h : processLaunch cfg s c nm = some s2) :
    s2.sim_started = true := by
  cases hf : findProcId cfg nm with
  | none =>
    have hnone : processLaunch cfg s c nm = none := by
      unfold processLaunch
      rw [hf]
    rw [hnone] at h
    exact Option.noConfusion h
  | some pid =>
    have hstep : processLaunch cfg s c nm =
        (match needsLoop
            (resolve_finished_processes cfg (c : Int) s.running s.stocks).2
            (cfg.processes.getD pid default).needs with
        | none => none
        | some st2 => some ⟨(c : Int), true,
            pqPush (resolve_finished_processes cfg (c : Int) s.running s.stocks).1
              ⟨(c : Int) + (cfg.processes.getD pid default).delay, pid⟩, st2⟩) := by
      unfold processLaunch
      rw [hf]
    rw [hstep] at h
    cases hn : needsLoop
        (resolve_finished_processes cfg (c : Int) s.running s.stocks).2
        (cfg.processes.getD pid default).needs with
    | none =>
      rw [hn] at h
      exact Option.noConfusion h
    | some st2 =>
      rw [hn] at h
      have h2 := Option.some.inj h
      rw [← h2]

theorem vreplay_started (cfg : Config) :
    ∀ (L : List (Nat × String)) (s0 s : VerifState), L ≠ [] →
      vreplay cfg s0 L = some s → s.sim_started = true
  | [], _, _, h, _ => absurd rfl h
  | x :: L, s0, s, _, hr => by
    cases hpl : processLaunch cfg s0 x.1 x.2 with
    | none =>
      exfalso
      have hv : vstep cfg (some s0) x = none := by
        simp [vstep, hpl]
      rw [vreplay, List.foldl_cons, hv, foldl_vstep_none] at hr
      exact Option.noConfusion hr
    | some s1 =>
      have hv : vstep cfg (some s0) x = some s1 := by
        simp [vstep, hpl]
      rw [vreplay, List.foldl_cons, hv] at hr
      cases L with
      | nil =>
        have h2 : s1 = s := Option.some.inj hr
        rw [← h2]
        exact processLaunch_started cfg s0 s1 x.1 x.2 hpl
      | cons y L2 =>
        exact vreplay_started cfg (y :: L2) s1 s (by simp) hr

/-- Counterexample to claim C10 as stated: the first line is a well-formed
launch line and the second fails to match, yet the verifier exits non-zero —
the unknown process aborts the run before the garbage line is ever reached,
so a trace with a garbage line after a well-formed launch line is not always
reported valid. -/
theorem verifier_garbage_counterexample :
    (matchTraceLine exUnknownLine).isSome = true ∧
    isSkipLine exGarbageLine = false ∧
    matchTraceLine exGarbageLine = none ∧
    krpsim_verif exConfig [exUnknownLine, exGarbageLine] = none := by
  refine ⟨by decide, by decide, by decide, by decide⟩

/-- Claim C10 (amended): if every line before the garbage line is blank, a
comment, or a launch line, at least one launch line occurs there, and that
prefix replays without failure, then the verifier silently stops at the first
non-matching line: the garbage line and everything after it are ignored, the
remaining in-flight processes are completed, and the run is reported valid —
the result equals the run on the prefix alone. -/
theorem verifier_garbage_line (cfg : Config) (pre rest : List (List Char))
    (g : List Char)
    (hpre : ∀ l ∈ pre, isSkipLine l = true ∨ (matchTraceLine l).isSome = true)
    (hlaunch : pre.filterMap matchTraceLine ≠ [])
    (hgs : isSkipLine g = false)
    (hgm : matchTraceLine g = none)
    (hok : (verifLines cfg pre (initVState cfg)).isSome = true) :
    krpsim_verif cfg (pre ++ g :: rest) = krpsim_verif cfg pre ∧
    (krpsim_verif cfg (pre ++ g :: rest)).isSome = true := by
  obtain ⟨s, hs⟩ := Option.isSome_iff_exists.mp hok
  have hsrep : vreplay cfg (initVState cfg) (pre.filterMap matchTraceLine) =
      some s := by
    rw [← verifLines_eq_replay cfg pre (initVState cfg) hpre]
    exact hs
  have hstarted : s.sim_started = true :=
    vreplay_started cfg (pre.filterMap matchTraceLine) (initVState cfg) s
      hlaunch hsrep
  have happ : verifLines cfg (pre ++ g :: rest) (initVState cfg) = some s := by
    rw [verifLines_append cfg pre (g :: rest) (initVState cfg) hpre, hs]
    show verifLines cfg (g :: rest) s = some s
    rw [verifLines, if_neg (by rw [hgs]; exact Bool.false_ne_true), hgm]
    rw [if_pos hstarted]
  constructor
  · unfold krpsim_verif
    rw [happ, hs]
  · unfold krpsim_verif
    rw [happ]
    rfl

/-- Witness for the amended claim C10 at a concrete trace: the garbage line
and the invalid launch line after it are ignored and the run equals the run
on the one-line prefix. -/
theorem verifier_garbage_line_witness :
    (matchTraceLine exGoodLine).isSome = true ∧
    krpsim_verif exConfig [exGoodLine, exGarbageLine, exUnknownLine] =
      krpsim_verif exConfig [exGoodLine] ∧
    (krpsim_verif exConfig [exGoodLine, exGarbageLine, exUnknownLine]).isSome =
      true :=
  ⟨by decide,
    (verifier_garbage_line exConfig [exGoodLine] [exUnknownLine] exGarbageLine
      (by decide) (by decide) (by decide) (by decide) (by decide)).1,
    (verifier_garbage_line exConfig [exGoodLine] [exUnknownLine] exGarbageLine
      (by decide) (by decide) (by decide) (by decide) (by decide)).2⟩

theorem foldl_preserve {α β : Type} (P : α → Prop) (f : α → β → α) :
    ∀ L : List β, (∀ a, ∀ b ∈ L, P a → P (f a b)) → ∀ a, P a → P (L.foldl f a)
  | [], _, _, h => h
  | b :: L, hf, a, h =>
    foldl_preserve P f L
      (fun a2 b2 hb2 => hf a2 b2 (List.mem_cons_of_mem _ hb2))
      (f a b) (hf a b (List.mem_cons_self _ _) h)

theorem alookup_append_of_some {β : Type} (k : String) (v : β) :
    ∀ (d : List (String × β)) (e : List (String × β)),
      alookup d k = some v → alookup (d ++ e) k = some v
  | [], _, h => Option.noConfusion h
  | kv :: d, e, h => by
    rw [List.cons_append]
    have h1 : alookup (kv :: d) k =
        if kv.1 = k then some kv.2 else alookup d k := rfl
    have h2 : alookup (kv :: (d ++ e)) k =
        if kv.1 = k then some kv.2 else alookup (d ++ e) k := rfl
    rw [h1] at h
    rw [h2]
    by_cases hk : kv.1 = k
    · rw [if_pos hk] at h ⊢
      exact h
    · rw [if_neg hk] at h ⊢
      exact alookup_append_of_some k v d e h

theorem alookup_append_self {β : Type} (k : String) (v : β) :
    ∀ d : List (String × β),
      alookup d k = none → alookup (d ++ [(k, v)]) k = some v
  | [], _ => by simp [alookup]
  | kv :: d, h => by
    rw [List.cons_append]
    have h1 : alookup (kv :: d) k =
        if kv.1 = k then some kv.2 else alookup d k := rfl
    have h2 : alookup (kv :: (d ++ [(k, v)])) k =
        if kv.1 = k then some kv.2 else alookup (d ++ [(k, v)]) k := rfl
    rw [h1] at h
    rw [h2]
    by_cases hk : kv.1 = k
    · rw [if_pos hk] at h
      exact Option.noConfusion h
    · rw [if_neg hk] at h ⊢
      exact alookup_append_self k v d h

theorem alookup_append_single_other {β : Type} (k n : String) (v : β)
    (hne : n ≠ k) :
    ∀ d : List (String × β), alookup (d ++ [(k, v)]) n = alookup d n
  | [] => by
    have h1 : alookup [(k, v)] n =
        if k = n then some v else alookup ([] : List (String × β)) n := rfl
    rw [List.nil_append, h1, if_neg (fun hc => hne hc.symm)]
  | kv :: d => by
    rw [List.cons_append]
    have h1 : alookup (kv :: (d ++ [(k, v)])) n =
        if kv.1 = n then some kv.2 else alookup (d ++ [(k, v)]) n := rfl
    have h2 : alookup (kv :: d) n =
        if kv.1 = n then some kv.2 else alookup d n := rfl
    rw [h1, h2]
    by_cases hk : kv.1 = n
    · rw [if_pos hk, if_pos hk]
    · rw [if_neg hk, if_neg hk]
      exact alookup_append_single_other k n v hne d

theorem alookup_mem {β : Type} (k : String) (v : β) :
    ∀ d : List (String × β), alookup d k = some v → (k, v) ∈ d
  | [], h => Option.noConfusion h
  | kv :: d, h => by
    rw [show alookup (kv :: d) k =
      (if kv.1 = k then some kv.2 else alookup d k) from rfl] at h
    by_cases hk : kv.1 = k
    · rw [if_pos hk] at h
      have h2 := Option.some.inj h
      have : kv = (k, v) := by
        cases kv
        simp_all
      rw [← this]
      exact List.mem_cons_self _ _
    · rw [if_neg hk] at h
      exact List.mem_cons_of_mem _ (alookup_mem k v d h)

theorem build_dist_map_preserve (procs : List Process) (k : String) (v : Nat) :
    ∀ (fuel : Nat) (goal : String) (depth : Nat) (dist : List (String × Nat)),
      alookup dist k = some v →
      alookup (build_dist_map procs fuel goal depth dist) k = some v
  | 0, _, _, _, h => h
  | fuel + 1, goal, depth, dist, h => by
    rw [build_dist_map]
    have hB : ∀ (g : String) (d : List (String × Nat)), alookup d k = some v →
        alookup (build_dist_map procs fuel g (depth + 1) d) k = some v :=
      fun g d hd => build_dist_map_preserve procs k v fuel g (depth + 1) d hd
    refine foldl_preserve (fun d => alookup d k = some v) _ procs ?_ dist h
    intro d p _ hd
    show alookup (bdmProc _ goal depth p d) k = some v
    unfold bdmProc
    refine foldl_preserve (fun d => alookup d k = some v) _ p.results ?_ d hd
    intro d2 item _ hd2
    dsimp only
    by_cases hig : item.name = goal
    · rw [if_pos hig]
      refine foldl_preserve
        (fun (st : List (String × Nat) × Bool) => alookup st.1 k = some v)
        _ p.needs ?_ (d2, true) hd2
      intro st nd _ hst
      unfold bdmNeedStep
      by_cases h1 : alookup st.1 nd.name = none
      · rw [if_pos h1]
        exact hB _ _ (alookup_append_of_some k v st.1 _ hst)
      · rw [if_neg h1]
        by_cases h2 : st.2 = false
        · rw [if_pos h2]
          exact hB _ _ hst
        · rw [if_neg h2]
          exact hst
    · rw [if_neg hig]
      exact hd2

theorem build_dist_map_mono (procs : List Process) (fuel : Nat) (goal : String)
    (depth : Nat) (dist : List (String × Nat)) (k : String)
    (h : alookup dist k ≠ none) :
    alookup (build_dist_map procs fuel goal depth dist) k ≠ none := by
  obtain ⟨v, hv⟩ := Option.ne_none_iff_exists'.mp h
  rw [build_dist_map_preserve procs k v fuel goal depth dist hv]
  exact Option.noConfusion

theorem distEntryOk_mono (procs : List Process) (goal0 : String)
    (d d' : List (String × Nat))
    (hmono : ∀ k, alookup d k ≠ none → alookup d' k ≠ none)
    (kv : String × Nat) (h : distEntryOk procs goal0 d kv) :
    distEntryOk procs goal0 d' kv := by
  rcases h with h | ⟨h1, p, hp, ⟨r, hr, hrd⟩, hnd⟩
  · exact Or.inl h
  · exact Or.inr ⟨h1, p, hp, ⟨r, hr, hmono _ hrd⟩, hnd⟩

theorem build_dist_map_sound (procs : List Process) (goal0 : String) :
    ∀ (fuel : Nat) (goal : String) (depth : Nat) (dist : List (String × Nat)),
      alookup dist goal ≠ none →
      distJustified procs goal0 dist →
      distJustified procs goal0 (build_dist_map procs fuel goal depth dist)
  | 0, _, _, _, _, hj => hj
  | fuel + 1, goal, depth, dist, hgdef, hj => by
    rw [build_dist_map]
    have hB : ∀ (g : String) (d : List (String × Nat)), alookup d g ≠ none →
        distJustified procs goal0 d →
        distJustified procs goal0 (build_dist_map procs fuel g (depth + 1) d) :=
      fun g d hd hjd => build_dist_map_sound procs goal0 fuel g (depth + 1) d hd hjd
    refine (foldl_preserve
      (fun d => alookup d goal ≠ none ∧ distJustified procs goal0 d)
      (fun d p => bdmProc
        (fun g d2 => build_dist_map procs fuel g (depth + 1) d2)
        goal depth p d)
      procs ?_ dist ⟨hgdef, hj⟩).2
    intro d p hp hd
    show alookup (bdmProc _ goal depth p d) goal ≠ none ∧
      distJustified procs goal0 (bdmProc _ goal depth p d)
    unfold bdmProc
    refine foldl_preserve
      (fun d => alookup d goal ≠ none ∧ distJustified procs goal0 d)
      _ p.results ?_ d hd
    intro d2 item hitem hd2
    dsimp only
    by_cases hig : item.name = goal
    · rw [if_pos hig]
      refine foldl_preserve
        (fun (st : List (String × Nat) × Bool) =>
          alookup st.1 goal ≠ none ∧ distJustified procs goal0 st.1)
        _ p.needs ?_ (d2, true) hd2
      intro st nd hnd hst
      unfold bdmNeedStep
      by_cases h1 : alookup st.1 nd.name = none
      · rw [if_pos h1]
        have hmono1 : ∀ k, alookup st.1 k ≠ none →
            alookup (st.1 ++ [(nd.name, depth + 1)]) k ≠ none := by
          intro k hk
          obtain ⟨w, hw⟩ := Option.ne_none_iff_exists'.mp hk
          rw [alookup_append_of_some k w st.1 _ hw]
          exact Option.noConfusion
        have hj1 : distJustified procs goal0 (st.1 ++ [(nd.name, depth + 1)]) := by
          intro kv hkv
          rcases List.mem_append.mp hkv with hkv | hkv
          · exact distEntryOk_mono procs goal0 st.1 _ hmono1 kv (hst.2 kv hkv)
          · have hkveq : kv = (nd.name, depth + 1) := List.mem_singleton.mp hkv
            subst hkveq
            refine Or.inr ⟨by omega, p, hp, ⟨item, hitem, ?_⟩, nd, hnd, rfl⟩
            rw [hig]
            exact hmono1 goal hst.1
        have hdef1 : alookup (st.1 ++ [(nd.name, depth + 1)]) nd.name ≠ none := by
          rw [alookup_append_self nd.name (depth + 1) st.1 h1]
          exact Option.noConfusion
        exact ⟨build_dist_map_mono procs fuel nd.name (depth + 1) _ goal
            (hmono1 goal hst.1),
          hB nd.name _ hdef1 hj1⟩
      · rw [if_neg h1]
        by_cases h2 : st.2 = false
        · rw [if_pos h2]
          exact ⟨build_dist_map_mono procs fuel nd.name (depth + 1) _ goal hst.1,
            hB nd.name _ h1 hst.2⟩
        · rw [if_neg h2]
          exact hst
    · rw [if_neg hig]
      exact hd2

theorem processedIn_mono (procs : List Process) (d d' : List (String × Nat))
    (n : String) (hmono : ∀ k, alookup d k ≠ none → alookup d' k ≠ none)
    (h : processedIn procs d n) : processedIn procs d' n :=
  fun p hp hex nd hnd => hmono _ (h p hp hex nd hnd)

theorem mem_needNames : ∀ (procs : List Process) (p : Process), p ∈ procs →
    ∀ nd ∈ p.needs, nd.name ∈ needNames procs
  | [], p, hp, _, _ => absurd hp (List.not_mem_nil p)
  | q :: procs, p, hp, nd, hnd => by
    rw [needNames]
    rcases List.mem_cons.mp hp with h | h
    · subst h
      exact List.mem_append_left _ (List.mem_map_of_mem Item.name hnd)
    · exact List.mem_append_right _ (mem_needNames procs p h nd hnd)

theorem filter_length_mono {α : Type} (p q : α → Bool)
    (himp : ∀ x, p x = true → q x = true) :
    ∀ L : List α, (L.filter p).length ≤ (L.filter q).length
  | [] => le_refl 0
  | x :: L => by
    rw [List.filter_cons, List.filter_cons]
    by_cases hp : p x = true
    · rw [if_pos hp, if_pos (himp x hp)]
      simpa using filter_length_mono p q himp L
    · rw [if_neg hp]
      by_cases hq : q x = true
      · rw [if_pos hq]
        have h2 := filter_length_mono p q himp L
        simp only [List.length_cons]
        omega
      · rw [if_neg hq]
        exact filter_length_mono p q himp L

theorem filter_length_lt {α : Type} (p q : α → Bool)
    (himp : ∀ x, q x = true → p x = true) :
    ∀ (L : List α) (x : α), x ∈ L → p x = true → q x = false →
      (L.filter q).length < (L.filter p).length
  | [], x, hx, _, _ => absurd hx (List.not_mem_nil x)
  | y :: L, x, hx, hpx, hqx => by
    rw [List.filter_cons, List.filter_cons]
    by_cases hxy : x = y
    · subst hxy
      rw [if_pos hpx, if_neg (by rw [hqx]; exact Bool.false_ne_true)]
      have hle := filter_length_mono q p himp L
      simp only [List.length_cons]
      omega
    · have hxL : x ∈ L := by
        rcases List.mem_cons.mp hx with h | h
        · exact absurd h hxy
        · exact h
      by_cases hpy : p y = true
      · rw [if_pos hpy]
        by_cases hqy : q y = true
        · rw [if_pos hqy]
          simpa using filter_length_lt p q himp L x hxL hpx hqx
        · rw [if_neg hqy]
          have h2 := filter_length_lt p q himp L x hxL hpx hqx
          simp only [List.length_cons]
          omega
      · rw [if_neg hpy, if_neg (fun hq => hpy (himp y hq))]
        exact filter_length_lt p q himp L x hxL hpx hqx

theorem newCount_mono (procs : List Process) (d d' : List (String × Nat))
    (h : ∀ k, alookup d k ≠ none → alookup d' k ≠ none) :
    newCount procs d' ≤ newCount procs d := by
  unfold newCount
  refine filter_length_mono _ _ ?_ _
  intro x hx
  rw [decide_eq_true_eq] at hx ⊢
  by_contra hc
  exact (h x hc) hx

theorem newCount_insert_lt (procs : List Process) (d : List (String × Nat))
    (n : String) (v : Nat) (hmem : n ∈ needNames procs)
    (habs : alookup d n = none) :
    newCount procs (d ++ [(n, v)]) < newCount procs d := by
  unfold newCount
  refine filter_length_lt _ _ ?_ (needNames procs).dedup n
    (List.mem_dedup.mpr hmem) ?_ ?_
  · intro x hx
    rw [decide_eq_true_eq] at hx ⊢
    by_cases hxn : x = n
    · subst hxn
      exact habs
    · rw [alookup_append_single_other n x v hxn d] at hx
      exact hx
  · rw [decide_eq_true_eq]
    exact habs
  · rw [show alookup (d ++ [(n, v)]) n = some v from
      alookup_append_self n v d habs]
    simp

theorem bdmNeedStep_mono (B : String → List (String × Nat) → List (String × Nat))
    (hBm : ∀ g d k, alookup d k ≠ none → alookup (B g d) k ≠ none)
    (depth : Nat) (st : List (String × Nat) × Bool) (nd : Item) (k : String)
    (hk : alookup st.1 k ≠ none) :
    alookup (bdmNeedStep B depth st nd).1 k ≠ none := by
  unfold bdmNeedStep
  by_cases h1 : alookup st.1 nd.name = none
  · rw [if_pos h1]
    refine hBm _ _ _ ?_
    obtain ⟨w, hw⟩ := Option.ne_none_iff_exists'.mp hk
    rw [alookup_append_of_some k w st.1 _ hw]
    exact Option.noConfusion
  · rw [if_neg h1]
    by_cases h2 : st.2 = false
    · rw [if_pos h2]
      exact hBm _ _ _ hk
    · rw [if_neg h2]
      exact hk

theorem bdmNeeds_defines (B : String → List (String × Nat) → List (String × Nat))
    (hBm : ∀ g d k, alookup d k ≠ none → alookup (B g d) k ≠ none)
    (depth : Nat) :
    ∀ (needs : List Item) (st : List (String × Nat) × Bool) (nd : Item),
      nd ∈ needs →
      alookup (needs.foldl (bdmNeedStep B depth) st).1 nd.name ≠ none
  | [], _, nd, h => absurd h (List.not_mem_nil nd)
  | nd0 :: rest, st, nd, h => by
    rw [List.foldl_cons]
    rcases List.mem_cons.mp h with h | h
    · subst h
      have hdef : alookup (bdmNeedStep B depth st nd).1 nd.name ≠ none := by
        unfold bdmNeedStep
        by_cases h1 : alookup st.1 nd.name = none
        · rw [if_pos h1]
          refine hBm _ _ _ ?_
          rw [alookup_append_self nd.name (depth + 1) st.1 h1]
          exact Option.noConfusion
        · rw [if_neg h1]
          by_cases h2 : st.2 = false
          · rw [if_pos h2]
            exact hBm _ _ _ h1
          · rw [if_neg h2]
            exact h1
      refine foldl_preserve
        (fun (st2 : List (String × Nat) × Bool) => alookup st2.1 nd.name ≠ none)
        (bdmNeedStep B depth) rest ?_ _ hdef
      intro a b _ ha
      exact bdmNeedStep_mono B hBm depth a b nd.name ha
    · exact bdmNeeds_defines B hBm depth rest _ nd h

theorem bdmProc_defines (B : String → List (String × Nat) → List (String × Nat))
    (hBm : ∀ g d k, alookup d k ≠ none → alookup (B g d) k ≠ none)
    (goal : String) (depth : Nat) (p : Process) :
    ∀ (results : List Item) (d : List (String × Nat)),
      (∃ r ∈ results, r.name = goal) → ∀ nd ∈ p.needs,
      alookup (results.foldl
        (fun d item => if item.name = goal
          then (p.needs.foldl (bdmNeedStep B depth) (d, true)).1 else d) d)
        nd.name ≠ none
  | [], _, ⟨r, hr, _⟩, _, _ => absurd hr (List.not_mem_nil r)
  | item :: rest, d, ⟨r, hr, hrg⟩, nd, hnd => by
    rw [List.foldl_cons]
    rcases List.mem_cons.mp hr with h | h
    · subst h
      rw [show (if r.name = goal
          then (p.needs.foldl (bdmNeedStep B depth) (d, true)).1 else d) =
          (p.needs.foldl (bdmNeedStep B depth) (d, true)).1 from by
        rw [if_pos hrg]]
      have hdef := bdmNeeds_defines B hBm depth p.needs (d, true) nd hnd
      refine foldl_preserve (fun d2 => alookup d2 nd.name ≠ none) _ rest ?_ _ hdef
      intro a b _ ha
      dsimp only
      by_cases hbg : b.name = goal
      · rw [if_pos hbg]
        refine foldl_preserve
          (fun (st : List (String × Nat) × Bool) => alookup st.1 nd.name ≠ none)
          (bdmNeedStep B depth) p.needs ?_ (a, true) ha
        intro a2 b2 _ ha2
        exact bdmNeedStep_mono B hBm depth a2 b2 nd.name ha2
      · rw [if_neg hbg]
        exact ha
    · by_cases hig : item.name = goal
      · rw [show (if item.name = goal
            then (p.needs.foldl (bdmNeedStep B depth) (d, true)).1 else d) =
            (p.needs.foldl (bdmNeedStep B depth) (d, true)).1 from by
          rw [if_pos hig]]
        exact bdmProc_defines B hBm goal depth p rest _ ⟨r, h, hrg⟩ nd hnd
      · rw [show (if item.name = goal
            then (p.needs.foldl (bdmNeedStep B depth) (d, true)).1 else d) = d
            from by rw [if_neg hig]]
        exact bdmProc_defines B hBm goal depth p rest _ ⟨r, h, hrg⟩ nd hnd

theorem bdmProcs_goal (B : String → List (String × Nat) → List (String × Nat))
    (hBm : ∀ g d k, alookup d k ≠ none → alookup (B g d) k ≠ none)
    (goal : String) (depth : Nat) :
    ∀ (ps : List Process) (d : List (String × Nat)) (p : Process), p ∈ ps →
      (∃ r ∈ p.results, r.name = goal) → ∀ nd ∈ p.needs,
      alookup (ps.foldl (fun d q => bdmProc B goal depth q d) d) nd.name ≠ none
  | [], _, p, hp, _, _, _ => absurd hp (List.not_mem_nil p)
  | q :: ps, d, p, hp, hex, nd, hnd => by
    rw [List.foldl_cons]
    rcases List.mem_cons.mp hp with h | h
    · subst h
      have hdef : alookup (bdmProc B goal depth p d) nd.name ≠ none := by
        unfold bdmProc
        exact bdmProc_defines B hBm goal depth p p.results d hex nd hnd
      refine foldl_preserve (fun d2 => alookup d2 nd.name ≠ none) _ ps ?_ _ hdef
      intro a b _ ha
      show alookup (bdmProc B goal depth b a) nd.name ≠ none
      unfold bdmProc
      refine foldl_preserve (fun d2 => alookup d2 nd.name ≠ none) _ b.results ?_ a ha
      intro a2 item _ ha2
      dsimp only
      by_cases hbg : item.name = goal
      · rw [if_pos hbg]
        refine foldl_preserve
          (fun (st : List (String × Nat) × Bool) => alookup st.1 nd.name ≠ none)
          (bdmNeedStep B depth) b.needs ?_ (a2, true) ha2
        intro a3 b3 _ ha3
        exact bdmNeedStep_mono B hBm depth a3 b3 nd.name ha3
      · rw [if_neg hbg]
        exact ha2
    · exact bdmProcs_goal B hBm goal depth ps _ p h hex nd hnd

theorem build_dist_map_complete (procs : List Process) :
    ∀ (fuel : Nat) (goal : String) (depth : Nat) (dist : List (String × Nat)),
      newCount procs dist < fuel →
      ((∀ p ∈ procs, (∃ r ∈ p.results, r.name = goal) → ∀ nd ∈ p.needs,
          alookup (build_dist_map procs fuel goal depth dist) nd.name ≠ none) ∧
        (∀ n, alookup dist n = none →
          alookup (build_dist_map procs fuel goal depth dist) n ≠ none →
          processedIn procs (build_dist_map procs fuel goal depth dist) n))
  | 0, _, _, _, h => absurd h (Nat.not_lt_zero _)
  | fuel + 1, goal, depth, dist, hf => by
    have hfle : newCount procs dist ≤ fuel := Nat.lt_succ_iff.mp hf
    have hBm : ∀ (g : String) (d : List (String × Nat)) (k : String),
        alookup d k ≠ none →
        alookup (build_dist_map procs fuel g (depth + 1) d) k ≠ none :=
      fun g d k hk => build_dist_map_mono procs fuel g (depth + 1) d k hk
    have hBC : ∀ (g : String) (d : List (String × Nat)),
        newCount procs d < fuel →
        ((∀ p ∈ procs, (∃ r ∈ p.results, r.name = g) → ∀ nd ∈ p.needs,
            alookup (build_dist_map procs fuel g (depth + 1) d) nd.name ≠ none) ∧
          (∀ n, alookup d n = none →
            alookup (build_dist_map procs fuel g (depth + 1) d) n ≠ none →
            processedIn procs (build_dist_map procs fuel g (depth + 1) d) n)) :=
      fun g d hlt => build_dist_map_complete procs fuel g (depth + 1) d hlt
    rw [build_dist_map]
    constructor
    · intro p hp hex nd hnd
      exact bdmProcs_goal (fun g d2 => build_dist_map procs fuel g (depth + 1) d2)
        (fun g d k hk => hBm g d k hk) goal depth procs dist p hp hex nd hnd
    · have hinv := foldl_preserve
        (fun d => (∀ k, alookup dist k ≠ none → alookup d k ≠ none) ∧
          newCount procs d ≤ newCount procs dist ∧
          (∀ n, alookup dist n = none → alookup d n ≠ none →
            processedIn procs d n))
        (fun d p => bdmProc
          (fun g d2 => build_dist_map procs fuel g (depth + 1) d2)
          goal depth p d)
        procs ?_ dist ⟨fun k hk => hk, le_refl _, fun n hn hn2 => absurd hn2 (fun hc => hc hn)⟩
      · exact hinv.2.2
      intro d p hp hd
      show (∀ k, alookup dist k ≠ none → alookup (bdmProc _ goal depth p d) k ≠ none) ∧
        newCount procs (bdmProc _ goal depth p d) ≤ newCount procs dist ∧
        (∀ n, alookup dist n = none → alookup (bdmProc _ goal depth p d) n ≠ none →
          processedIn procs (bdmProc _ goal depth p d) n)
      unfold bdmProc
      refine foldl_preserve
        (fun d2 => (∀ k, alookup dist k ≠ none → alookup d2 k ≠ none) ∧
          newCount procs d2 ≤ newCount procs dist ∧
          (∀ n, alookup dist n = none → alookup d2 n ≠ none →
            processedIn procs d2 n))
        _ p.results ?_ d hd
      intro d2 item _ hd2
      dsimp only
      by_cases hig : item.name = goal
      · rw [if_pos hig]
        have hstres := foldl_preserve
          (fun (st : List (String × Nat) × Bool) =>
            ((∀ k, alookup dist k ≠ none → alookup st.1 k ≠ none) ∧
              newCount procs st.1 ≤ newCount procs dist ∧
              (∀ n, alookup dist n = none → alookup st.1 n ≠ none →
                processedIn procs st.1 n)) ∧
            (st.2 = false → newCount procs st.1 < newCount procs dist))
          (bdmNeedStep (fun g d2 => build_dist_map procs fuel g (depth + 1) d2)
            depth)
          p.needs ?_ (d2, true)
          ⟨hd2, fun hc => Bool.noConfusion hc⟩
        · exact hstres.1
        intro st nd hnd hst
        obtain ⟨⟨hm, hnc, hpr⟩, hbool⟩ := hst
        unfold bdmNeedStep
        by_cases h1 : alookup st.1 nd.name = none
        · rw [if_pos h1]
          dsimp only
          have hmem : nd.name ∈ needNames procs := mem_needNames procs p hp nd hnd
          have hinslt : newCount procs (st.1 ++ [(nd.name, depth + 1)]) <
              newCount procs st.1 :=
            newCount_insert_lt procs st.1 nd.name (depth + 1) hmem h1
          have hm1 : ∀ k, alookup st.1 k ≠ none →
              alookup (st.1 ++ [(nd.name, depth + 1)]) k ≠ none := by
            intro k hk
            obtain ⟨w, hw⟩ := Option.ne_none_iff_exists'.mp hk
            rw [alookup_append_of_some k w st.1 _ hw]
            exact Option.noConfusion
          have hlt1 : newCount procs (st.1 ++ [(nd.name, depth + 1)]) < fuel := by
            omega
          obtain ⟨hg1, hn1⟩ := hBC nd.name (st.1 ++ [(nd.name, depth + 1)]) hlt1
          have hm2 : ∀ k, alookup (st.1 ++ [(nd.name, depth + 1)]) k ≠ none →
              alookup (build_dist_map procs fuel nd.name (depth + 1)
                (st.1 ++ [(nd.name, depth + 1)])) k ≠ none :=
            fun k hk => hBm nd.name _ k hk
          have hnc2 : newCount procs (build_dist_map procs fuel nd.name (depth + 1)
              (st.1 ++ [(nd.name, depth + 1)])) ≤
              newCount procs (st.1 ++ [(nd.name, depth + 1)]) :=
            newCount_mono procs _ _ hm2
          refine ⟨⟨?_, by omega, ?_⟩, fun _ => by omega⟩
          · intro k hk
            exact hm2 k (hm1 k (hm k hk))
          · intro n hn hndef
            by_cases h2 : alookup st.1 n = none
            · by_cases h3 : alookup (st.1 ++ [(nd.name, depth + 1)]) n = none
              · exact hn1 n h3 hndef
              · have hne : n = nd.name := by
                  by_contra hc
                  rw [alookup_append_single_other nd.name n (depth + 1) hc st.1]
                    at h3
                  exact h3 h2
                subst hne
                intro p2 hp2 hex2 nd2 hnd2
                exact hg1 p2 hp2 hex2 nd2 hnd2
            · have hpr2 := hpr n hn (fun hc => h2 hc)
              exact processedIn_mono procs st.1 _ n
                (fun k hk => hm2 k (hm1 k hk)) hpr2
        · rw [if_neg h1]
          by_cases h2 : st.2 = false
          · rw [if_pos h2]
            dsimp only
            have hnclt := hbool h2
            have hlt1 : newCount procs st.1 < fuel := by omega
            obtain ⟨hg1, hn1⟩ := hBC nd.name st.1 hlt1
            have hm2 : ∀ k, alookup st.1 k ≠ none →
                alookup (build_dist_map procs fuel nd.name (depth + 1) st.1)
                  k ≠ none :=
              fun k hk => hBm nd.name _ k hk
            have hnc2 : newCount procs (build_dist_map procs fuel nd.name
                (depth + 1) st.1) ≤ newCount procs st.1 :=
              newCount_mono procs _ _ hm2
            refine ⟨⟨?_, by omega, ?_⟩, fun _ => by omega⟩
            · intro k hk
              exact hm2 k (hm k hk)
            · intro n hn hndef
              by_cases h3 : alookup st.1 n = none
              · exact hn1 n h3 hndef
              · exact processedIn_mono procs st.1 _ n hm2
                  (hpr n hn (fun hc => h3 hc))
          · rw [if_neg h2]
            exact ⟨⟨hm, hnc, hpr⟩, hbool⟩
      · rw [if_neg hig]
        exact hd2

/-- Counterexample to claim C8 as stated: the analysis assigns `y` the depth
at which the depth-first walk first reaches it (`G → x → y`, distance 2), and
never lowers it, although `y` is also a need of a process producing `G`
itself (distance 0), so the claimed minimum over producers would be 1. -/
theorem dist_not_min_counterexample :
    pC8c ∈ cfgC8.processes ∧
    (⟨"G", 1⟩ : Item) ∈ pC8c.results ∧
    alookup (build_dist_for_config cfgC8) "G" = some 0 ∧
    (⟨"y", 1⟩ : Item) ∈ pC8c.needs ∧
    alookup (build_dist_for_config cfgC8) "y" = some 2 ∧
    ¬ ((2 : Nat) ≤ 0 + 1) := by
  refine ⟨by decide, by decide, by decide, by decide, by decide, by decide⟩

/-- Claim C8 (amended): after the analysis, the primary non-time objective
has distance 0; any other item has a distance exactly when it is a need of
some process one of whose results has a distance; and every such distance is
at least 1 — but it is the first depth assigned by the depth-first walk, not
the minimum of result distances plus one. -/
theorem dist_map_characterization (cfg : Config) (goal : String)
    (hg : cfg.optimizeKeys.find? (fun k => k ≠ "time") = some goal) :
    alookup (build_dist_for_config cfg) goal = some 0 ∧
    (∀ n, n ≠ goal →
      (alookup (build_dist_for_config cfg) n ≠ none ↔
        ∃ p ∈ cfg.processes,
          (∃ r ∈ p.results, alookup (build_dist_for_config cfg) r.name ≠ none) ∧
          ∃ nd ∈ p.needs, nd.name = n)) ∧
    (∀ n v, n ≠ goal → alookup (build_dist_for_config cfg) n = some v →
      1 ≤ v) := by
  have hd : build_dist_for_config cfg =
      build_dist_map cfg.processes (distFuel cfg.processes) goal 0 [(goal, 0)] := by
    unfold build_dist_for_config
    rw [hg]
  have hinit : alookup [(goal, (0 : Nat))] goal = some 0 := by
    rw [show alookup [(goal, (0 : Nat))] goal =
      (if goal = goal then some 0 else none) from rfl, if_pos rfl]
  have hinitdef : alookup [(goal, (0 : Nat))] goal ≠ none := by
    rw [hinit]
    exact Option.noConfusion
  have hjinit : distJustified cfg.processes goal [(goal, 0)] := by
    intro kv hkv
    have hkveq : kv = (goal, 0) := List.mem_singleton.mp hkv
    subst hkveq
    exact Or.inl rfl
  have hsound := build_dist_map_sound cfg.processes goal (distFuel cfg.processes)
    goal 0 [(goal, 0)] hinitdef hjinit
  have hfuel : newCount cfg.processes [(goal, 0)] < distFuel cfg.processes := by
    have h1 : newCount cfg.processes [(goal, 0)] ≤
        (needNames cfg.processes).dedup.length :=
      List.length_filter_le _ _
    unfold distFuel
    omega
  obtain ⟨hcomp1, hcomp2⟩ := build_dist_map_complete cfg.processes
    (distFuel cfg.processes) goal 0 [(goal, 0)] hfuel
  refine ⟨?_, ?_, ?_⟩
  · rw [hd]
    exact build_dist_map_preserve cfg.processes goal 0 (distFuel cfg.processes)
      goal 0 [(goal, 0)] hinit
  · intro n hn
    rw [hd]
    constructor
    · intro hdef
      obtain ⟨v, hv⟩ := Option.ne_none_iff_exists'.mp hdef
      have hmemv := alookup_mem n v _ hv
      rcases hsound (n, v) hmemv with h | ⟨-, p, hp, hexr, hnd⟩
      · exact absurd h hn
      · exact ⟨p, hp, hexr, hnd⟩
    · rintro ⟨p, hp, ⟨r, hr, hrdef⟩, nd, hnd, hname⟩
      by_cases hrg : alookup [(goal, (0 : Nat))] r.name = none
      · have hproc := hcomp2 r.name hrg hrdef
        have h2 := hproc p hp ⟨r, hr, rfl⟩ nd hnd
        rw [hname] at h2
        exact h2
      · have hrgoal : r.name = goal := by
          by_contra hc
          rw [show alookup [(goal, (0 : Nat))] r.name =
            (if goal = r.name then some 0 else none) from rfl,
            if_neg (fun h2 => hc h2.symm)] at hrg
          exact hrg rfl
        have h2 := hcomp1 p hp ⟨r, hr, hrgoal⟩ nd hnd
        rw [hname] at h2
        exact h2
  · intro n v hn hv
    rw [hd] at hv
    have hmemv := alookup_mem n v _ hv
    rcases hsound (n, v) hmemv with h | ⟨h1, -⟩
    · exact absurd h hn
    · exact h1

/-- Witness for the amended claim C8 at a concrete configuration. -/
theorem dist_map_characterization_witness :
    cfgC8.optimizeKeys.find? (fun k => k ≠ "time") = some "G" ∧
    alookup (build_dist_for_config cfgC8) "G" = some 0 :=
  ⟨by decide, (dist_map_characterization cfgC8 "G" (by decide)).1⟩

end Krpsim
